import Mathlib

/-!
# Verification of the byteplug toolkit's schema-driven validator/converter

This development shallowly embeds the core of the byteplug toolkit
(the `document`/`payload` packages): the recursive schema-interpretation
engine that validates schema blocks ("specs"/"format"), decodes JSON
documents into native values and encodes native values into JSON
documents.

Modelling conventions:
* JavaScript runtime values (both data nodes and, for the schema
  validator, raw schema blocks) are modelled by the inductive `Json`.
  `Json.undef` models JavaScript's `undefined` (which appears in
  best-effort partial results); `JSON.parse` never produces it.
* JavaScript numbers are modelled as exact rationals `ℚ` (a documented
  idealization: no IEEE-754 rounding).
* JavaScript objects are modelled as ordered association lists in
  `Object.entries` order; property assignment `o[k] = v` updates the
  value at the first occurrence of `k` or appends a new entry
  (`assocSet`), mirroring JavaScript insertion-order semantics.
* Code that throws a `TypeError` at runtime (e.g. `node.constructor`
  when `node` is `null`) is modelled with an `Except Crash` channel.
-/

namespace Byteplug

/-- A JavaScript value as seen by the validator/converter: the JSON
universe plus `undefined`. -/
inductive Json where
  | null
  | undef
  | bool (b : Bool)
  | num (q : ℚ)
  | str (s : String)
  | arr (items : List Json)
  | obj (entries : List (String × Json))
deriving Repr, BEq

/-- `o[k] = v` on a JavaScript object: replace the value at the first
occurrence of key `k`, keeping its position, or append `(k, v)`. -/
def assocSet (k : String) (v : Json) : List (String × Json) → List (String × Json)
  | [] => [(k, v)]
  | (k', v') :: rest =>
      if k' = k then (k, v) :: rest else (k', v') :: assocSet k v rest

/-- `k in o` / `Object.hasOwn`: the key is present (even if the stored
value is `undefined`). -/
def assocHas (k : String) : List (String × Json) → Bool
  | [] => false
  | (k', _) :: rest => k' = k || assocHas k rest

/-- Property read `o[k]`: the stored value, or `none` when the key is
absent (JavaScript yields `undefined`; absence and a stored `undefined`
are distinguished here because `in` distinguishes them). -/
def assocGet (k : String) : List (String × Json) → Option Json
  | [] => none
  | (k', v) :: rest => if k' = k then some v else assocGet k rest

/-- `Json.isNull`: the strict comparison `node === null`. -/
def Json.isNull : Json → Bool
  | .null => true
  | _ => false

/-! ## Number helpers

JavaScript numbers are modelled as exact rationals. `Number.isInteger`
becomes a denominator test, and `Number.parseInt` applied to a number
(which JavaScript evaluates by converting the number to a string and
parsing a leading integer) becomes truncation toward zero — accurate for
every number whose string form is a plain decimal numeral. -/

/-- `Number.isInteger`. -/
def ratIsInteger (q : ℚ) : Bool := q.den == 1

/-- `Number.parseInt` applied to a number: truncation toward zero,
returned as a rational. -/
def ratTrunc (q : ℚ) : ℚ := ((Int.tdiv q.num (q.den : Int) : Int) : ℚ)

/-- Digits of `n`, least significant first; the first argument is fuel
(any fuel `≥ n` is exact). `0` has no digits. -/
def natDigitsRev : Nat → Nat → List Nat
  | _, 0 => []
  | 0, _ + 1 => []
  | fuel + 1, n + 1 => ((n + 1) % 10) :: natDigitsRev fuel ((n + 1) / 10)

/-- The ASCII digit character for `d < 10`. -/
def digitChar (d : Nat) : Char := Char.ofNat (48 + d)

/-- Decimal digit characters of `n`, most significant first (empty for 0). -/
def natDigitChars (n : Nat) : List Char := (natDigitsRev n n).reverse.map digitChar

/-- `String(n)` for an integer-valued JavaScript number: the canonical
decimal numeral (idealized: JavaScript switches to exponent notation
only beyond 10^21, far outside every input considered here). -/
def intToString (n : Int) : String :=
  if n = 0 then "0"
  else if n < 0 then "-" ++ String.mk (natDigitChars n.natAbs)
  else String.mk (natDigitChars n.natAbs)

/-- Decimal digits of the fractional part `num/den` (with `num < den`),
fuel-bounded; exact whenever the expansion terminates (denominator
`2^a*5^b`, which covers every value a JavaScript double prints in
positional notation). -/
def fracDigitChars : Nat → Nat → Nat → List Char
  | _, _, 0 => []
  | 0, _, _ + 1 => []
  | fuel + 1, num, den + 1 =>
      if num = 0 then []
      else digitChar ((num * 10) / (den + 1)) :: fracDigitChars fuel ((num * 10) % (den + 1)) (den + 1)

/-- `String(q)` for a JavaScript number interpolated into an error
message (template literal `${...}`). -/
def numToString (q : ℚ) : String :=
  if q.den = 1 then intToString q.num
  else
    (if q.num < 0 then "-" else "")
      ++ String.mk (natDigitChars (q.num.natAbs / q.den)
          ++ ('.' :: fracDigitChars 1100 (q.num.natAbs % q.den) q.den))

/-! ## The name pattern and `parseFloat`

The literal regular expression `/^[a-zA-Z0-9\-\_]+$/` used for map field
names, string-kind object keys and enum values is internal to the source
(not the external pattern capability) and is modelled concretely.
`Number.parseFloat` (used for integer-kind object keys) is modelled as
an exact prefix parser returning `none` for `NaN` and for `±Infinity`
(its only caller treats both alike, through `Number.isInteger`). -/

/-- One character of the name pattern class `[a-zA-Z0-9\-\_]`. -/
def nameChar (c : Char) : Bool :=
  ('a' ≤ c && c ≤ 'z') || ('A' ≤ c && c ≤ 'Z') || ('0' ≤ c && c ≤ '9') || c == '-' || c == '_'

/-- `/^[a-zA-Z0-9\-\_]+$/.test(s)`. -/
def namePatternTest (s : String) : Bool := !s.isEmpty && s.toList.all nameChar

/-- ASCII decimal digit test. -/
def isDigitChar (c : Char) : Bool := '0' ≤ c && c ≤ '9'

/-- Whitespace skipped by `parseFloat` (the common JavaScript
`StrWhiteSpace` characters). -/
def jsWhitespace (c : Char) : Bool :=
  c == ' ' || c == '\t' || c == '\n' || c == '\r' || c == '\x0b' || c == '\x0c'

/-- Longest digit prefix and the rest. -/
def takeDigits : List Char → List Char × List Char
  | [] => ([], [])
  | c :: cs =>
      if isDigitChar c then
        let (ds, rest) := takeDigits cs
        (c :: ds, rest)
      else ([], c :: cs)

/-- Value of a digit-character list, most significant first. -/
def digitsVal (cs : List Char) : Nat :=
  cs.foldl (fun a c => 10 * a + (c.toNat - 48)) 0

/-- `Number.parseFloat`: skip whitespace, optional sign, then the longest
decimal-literal prefix (digits, optional fraction, optional exponent);
`none` models `NaN` (no digits at all) and `±Infinity`. The value
`sign × (int + frac·10^-k) × 10^e` is assembled as a single exact
fraction. -/
def jsParseFloat (s : String) : Option ℚ :=
  let cs := s.toList.dropWhile jsWhitespace
  let (sign, cs) : Int × List Char :=
    match cs with
    | '-' :: rest => (-1, rest)
    | '+' :: rest => (1, rest)
    | _ => (1, cs)
  if cs.take 8 = "Infinity".toList then none
  else
    let (ints, cs) := takeDigits cs
    let (fracs, cs) :=
      match cs with
      | '.' :: rest => takeDigits rest
      | _ => ([], cs)
    if ints.isEmpty && fracs.isEmpty then none
    else
      let exp : Int :=
        match cs with
        | e :: rest =>
            if e == 'e' || e == 'E' then
              let (esign, rest') : Int × List Char :=
                match rest with
                | '-' :: r => (-1, r)
                | '+' :: r => (1, r)
                | _ => (1, rest)
              let (eds, _) := takeDigits rest'
              if eds.isEmpty then 0 else esign * (digitsVal eds : Int)
            else 0
        | [] => 0
      some (mkRat
        (sign * (digitsVal ints * 10 ^ fracs.length + digitsVal fracs : Nat)
          * 10 ^ (max exp 0).toNat)
        (10 ^ fracs.length * 10 ^ (max (-exp) 0).toNat))

/-! ## Errors, warnings and exceptions -/

/-- `ValidationError` (exceptions.js): a structural path plus a message. -/
structure Err where
  path : List String
  message : String
deriving Repr, DecidableEq

/-- `ValidationWarning` (exceptions.js). -/
structure Warn where
  path : List String
  message : String
deriving Repr, DecidableEq

/-- A JavaScript `TypeError` escaping the walk (e.g. reading
`.constructor` of `null`); not a `ValidationError`. -/
inductive JsTypeError where
  | typeError
deriving Repr, DecidableEq

/-- The two byte-for-byte-identical converter sources differ only in the
noun phrases of their type-mismatch messages: `document.js`
(`documentToObject`, JSON vocabulary) versus `object.js`
(`objectToDocument`, native vocabulary). -/
inductive Mode where
  | decode
  | encode
deriving Repr, DecidableEq

/-- The five type-mismatch message literals of each source file. -/
inductive ExpectKind where
  | boolean
  | number
  | string
  | array
  | object
deriving Repr, DecidableEq

/-- The exact message literals of `processFlagNode`, `processNumberNode`,
`processStringNode`/`processEnumNode`, `processArrayNode`/
`processTupleNode` and `processObjectNode`/`processMapNode`. -/
def expectingMsg : Mode → ExpectKind → String
  | .decode, .boolean => "was expecting a JSON boolean"
  | .decode, .number => "was expecting a JSON number"
  | .decode, .string => "was expecting a JSON string"
  | .decode, .array => "was expecting a JSON array"
  | .decode, .object => "was expecting a JSON object"
  | .encode, .boolean => "was expecting a boolean"
  | .encode, .number => "was expecting a number"
  | .encode, .string => "was expecting a string"
  | .encode, .array => "was expecting an array"
  | .encode, .object => "was expecting an object"

/-! ## Schema blocks (trusted form)

The decoder and encoder require a schema block that has already passed
schema validation and read a fixed set of properties from it; that
trusted shape is captured by the inductive `Schema`. `option` records
the boolean `option` property with the absent case folded into `false`
(`adjustNode` and `processMapNode` treat `undefined` and `false`
alike); `decimal` keeps the absent case because `processNumberNode`
reads the default itself. -/

/-- A `minimum`/`maximum` property as stored in a number block: a bare
number, or an object with mandatory `value` and optional `exclusive`. -/
inductive NumBound where
  | bare (value : ℚ)
  | withExclusive (exclusive : Option Bool) (value : ℚ)
deriving Repr, DecidableEq

/-- The resolved form produced by `readMinimumValue`/`readMaximumValue`. -/
structure ResolvedBound where
  exclusive : Bool
  value : ℚ
deriving Repr, DecidableEq

/-- `readMinimumValue` (utility.js): a bare number is inclusive; in the
object form `exclusive` defaults to `false` (`specs.minimum.exclusive ||
false`). -/
def readMinimumValue : Option NumBound → Option ResolvedBound
  | none => none
  | some (.bare v) => some ⟨false, v⟩
  | some (.withExclusive ex v) => some ⟨ex.getD false, v⟩

/-- `readMaximumValue` (utility.js): identical resolution for `maximum`. -/
def readMaximumValue : Option NumBound → Option ResolvedBound
  | none => none
  | some (.bare v) => some ⟨false, v⟩
  | some (.withExclusive ex v) => some ⟨ex.getD false, v⟩

/-- A `length` property: a bare number (exact length) or an object with
optional `minimum`/`maximum`. -/
inductive LengthC where
  | exact (value : ℚ)
  | range (minimum maximum : Option ℚ)
deriving Repr, DecidableEq

/-- The `key` property of an object block. -/
inductive KeyKind where
  | integer
  | string
deriving Repr, DecidableEq

/-- A validated schema block ("specs"/"format"): the eight kinds with
exactly the properties the converters read. -/
inductive Schema where
  | flag (option : Bool)
  | number (option : Bool) (decimal : Option Bool) (minimum maximum : Option NumBound)
  | string (option : Bool) (length : Option LengthC) (pattern : Option String)
  | array (option : Bool) (length : Option LengthC) (value : Schema)
  | object (option : Bool) (key : KeyKind) (length : Option LengthC) (value : Schema)
  | tuple (option : Bool) (items : List Schema)
  | map (option : Bool) (fields : List (String × Schema))
  | enum (option : Bool) (values : List String)
deriving Repr

/-- The common `option` property (absent folded into `false`). -/
def Schema.option : Schema → Bool
  | .flag o => o
  | .number o _ _ _ => o
  | .string o _ _ => o
  | .array o _ _ => o
  | .object o _ _ _ => o
  | .tuple o _ => o
  | .map o _ => o
  | .enum o _ => o

/-- Field lookup `format.fields[key]` / `key in format.fields`. -/
def fieldsGet (k : String) : List (String × Schema) → Option Schema
  | [] => none
  | (k', s) :: rest => if k' = k then some s else fieldsGet k rest

/-- In-place update of one field's (sub-object) schema, used to thread
the mutation `checkLength` performs on nested blocks. -/
def fieldsSet (k : String) (s : Schema) : List (String × Schema) → List (String × Schema)
  | [] => []
  | (k', s') :: rest => if k' = k then (k, s) :: rest else (k', s') :: fieldsSet k s rest

/-- `checkLength` (utility.js). The `value` argument is the measured
count. Returns the length property as it stands after the call: the
source executes `length.minimum = Number.parseInt(length.minimum)` (and
likewise for `maximum`) on the object form, mutating the caller's
schema in place; the bare-number form only rebinds a local. On a failed
minimum check the function returns early, so `maximum` is then left
untouched. -/
def checkLength (value : ℚ) (length : LengthC) (path : List String) :
    LengthC × List Err :=
  match length with
  | .exact l =>
      let l' := ratTrunc l
      if value ≠ l' then
        (.exact l, [⟨path, "length must be equal to " ++ numToString l'⟩])
      else (.exact l, [])
  | .range minimum maximum =>
      match minimum with
      | some m =>
          let m' := ratTrunc m
          if ¬ value ≥ m' then
            (.range (some m') maximum,
              [⟨path, "length must be equal or greater than " ++ numToString m'⟩])
          else
            match maximum with
            | some mx =>
                let mx' := ratTrunc mx
                if ¬ value ≤ mx' then
                  (.range (some m') (some mx'),
                    [⟨path, "length must be equal or lower than " ++ numToString mx'⟩])
                else (.range (some m') (some mx'), [])
            | none => (.range (some m') none, [])
      | none =>
          match maximum with
          | some mx =>
              let mx' := ratTrunc mx
              if ¬ value ≤ mx' then
                (.range none (some mx'),
                  [⟨path, "length must be equal or lower than " ++ numToString mx'⟩])
              else (.range none (some mx'), [])
          | none => (.range none none, [])

/-- `if (format.length !== undefined) checkLength(...)`: the guarded
call shared by the string, array and object processors. -/
def checkLengthOpt (value : ℚ) (length : Option LengthC) (path : List String) :
    Option LengthC × List Err :=
  match length with
  | none => (none, [])
  | some l =>
      let (l', es) := checkLength value l path
      (some l', es)

/-! ## The converters (document.js `documentToObject` / object.js
`objectToDocument`)

The two files are byte-for-byte identical apart from the
`expectingMsg` noun phrases, so they are modelled once, parameterized
by `Mode`. `rt` is the external regular-expression capability
(`new RegExp(pattern).test(node)`). Each function returns the adjusted
value (`Json.undef` models the bare `return` of a failed processor),
the schema as it stands after the call (threading the in-place
mutation `checkLength` performs), and the `ValidationError`s pushed, or
a `JsTypeError` when the JavaScript would throw one. -/

/-- `processFlagNode`. -/
def processFlagNode (m : Mode) (path : List String) (node : Json) : Json × List Err :=
  match node with
  | .bool b => (.bool b, [])
  | _ => (.undef, [⟨path, expectingMsg m .boolean⟩])

/-- `processNumberNode`: resolve `decimal` (default `true`) and the two
bounds, check the node is a number, then the non-decimal check, then
both bound checks — the bound violations are collected into a local
`nodeErrors` list and appended together, minimum first. -/
def processNumberNode (m : Mode) (path : List String) (node : Json)
    (decimal : Option Bool) (minimum maximum : Option NumBound) : Json × List Err :=
  let dec := decimal.getD true
  let mn := readMinimumValue minimum
  let mx := readMaximumValue maximum
  match node with
  | .num q =>
      if dec = false ∧ ¬ ratIsInteger q then
        (.undef, [⟨path, "was expecting non-decimal number"⟩])
      else
        let minErrs : List Err :=
          match mn with
          | some b =>
              if b.exclusive then
                if ¬ q > b.value then
                  [⟨path, "value must be strictly greater than " ++ numToString b.value⟩]
                else []
              else
                if ¬ q ≥ b.value then
                  [⟨path, "value must be equal or greater than " ++ numToString b.value⟩]
                else []
          | none => []
        let maxErrs : List Err :=
          match mx with
          | some b =>
              if b.exclusive then
                if ¬ q < b.value then
                  [⟨path, "value must be strictly lower than " ++ numToString b.value⟩]
                else []
              else
                if ¬ q ≤ b.value then
                  [⟨path, "value must be equal or lower than " ++ numToString b.value⟩]
                else []
          | none => []
        if minErrs ++ maxErrs ≠ [] then (.undef, minErrs ++ maxErrs)
        else (.num q, [])
  | _ => (.undef, [⟨path, expectingMsg m .number⟩])

/-- `processStringNode`: type check, the guarded `checkLength` (pushing
straight into `errors`), then the pattern test. The local `nodeErrors`
of the source is dead code, so the node is returned even when length or
pattern errors were recorded. -/
def processStringNode (m : Mode) (rt : String → String → Bool) (path : List String)
    (node : Json) (length : Option LengthC) (pattern : Option String) :
    Json × Option LengthC × List Err :=
  match node with
  | .str s =>
      let (length', lenErrs) := checkLengthOpt (s.length : ℚ) length path
      let patErrs : List Err :=
        match pattern with
        | some p => if ¬ rt p s then [⟨path, "value did not match the pattern"⟩] else []
        | none => []
      (.str s, length', lenErrs ++ patErrs)
  | _ => (.undef, length, [⟨path, expectingMsg m .string⟩])

/-- `processEnumNode`: type check, then membership in `values`. -/
def processEnumNode (m : Mode) (path : List String) (node : Json)
    (values : List String) : Json × List Err :=
  match node with
  | .str s =>
      if values.contains s then (.str s, [])
      else (.undef, [⟨path, "enum value is invalid"⟩])
  | _ => (.undef, [⟨path, expectingMsg m .string⟩])

/-- The `missingKeys` filter of `processMapNode`: declared field names
absent from the adjusted node (a field processed to `undefined` counts
as present, since `key in adjustedNode` is true for it). -/
def missingKeysOf (fields : List (String × Schema)) (adjusted : List (String × Json)) :
    List String :=
  (fields.map Prod.fst).filter fun k => !assocHas k adjusted

/-- The `missingKeys.forEach` loop of `processMapNode`: a missing
non-optional field records `'<key>' field was missing`; a missing
optional field is appended to the adjusted node with a `null` value.
(The `none` lookup branch is unreachable: every missing key is a key of
`fields`.) -/
def synthesizeMissing (path : List String) (fields : List (String × Schema)) :
    List String → List (String × Json) → List (String × Json) × List Err
  | [], adjusted => (adjusted, [])
  | k :: rest, adjusted =>
      match fieldsGet k fields with
      | some s =>
          if s.option then synthesizeMissing path fields rest (assocSet k .null adjusted)
          else
            let (a, es) := synthesizeMissing path fields rest adjusted
            (a, ⟨path, "'" ++ k ++ "' field was missing"⟩ :: es)
      | none =>
          let (a, es) := synthesizeMissing path fields rest adjusted
          (a, ⟨path, "'" ++ k ++ "' field was missing"⟩ :: es)

mutual

/-- `adjustNode`: accept `null` when the block is optional, else
dispatch on `format.type`. The recursive processors
(`processArrayNode`, `processObjectNode`, `processTupleNode`,
`processMapNode`) are inlined as the corresponding match arms; the
scalar ones are the standalone functions above. -/
def adjustNode (m : Mode) (rt : String → String → Bool) (path : List String)
    (node : Json) (fmt : Schema) : Except JsTypeError (Json × Schema × List Err) :=
  if fmt.option && node.isNull then .ok (.null, fmt, [])
  else
    match fmt with
    | .flag o =>
        let (v, errs) := processFlagNode m path node
        .ok (v, .flag o, errs)
    | .number o d mn mx =>
        let (v, errs) := processNumberNode m path node d mn mx
        .ok (v, .number o d mn mx, errs)
    | .string o len pat =>
        let (v, len', errs) := processStringNode m rt path node len pat
        .ok (v, .string o len' pat, errs)
    | .enum o values =>
        let (v, errs) := processEnumNode m path node values
        .ok (v, .enum o values, errs)
    | .array o len val =>
        -- processArrayNode: `node.constructor !== Array` throws a
        -- TypeError on null/undefined; then the guarded length check,
        -- then every element at path `[i]`, pushing even failures.
        match node with
        | .null => .error .typeError
        | .undef => .error .typeError
        | .arr items => do
            let (len', lenErrs) := checkLengthOpt (items.length : ℚ) len path
            let (out, val', errs) ← adjustArrayItems m rt path val 0 items
            .ok (.arr out, .array o len' val', lenErrs ++ errs)
        | _ => .ok (.undef, .array o len val, [⟨path, expectingMsg m .array⟩])
    | .object o key len val =>
        -- processObjectNode: `node.constructor === Array || typeof node
        -- !== 'object'`; then the guarded length check over the key
        -- count, then every entry with its key checked per `format.key`.
        match node with
        | .null => .error .typeError
        | .undef => .error .typeError
        | .arr _ => .ok (.undef, .object o key len val, [⟨path, expectingMsg m .object⟩])
        | .obj entries => do
            let (len', lenErrs) := checkLengthOpt (entries.length : ℚ) len path
            let (out, val', errs) ← adjustObjectEntries m rt path key val 0 entries []
            .ok (.obj out, .object o key len' val', lenErrs ++ errs)
        | _ => .ok (.undef, .object o key len val, [⟨path, expectingMsg m .object⟩])
    | .tuple o fmts =>
        -- processTupleNode: `node.constructor !== Array`; then the
        -- arity check (abort, no per-item work), then each item against
        -- its own schema at path `<i>`.
        match node with
        | .null => .error .typeError
        | .undef => .error .typeError
        | .arr items =>
            if items.length ≠ fmts.length then
              .ok (.undef, .tuple o fmts,
                [⟨path, "length of the array must be " ++ toString fmts.length⟩])
            else do
              let (out, fmts', errs) ← adjustTupleItems m rt path 0 items fmts
              .ok (.arr out, .tuple o fmts', errs)
        | _ => .ok (.undef, .tuple o fmts, [⟨path, expectingMsg m .array⟩])
    | .map o fields =>
        -- processMapNode: `node.constructor === Array || typeof node
        -- !== 'object'`; then every entry (declared fields recurse at
        -- path `$key`, undeclared ones record `... field was
        -- unexpected`), then the missing-keys pass. The adjusted node
        -- is returned even when errors were recorded.
        match node with
        | .null => .error .typeError
        | .undef => .error .typeError
        | .arr _ => .ok (.undef, .map o fields, [⟨path, expectingMsg m .object⟩])
        | .obj entries => do
            let (adjusted, fields', errs) ← adjustMapEntries m rt path fields entries []
            let (adjusted', missErrs) :=
              synthesizeMissing path fields' (missingKeysOf fields' adjusted) adjusted
            .ok (.obj adjusted', .map o fields', errs ++ missErrs)
        | _ => .ok (.undef, .map o fields, [⟨path, expectingMsg m .object⟩])

/-- The `node.forEach` loop of `processArrayNode`: every element is
adjusted against the single `value` schema (threaded left to right) at
path `[i]`, and the result — possibly `undefined` — is pushed. -/
def adjustArrayItems (m : Mode) (rt : String → String → Bool) (path : List String)
    (val : Schema) (i : Nat) (items : List Json) :
    Except JsTypeError (List Json × Schema × List Err) :=
  match items with
  | [] => .ok ([], val, [])
  | x :: rest => do
      let (ax, val', errs) ← adjustNode m rt (path ++ [s!"[{i}]"]) x val
      let (out, val'', errs') ← adjustArrayItems m rt path val' (i + 1) rest
      .ok (ax :: out, val'', errs ++ errs')

/-- The `Object.keys(node).forEach` loop of `processObjectNode`. For
`key: 'integer'` the raw key goes through `Number.parseFloat` and
`Number.isInteger` (the source's `nodeKey === undefined` and
`nodeKey === NaN` disjuncts are always false; `none` here covers the
`NaN`/`±Infinity` parses that `Number.isInteger` rejects), and the
adjusted value is stored under the number key — i.e. its canonical
string form. For `key: 'string'` the raw key must match the name
pattern. A failed key check records the error and skips the entry. -/
def adjustObjectEntries (m : Mode) (rt : String → String → Bool) (path : List String)
    (key : KeyKind) (val : Schema) (i : Nat) (entries : List (String × Json))
    (acc : List (String × Json)) :
    Except JsTypeError (List (String × Json) × Schema × List Err) :=
  match entries with
  | [] => .ok (acc, val, [])
  | (k, v) :: rest =>
      match key with
      | .integer =>
          match jsParseFloat k with
          | some q =>
              if ratIsInteger q then do
                let (av, val', errs) ←
                  adjustNode m rt (path ++ ["\x7b" ++ k ++ "\x7d"]) v val
                let (out, val'', errs') ←
                  adjustObjectEntries m rt path key val' (i + 1) rest
                    (assocSet (intToString q.num) av acc)
                .ok (out, val'', errs ++ errs')
              else do
                let (out, val', errs') :=
                  (← adjustObjectEntries m rt path key val (i + 1) rest acc)
                .ok (out, val',
                  ⟨path, "key at index " ++ toString i
                    ++ " is invalid; expected it to be an integer"⟩ :: errs')
          | none => do
              let (out, val', errs') :=
                (← adjustObjectEntries m rt path key val (i + 1) rest acc)
              .ok (out, val',
                ⟨path, "key at index " ++ toString i
                  ++ " is invalid; expected it to be an integer"⟩ :: errs')
      | .string =>
          if namePatternTest k then do
            let (av, val', errs) ←
              adjustNode m rt (path ++ ["\x7b" ++ k ++ "\x7d"]) v val
            let (out, val'', errs') ←
              adjustObjectEntries m rt path key val' (i + 1) rest (assocSet k av acc)
            .ok (out, val'', errs ++ errs')
          else do
            let (out, val', errs') :=
              (← adjustObjectEntries m rt path key val (i + 1) rest acc)
            .ok (out, val',
              ⟨path, "key at index " ++ toString i
                ++ " is invalid; expected to match the pattern"⟩ :: errs')

/-- The `node.forEach` loop of `processTupleNode`: item `i` against
`format.items[i]` at path `<i>`. The arity was already checked, so the
mismatched case (where JavaScript would read `format.items[index]` as
`undefined` and throw) is unreachable. -/
def adjustTupleItems (m : Mode) (rt : String → String → Bool) (path : List String)
    (i : Nat) (items : List Json) (fmts : List Schema) :
    Except JsTypeError (List Json × List Schema × List Err) :=
  match items, fmts with
  | [], fs => .ok ([], fs, [])
  | x :: rest, f :: fs => do
      let (ax, f', errs) ← adjustNode m rt (path ++ ["<" ++ toString i ++ ">"]) x f
      let (out, fs', errs') ← adjustTupleItems m rt path (i + 1) rest fs
      .ok (ax :: out, f' :: fs', errs ++ errs')
  | _ :: _, [] => .error .typeError

/-- The `Object.entries(node)` loop of `processMapNode`: a declared
field recurses at path `$key` (the result — possibly `undefined` — is
stored), an undeclared one records `'<key>' field was unexpected`. -/
def adjustMapEntries (m : Mode) (rt : String → String → Bool) (path : List String)
    (fields : List (String × Schema)) (entries : List (String × Json))
    (acc : List (String × Json)) :
    Except JsTypeError (List (String × Json) × List (String × Schema) × List Err) :=
  match entries with
  | [] => .ok (acc, fields, [])
  | (k, v) :: rest =>
      match fieldsGet k fields with
      | some s => do
          let (av, s', errs) ← adjustNode m rt (path ++ ["$" ++ k]) v s
          let (out, fields', errs') ←
            adjustMapEntries m rt path (fieldsSet k s' fields) rest (assocSet k av acc)
          .ok (out, fields', errs ++ errs')
      | none => do
          let (out, fields', errs') := (← adjustMapEntries m rt path fields rest acc)
          .ok (out, fields', ⟨path, "'" ++ k ++ "' field was unexpected"⟩ :: errs')

end

/-! ## Public entry points

`documentToObject`, `objectToDocument`, `validateFormat`/`validateSpecs`
share the lazy/eager contract: the caller either omits the error
collection (eager: after the full walk, the first collected error is
thrown) or passes empty collections (lazy: the collections are filled
and the call returns normally). The `assert`ed precondition — supplied
collections must be empty — is built into the model, which returns the
collections instead of appending to caller arrays. The external
`JSON.parse`/`JSON.stringify` codec is modelled as the identity on
parsed values; a `ParseError` aborts before the walk and is outside
this model. -/

/-- What an eager call can throw: the first collected `ValidationError`,
or a `TypeError` escaping the walk. -/
inductive EagerFailure where
  | typeErrorThrown
  | validationError (e : Err)
deriving Repr, DecidableEq

/-- `documentToObject` (document.js) in eager mode: run the walk from an
empty path with fresh collections, then `throw errors[0]` if any. -/
def documentToObject (rt : String → String → Bool) (document : Json) (format : Schema) :
    Except EagerFailure Json :=
  match adjustNode .decode rt [] document format with
  | .error _ => .error .typeErrorThrown
  | .ok (v, _, errs) =>
      match errs with
      | [] => .ok v
      | e :: _ => .error (.validationError e)

/-- `documentToObject` in lazy mode: the adjusted (possibly partial)
value, the schema after the call, and the filled error collection. -/
def documentToObjectLazy (rt : String → String → Bool) (document : Json) (format : Schema) :
    Except JsTypeError (Json × Schema × List Err) :=
  adjustNode .decode rt [] document format

/-- `objectToDocument` (object.js) in eager mode (the serialization of
the adjusted value through the external codec is the identity here). -/
def objectToDocument (rt : String → String → Bool) (object : Json) (specs : Schema) :
    Except EagerFailure Json :=
  match adjustNode .encode rt [] object specs with
  | .error _ => .error .typeErrorThrown
  | .ok (v, _, errs) =>
      match errs with
      | [] => .ok v
      | e :: _ => .error (.validationError e)

/-- `objectToDocument` in lazy mode. -/
def objectToDocumentLazy (rt : String → String → Bool) (object : Json) (specs : Schema) :
    Except JsTypeError (Json × Schema × List Err) :=
  adjustNode .encode rt [] object specs

/-! ## The schema validator (format.js `validateFormat` / specs.js
`validateSpecs`)

The validator walks a *raw* block — arbitrary JavaScript data — so it
is modelled over `Json`. Property reads distinguish a stored
`undefined` from absence nowhere (`x !== undefined`), hence
`entriesGetDef`. -/

/-- `block.k !== undefined`: property read treating a stored `undefined`
like absence. -/
def entriesGetDef (k : String) (es : List (String × Json)) : Option Json :=
  match assocGet k es with
  | some .undef => none
  | o => o

/-- `Number.isInteger` on an arbitrary value. -/
def jsIsInteger : Json → Bool
  | .num q => ratIsInteger q
  | _ => false

/-- `x < 0` on an arbitrary value, modelled for numbers (JavaScript
would coerce other operands through `ToNumber`; every such operand has
already drawn a `value must be a number` error on the paths below). -/
def jsNegative : Json → Bool
  | .num q => q < 0
  | _ => false

mutual
/-- `String(v)` coercion, as applied by `RegExp.test` and template
literals to a non-string value. -/
def jsToString : Json → String
  | .str s => s
  | .num q => numToString q
  | .bool true => "true"
  | .bool false => "false"
  | .null => "null"
  | .undef => "undefined"
  | .arr xs => jsToStringElems xs
  | .obj _ => "[object Object]"

/-- `Array.prototype.toString`: elements joined by commas, with `null`
and `undefined` elements rendered empty. -/
def jsToStringElems : List Json → String
  | [] => ""
  | [x] =>
      match x with
      | .null => ""
      | .undef => ""
      | x => jsToString x
  | x :: y :: rest =>
      (match x with
        | .null => ""
        | .undef => ""
        | x => jsToString x) ++ "," ++ jsToStringElems (y :: rest)
end

/-- Strict equality `===` as used by `Array.prototype.includes` in
`validateEnumBlock`. Arrays and objects compare by reference in
JavaScript; distinct literals in this embedding are therefore unequal. -/
def jsStrictEq : Json → Json → Bool
  | .null, .null => true
  | .undef, .undef => true
  | .bool a, .bool b => a == b
  | .num a, .num b => a == b
  | .str a, .str b => a == b
  | _, _ => false

/-- `validateMinimumOrMaximumProperty` (format.js): a bare number
resolves inclusively; an object form is scanned for unexpected
properties, then `exclusive` (the source marks the resolved bound
exclusive whenever the property is present and boolean, regardless of
its value) and the mandatory numeric `value`. `typeof null ===
'object'`, so a `null` bound throws at `Object.keys`. -/
def validateMinimumOrMaximumProperty (name : String) (path : List String) (block : Json) :
    Except JsTypeError (Option ResolvedBound × List Err) :=
  match block with
  | .num q => .ok (some ⟨false, q⟩, [])
  | .null => .error .typeError
  | .arr xs =>
      -- every index key is an unexpected property
      if xs.isEmpty then
        .ok (none, [⟨path ++ [name], "'value' property is missing"⟩])
      else
        .ok (none, (List.range xs.length).map fun i =>
          ⟨path ++ [name], "'" ++ toString i ++ "' property is unexpected"⟩)
  | .obj es =>
      let extra := (es.map Prod.fst).filter fun p => !(["exclusive", "value"].contains p)
      if extra ≠ [] then
        .ok (none, extra.map fun p => ⟨path ++ [name], "'" ++ p ++ "' property is unexpected"⟩)
      else
        let (exclusive, exErrs) : Bool × List Err :=
          match entriesGetDef "exclusive" es with
          | none => (false, [])
          | some (.bool _) => (true, [])
          | some _ => (false, [⟨path ++ [name, "exclusive"], "value must be a bool"⟩])
        match entriesGetDef "value" es with
        | none => .ok (none, exErrs ++ [⟨path ++ [name], "'value' property is missing"⟩])
        | some (.num q) => .ok (some ⟨exclusive, q⟩, exErrs)
        | some _ => .ok (none, exErrs ++ [⟨path ++ [name, "value"], "value must be a number"⟩])
  | _ => .ok (none, [⟨path ++ [name], "value must be either a number or an object"⟩])

/-- `validateLengthProperty` (format.js): a bare number draws a warning
when not an integer and an error when negative; an object form is
scanned for unexpected properties (abort), then `minimum` and `maximum`
are each independently checked (number / integer-warning / negative),
and finally `minimum > maximum` is rejected. -/
def validateLengthProperty (path : List String) (value : Json) :
    Except JsTypeError (List Err × List Warn) :=
  let path' := path ++ ["length"]
  match value with
  | .num q =>
      .ok ((if q < 0 then [⟨path', "must be greater or equal to zero"⟩] else []),
        (if ¬ ratIsInteger q then [⟨path', "should be an integer (got decimal)"⟩] else []))
  | .null => .error .typeError
  | .arr xs =>
      if xs.isEmpty then .ok ([], [])
      else
        .ok ((List.range xs.length).map fun i =>
          ⟨path', "'" ++ toString i ++ "' property is unexpected"⟩, [])
  | .obj es =>
      let extra := (es.map Prod.fst).filter fun p => !(["minimum", "maximum"].contains p)
      if extra ≠ [] then
        .ok (extra.map fun p => ⟨path', "'" ++ p ++ "' property is unexpected"⟩, [])
      else
        let (minErrs, minWarns) : List Err × List Warn :=
          match entriesGetDef "minimum" es with
          | none => ([], [])
          | some v =>
              ((if ¬ v matches .num _ then
                  [⟨path' ++ ["minimum"], "value must be a number"⟩] else [])
                ++ (if jsNegative v then
                  [⟨path' ++ ["minimum"], "must be greater or equal to zero"⟩] else []),
                if ¬ jsIsInteger v then
                  [⟨path' ++ ["minimum"], "should be an integer (got decimal)"⟩] else [])
        let (maxErrs, maxWarns) : List Err × List Warn :=
          match entriesGetDef "maximum" es with
          | none => ([], [])
          | some v =>
              ((if ¬ v matches .num _ then
                  [⟨path' ++ ["maximum"], "value must be a number"⟩] else [])
                ++ (if jsNegative v then
                  [⟨path' ++ ["maximum"], "must be greater or equal to zero"⟩] else []),
                if ¬ jsIsInteger v then
                  [⟨path' ++ ["maximum"], "should be an integer (got decimal)"⟩] else [])
        let crossErrs : List Err :=
          match entriesGetDef "minimum" es, entriesGetDef "maximum" es with
          | some (.num a), some (.num b) =>
              if a > b then [⟨path', "minimum must be lower than maximum"⟩] else []
          | _, _ => []
        .ok (minErrs ++ maxErrs ++ crossErrs, minWarns ++ maxWarns)
  | _ => .ok ([⟨path', "value must be either a number or an object"⟩], [])

/-- The `block.values.forEach` loop of `validateEnumBlock`: a value
failing the name pattern is flagged (`'<value>' is an incorrect
value`) and skipped; a value equal to an already-processed one is
flagged (`'<value>' value is duplicated`); otherwise it joins
`processedValues`. -/
def enumValuesLoop (path : List String) :
    List Json → List Json → List Err
  | [], _ => []
  | v :: rest, processed =>
      if ¬ namePatternTest (jsToString v) then
        ⟨path ++ ["values"], "'" ++ jsToString v ++ "' is an incorrect value"⟩
          :: enumValuesLoop path rest processed
      else if processed.any (jsStrictEq · v) then
        ⟨path ++ ["values"], "'" ++ jsToString v ++ "' value is duplicated"⟩
          :: enumValuesLoop path rest processed
      else enumValuesLoop path rest (processed ++ [v])

/-- `validateEnumBlock` (format.js): `values` mandatory, must be an
array (`.constructor` throws on `null`), non-empty, then the
per-value loop. -/
def validateEnumBlock (path : List String) (es : List (String × Json)) :
    Except JsTypeError (List Err) :=
  match entriesGetDef "values" es with
  | none => .ok [⟨path, "'values' property is missing"⟩]
  | some .null => .error .typeError
  | some (.arr values) =>
      if values.isEmpty then .ok [⟨path ++ ["values"], "must contain at least one value"⟩]
      else .ok (enumValuesLoop path values [])
  | some _ => .ok [⟨path ++ ["values"], "value must be an array"⟩]

/-- `validateNumberBlock` (format.js): `decimal` boolean if present, the
two bounds independently resolved, then the cross check comparing raw
bound values (ignoring exclusivity). -/
def validateNumberBlock (path : List String) (es : List (String × Json)) :
    Except JsTypeError (List Err) := do
  let decErrs : List Err :=
    match entriesGetDef "decimal" es with
    | none => []
    | some (.bool _) => []
    | some _ => [⟨path ++ ["decimal"], "value must be a bool"⟩]
  let (mnB, mnErrs) ← match entriesGetDef "minimum" es with
    | none => pure ((none : Option ResolvedBound), ([] : List Err))
    | some b => validateMinimumOrMaximumProperty "minimum" path b
  let (mxB, mxErrs) ← match entriesGetDef "maximum" es with
    | none => pure ((none : Option ResolvedBound), ([] : List Err))
    | some b => validateMinimumOrMaximumProperty "maximum" path b
  let crossErrs : List Err :=
    match mnB, mxB with
    | some mn, some mx =>
        if mx.value < mn.value then [⟨path, "minimum must be lower than maximum"⟩] else []
    | _, _ => []
  pure (decErrs ++ mnErrs ++ mxErrs ++ crossErrs)

/-- `validateStringBlock` (format.js). -/
def validateStringBlock (path : List String) (es : List (String × Json)) :
    Except JsTypeError (List Err × List Warn) := do
  let (lenErrs, lenWarns) ← match entriesGetDef "length" es with
    | none => pure (([] : List Err), ([] : List Warn))
    | some l => validateLengthProperty path l
  let patErrs : List Err :=
    match entriesGetDef "pattern" es with
    | none => []
    | some (.str _) => []
    | some _ => [⟨path ++ ["pattern"], "value must be a string"⟩]
  pure (lenErrs ++ patErrs, lenWarns)

/-- A property value is structurally smaller than the entry list
holding it (for the validator's termination). -/
theorem sizeOf_assocGet {k : String} {es : List (String × Json)} {v : Json}
    (h : assocGet k es = some v) : sizeOf v < sizeOf es := by
  induction es with
  | nil => simp [assocGet] at h
  | cons p rest ih =>
      obtain ⟨k', v'⟩ := p
      simp only [assocGet] at h
      split at h
      · cases h
        simp
        omega
      · have := ih h
        simp
        omega

/-- A defined property value is structurally smaller than the object
holding it. -/
theorem sizeOf_entriesGetDef {k : String} {es : List (String × Json)} {v : Json}
    (h : entriesGetDef k es = some v) : sizeOf v < sizeOf (Json.obj es) := by
  have hv : assocGet k es = some v := by
    unfold entriesGetDef at h
    split at h
    · exact absurd h (by simp)
    · exact h
  have := sizeOf_assocGet hv
  simp
  omega

/-- The per-kind property tables of the `validators` map (format.js). -/
def kindProps : String → Option (List String)
  | "flag" => some []
  | "number" => some ["decimal", "minimum", "maximum"]
  | "string" => some ["length", "pattern"]
  | "array" => some ["value", "length"]
  | "object" => some ["key", "value", "length"]
  | "tuple" => some ["items"]
  | "map" => some ["fields"]
  | "enum" => some ["values"]
  | _ => none

mutual

/-- `validateBlock` (format.js): reject non-objects (`typeof null ===
'object'`, so a `null` block throws reading `block.type`; an array
passes `typeof` and then misses `type`), require a known `type`, flag
every unexpected property, run the kind-specific validator, then check
the common `name`/`description`/`option` properties — in that order. -/
def validateBlock (path : List String) (block : Json) :
    Except JsTypeError (List Err × List Warn) :=
  match block with
  | .null => .error .typeError
  | .arr _ => .ok ([⟨path, "'type' property is missing"⟩], [])
  | .obj entries =>
      (match hty : entriesGetDef "type" entries with
      | none => .ok ([⟨path, "'type' property is missing"⟩], [])
      | some t =>
          (match ht : t with
          | .str ty =>
              (match hk : kindProps ty with
              | none => .ok ([⟨path, "value of 'type' is incorrect"⟩], [])
              | some props => do
                  let common := ["name", "description", "type", "option"]
                  let extraErrs : List Err :=
                    ((entries.map Prod.fst).filter fun p =>
                      !(props.contains p || common.contains p)).map
                      fun p => ⟨path, "'" ++ p ++ "' property is unexpected"⟩
                  let (bodyErrs, bodyWarns) ←
                    (match ty with
                    | "flag" => pure (([] : List Err), ([] : List Warn))
                    | "number" => do
                        let es ← validateNumberBlock path entries
                        pure (es, [])
                    | "string" => validateStringBlock path entries
                    | "array" =>
                        -- validateArrayBlock: `value` mandatory (abort when
                        -- missing), recurse at `[]`, then the length property.
                        (match hv : entriesGetDef "value" entries with
                        | none => pure ([⟨path, "'value' property is missing"⟩], [])
                        | some v => do
                            let (es1, ws1) ← validateBlock (path ++ ["[]"]) v
                            let (es2, ws2) ← match entriesGetDef "length" entries with
                              | none => pure (([] : List Err), ([] : List Warn))
                              | some l => validateLengthProperty path l
                            pure (es1 ++ es2, ws1 ++ ws2))
                    | "object" => do
                        -- validateObjectBlock: recurse into `value` at `{}`
                        -- (or flag it missing), then `key`, then `length`.
                        let (vErrs, vWarns) ←
                          (match hv : entriesGetDef "value" entries with
                          | none =>
                              pure ([⟨path, "'value' property is missing"⟩],
                                ([] : List Warn))
                          | some v => validateBlock (path ++ ["\x7b\x7d"]) v)
                        let keyErrs : List Err :=
                          match entriesGetDef "key" entries with
                          | none => [⟨path, "'key' property is missing"⟩]
                          | some (.str "integer") => []
                          | some (.str "string") => []
                          | some _ =>
                              [⟨path, "value of 'key' must be either 'integer' or 'string'"⟩]
                        let (lErrs, lWarns) ← match entriesGetDef "length" entries with
                          | none => pure (([] : List Err), ([] : List Warn))
                          | some l => validateLengthProperty path l
                        pure (vErrs ++ keyErrs ++ lErrs, vWarns ++ lWarns)
                    | "tuple" =>
                        -- validateTupleBlock: `items` mandatory, an array
                        -- (`.constructor` throws on null), non-empty, then
                        -- each item at `<i>`.
                        (match hv : entriesGetDef "items" entries with
                        | none => pure ([⟨path, "'items' property is missing"⟩], [])
                        | some .null => .error .typeError
                        | some (.arr its) =>
                            if its.isEmpty then
                              pure ([⟨path ++ ["items"], "must contain at least one value"⟩], [])
                            else validateTupleItems path 0 its
                        | some _ =>
                            pure ([⟨path ++ ["items"], "value must be an array"⟩], []))
                    | "map" =>
                        -- validateMapBlock: `fields` mandatory, `typeof`
                        -- object (`Object.keys(null)` throws), non-empty,
                        -- then each field (name pattern, recursion at `$k`).
                        (match hv : entriesGetDef "fields" entries with
                        | none => pure ([⟨path, "'fields' property is missing"⟩], [])
                        | some .null => .error .typeError
                        | some (.obj fes) =>
                            if fes.isEmpty then
                              pure ([⟨path ++ ["fields"], "must contain at least one field"⟩], [])
                            else validateMapFields path fes
                        | some (.arr fits) =>
                            if fits.isEmpty then
                              pure ([⟨path ++ ["fields"], "must contain at least one field"⟩], [])
                            else validateMapArrFields path 0 fits
                        | some _ =>
                            pure ([⟨path ++ ["fields"], "value must be an object"⟩], []))
                    | _ => do
                        -- ty = "enum": the table has no other keys
                        let es ← validateEnumBlock path entries
                        pure (es, []))
                  let nameErrs : List Err :=
                    match entriesGetDef "name" entries with
                    | none => []
                    | some (.str _) => []
                    | some _ => [⟨path ++ ["name"], "value must be a string"⟩]
                  let descErrs : List Err :=
                    match entriesGetDef "description" entries with
                    | none => []
                    | some (.str _) => []
                    | some _ => [⟨path ++ ["description"], "value must be a string"⟩]
                  let optErrs : List Err :=
                    match entriesGetDef "option" entries with
                    | none => []
                    | some (.bool _) => []
                    | some _ => [⟨path ++ ["option"], "value must be a bool"⟩]
                  pure (extraErrs ++ bodyErrs ++ nameErrs ++ descErrs ++ optErrs, bodyWarns))
          | _ => .ok ([⟨path, "value of 'type' is incorrect"⟩], [])))
  | _ => .ok ([⟨path, "value must be an object"⟩], [])
termination_by sizeOf block
decreasing_by
  all_goals simp_wf
  all_goals
    have hlt := sizeOf_entriesGetDef hv
    simp at hlt
    omega

/-- The `block.items.forEach` loop of `validateTupleBlock`. -/
def validateTupleItems (path : List String) (i : Nat) (items : List Json) :
    Except JsTypeError (List Err × List Warn) :=
  match items with
  | [] => .ok ([], [])
  | x :: rest => do
      let (es1, ws1) ← validateBlock (path ++ ["<" ++ toString i ++ ">"]) x
      let (es2, ws2) ← validateTupleItems path (i + 1) rest
      .ok (es1 ++ es2, ws1 ++ ws2)
termination_by sizeOf items
decreasing_by
  all_goals simp
  all_goals omega

/-- The `Object.entries(block.fields)` loop of `validateMapBlock`: a
field name failing the pattern is flagged and its value skipped. -/
def validateMapFields (path : List String) (fes : List (String × Json)) :
    Except JsTypeError (List Err × List Warn) :=
  match fes with
  | [] => .ok ([], [])
  | (k, v) :: rest =>
      if ¬ namePatternTest k then do
        let (es, ws) ← validateMapFields path rest
        .ok (⟨path ++ ["fields"], "'" ++ k ++ "' is an incorrect key name"⟩ :: es, ws)
      else do
        let (es1, ws1) ← validateBlock (path ++ ["$" ++ k]) v
        let (es2, ws2) ← validateMapFields path rest
        .ok (es1 ++ es2, ws1 ++ ws2)
termination_by sizeOf fes
decreasing_by
  all_goals simp
  all_goals omega

/-- `Object.entries` of an *array* `fields` value: index keys (which
always match the name pattern) paired with the elements. -/
def validateMapArrFields (path : List String) (i : Nat) (items : List Json) :
    Except JsTypeError (List Err × List Warn) :=
  match items with
  | [] => .ok ([], [])
  | x :: rest => do
      let (es1, ws1) ← validateBlock (path ++ ["$" ++ toString i]) x
      let (es2, ws2) ← validateMapArrFields path (i + 1) rest
      .ok (es1 ++ es2, ws1 ++ ws2)
termination_by sizeOf items
decreasing_by
  all_goals simp
  all_goals omega

end

/-- `validateFormat` (format.js) / `validateSpecs` (specs.js) in lazy
mode. -/
def validateFormatLazy (format : Json) : Except JsTypeError (List Err × List Warn) :=
  validateBlock [] format

/-- `validateFormat` / `validateSpecs` in eager mode: full walk, then
`throw errors[0]` if any. -/
def validateFormat (format : Json) : Except EagerFailure Unit :=
  match validateBlock [] format with
  | .error _ => .error .typeErrorThrown
  | .ok (errs, _) =>
      match errs with
      | [] => .ok ()
      | e :: _ => .error (.validationError e)

/-! ## Shape tests used in claim statements -/

/-- `node` is a JavaScript array (an ordered sequence). -/
def Json.isArr : Json → Bool
  | .arr _ => true
  | _ => false

/-- `node === undefined`. -/
def Json.isUndef : Json → Bool
  | .undef => true
  | _ => false

/-! # Claims -/

/-- **C6.** For a number-kind block carrying both bounds and a numeric
raw value (not rejected by the `decimal` check), the two bound checks
use `>`/`≥` and `<`/`≤` according to each resolved bound's `exclusive`
flag, and the two violations are collected independently in the same
call, minimum first, with the messages
`value must be strictly/equal or greater/lower than N`; the node is
adjusted to itself exactly when neither check failed. -/
theorem c6_number_both_bounds_collected (m : Mode) (path : List String) (q : ℚ)
    (decimal : Option Bool) (bmin bmax : NumBound) (b1 b2 : ResolvedBound)
    (h1 : readMinimumValue (some bmin) = some b1)
    (h2 : readMaximumValue (some bmax) = some b2)
    (hdec : ¬ (decimal.getD true = false ∧ ¬ ratIsInteger q)) :
    processNumberNode m path (.num q) decimal (some bmin) (some bmax) =
      (let minE : List Err :=
        if (if b1.exclusive then q > b1.value else q ≥ b1.value) then []
        else [⟨path, "value must be " ++ (if b1.exclusive then "strictly" else "equal or")
          ++ " greater than " ++ numToString b1.value⟩]
      let maxE : List Err :=
        if (if b2.exclusive then q < b2.value else q ≤ b2.value) then []
        else [⟨path, "value must be " ++ (if b2.exclusive then "strictly" else "equal or")
          ++ " lower than " ++ numToString b2.value⟩]
      if minE ++ maxE = [] then (.num q, []) else (.undef, minE ++ maxE)) := by
  obtain ⟨e1, v1⟩ := b1
  obtain ⟨e2, v2⟩ := b2
  simp only [processNumberNode, h1, h2, if_neg hdec]
  cases e1 <;> cases e2 <;>
    by_cases hq1 : (if (false : Bool) then q > v1 else q ≥ v1) <;>
      simp_all <;> split_ifs <;> simp_all <;> linarith

/-- **C6 witness** (the spec's lazy-ordering example): `{type: number,
minimum: 43, maximum: 41}` decoding `42` collects exactly the two bound
errors, minimum first. -/
theorem c6_witness :
    processNumberNode .decode [] (.num 42) none (some (.bare 43)) (some (.bare 41)) =
      (.undef, [⟨[], "value must be equal or greater than 43"⟩,
        ⟨[], "value must be equal or lower than 41"⟩]) := by
  have h := c6_number_both_bounds_collected .decode [] 42 none (.bare 43) (.bare 41)
    ⟨false, 43⟩ ⟨false, 41⟩ rfl rfl (by decide)
  exact h.trans rfl

/-- **C7.** For a tuple-kind block with `n` item schemas: a raw array of
a different length draws the single error `length of the array must be
n` and no per-item work happens; a raw array of the right length has
item `i` adjusted against schema `i` at path segment `<i>` (items are
independent, so each child call runs against its own original schema),
errors concatenated in item order. -/
theorem c7_tuple_arity (m : Mode) (rt : String → String → Bool) (path : List String)
    (o : Bool) (fmts : List Schema) (items : List Json) :
    (items.length ≠ fmts.length →
      adjustNode m rt path (.arr items) (.tuple o fmts) =
        .ok (.undef, .tuple o fmts,
          [⟨path, "length of the array must be " ++ toString fmts.length⟩])) ∧
    (items.length = fmts.length →
      adjustNode m rt path (.arr items) (.tuple o fmts) =
        (adjustTupleItems m rt path 0 items fmts).map
          fun (out, fmts', errs) => (.arr out, .tuple o fmts', errs)) := by
  constructor
  · intro hne
    simp [adjustNode, Schema.option, Json.isNull, hne]
  · intro heq
    simp only [adjustNode, Schema.option, Json.isNull, Bool.and_false, Bool.false_and,
      Bool.and_self]
    simp only [heq, ne_eq, not_true_eq_false, if_false, Bool.if_false_left]
    cases h : adjustTupleItems m rt path 0 items fmts with
    | error e => simp [bind, Except.bind, h, Except.map]
    | ok r =>
        obtain ⟨out, fmts', errs⟩ := r
        simp [bind, Except.bind, h, Except.map]

/-- **C7 witness** (the spec's arity example): an array of length 4
against a 3-item tuple schema fails with `length of the array must be
3` and performs no per-item checks. -/
theorem c7_witness :
    adjustNode .decode (fun _ _ => true) []
      (.arr [.bool true, .bool false, .bool true, .bool true])
      (.tuple false [.flag false, .flag false, .flag false]) =
      .ok (.undef, .tuple false [.flag false, .flag false, .flag false],
        [⟨[], "length of the array must be 3"⟩]) :=
  (c7_tuple_arity .decode (fun _ _ => true) [] false
    [.flag false, .flag false, .flag false]
    [.bool true, .bool false, .bool true, .bool true]).1 (by decide)

/-- **C4.** For a non-optional array-kind block, a raw node that is not
an ordered sequence draws the `ValidationError` `was expecting a JSON
array` — except for `null` (and `undefined`), where the source instead
throws a `TypeError` reading `node.constructor`, so no
`ValidationError` is recorded at all. -/
theorem c4_array_type_check_and_null_crash (rt : String → String → Bool)
    (path : List String) (len : Option LengthC) (val : Schema) (node : Json)
    (harr : node.isArr = false) (hnull : node.isNull = false)
    (hundef : node.isUndef = false) :
    adjustNode .decode rt path node (.array false len val) =
      .ok (.undef, .array false len val, [⟨path, "was expecting a JSON array"⟩]) ∧
    adjustNode .decode rt path .null (.array false len val) = .error .typeError := by
  constructor
  · cases node <;>
      simp_all [adjustNode, Schema.option, Json.isNull, Json.isArr, Json.isUndef,
        expectingMsg]
  · simp [adjustNode, Schema.option, Json.isNull]

/-- **C4 witness**: decoding the number `42` against `{type: 'array',
value: {type: 'flag'}}` records the claimed error, while decoding
`null` throws a `TypeError`. -/
theorem c4_witness :
    adjustNode .decode (fun _ _ => true) [] (.num 42)
        (.array false none (.flag false)) =
      .ok (.undef, .array false none (.flag false),
        [⟨[], "was expecting a JSON array"⟩]) ∧
    adjustNode .decode (fun _ _ => true) [] .null
        (.array false none (.flag false)) = .error .typeError :=
  c4_array_type_check_and_null_crash (fun _ _ => true) [] none (.flag false)
    (.num 42) (by decide) (by decide) (by decide)

/-- **C3.** Decoding `"abc"` against the validated schema
`{type: 'string', length: {minimum: 2.5}}` (which passes schema
validation with only a warning) succeeds with no errors but returns
from the call with the schema's `length.minimum` overwritten by
`Number.parseInt(2.5) = 2`: the schema block is *not* treated as
read-only. -/
theorem c3_decode_mutates_length_minimum :
    documentToObjectLazy (fun _ _ => true) (.str "abc")
        (.string false (some (.range (some (mkRat 5 2)) none)) none) =
      .ok (.str "abc", .string false (some (.range (some 2) none)) none, []) ∧
    Schema.string false (some (.range (some (2 : ℚ)) none)) none ≠
      .string false (some (.range (some (mkRat 5 2)) none)) none := by
  constructor
  · rfl
  · simp only [ne_eq, Schema.string.injEq, Option.some.injEq, LengthC.range.injEq]
    decide

/-- **C2.** For every input, each of the three entry points in eager
mode fails with exactly the first element of the error list that the
identical lazy-mode call collects — and succeeds (returning the same
adjusted result) exactly when that list is empty. (A `TypeError`
escapes both modes alike.) -/
theorem c2_eager_is_first_lazy_error :
    (∀ (rt : String → String → Bool) (document : Json) (format : Schema),
      (∀ v, documentToObject rt document format = .ok v ↔
        ∃ s, documentToObjectLazy rt document format = .ok (v, s, [])) ∧
      (∀ e, documentToObject rt document format = .error (.validationError e) ↔
        ∃ v s errs, documentToObjectLazy rt document format = .ok (v, s, errs) ∧
          errs.head? = some e)) ∧
    (∀ (rt : String → String → Bool) (object : Json) (specs : Schema),
      (∀ v, objectToDocument rt object specs = .ok v ↔
        ∃ s, objectToDocumentLazy rt object specs = .ok (v, s, [])) ∧
      (∀ e, objectToDocument rt object specs = .error (.validationError e) ↔
        ∃ v s errs, objectToDocumentLazy rt object specs = .ok (v, s, errs) ∧
          errs.head? = some e)) ∧
    (∀ format : Json,
      (validateFormat format = .ok () ↔
        ∃ ws, validateFormatLazy format = .ok ([], ws)) ∧
      (∀ e, validateFormat format = .error (.validationError e) ↔
        ∃ errs ws, validateFormatLazy format = .ok (errs, ws) ∧
          errs.head? = some e)) := by
  refine ⟨fun rt document format => ?_, fun rt object specs => ?_, fun format => ?_⟩
  · unfold documentToObject documentToObjectLazy
    cases h : adjustNode .decode rt [] document format with
    | error e => simp
    | ok r =>
        obtain ⟨v, s, errs⟩ := r
        cases errs <;> simp <;> aesop
  · unfold objectToDocument objectToDocumentLazy
    cases h : adjustNode .encode rt [] object specs with
    | error e => simp
    | ok r =>
        obtain ⟨v, s, errs⟩ := r
        cases errs <;> simp <;> aesop
  · unfold validateFormat validateFormatLazy
    cases h : validateBlock [] format with
    | error e => simp
    | ok r =>
        obtain ⟨errs, ws⟩ := r
        cases errs <;> simp <;> aesop

/-! ## C8: enum schema validation -/

/-- The intended reading of the enum duplicate rule, for string values:
walking the values left to right, a value failing the name pattern is
flagged as incorrect; a value equal to one *seen earlier* is flagged as
duplicated (so a first occurrence, absent from `seen`, is never
flagged). -/
def enumErrsSpec (path : List String) : List String → List String → List Err
  | _, [] => []
  | seen, v :: rest =>
      (if ¬ namePatternTest v then
        [⟨path ++ ["values"], "'" ++ v ++ "' is an incorrect value"⟩]
      else if v ∈ seen then
        [⟨path ++ ["values"], "'" ++ v ++ "' value is duplicated"⟩]
      else [])
      ++ enumErrsSpec path (seen ++ [v]) rest

/-- The `processedValues` accumulator agrees with the seen-prefix test
of `enumErrsSpec`: for string values, `processedValues.includes(v)`
holds exactly when a valid `v` already occurred (invalid occurrences
are never added, but an occurrence equal to a valid string is itself
that valid string). -/
theorem enumValuesLoop_eq_spec (path : List String) :
    ∀ (values : List String) (seen : List String) (processed : List Json),
      (∀ w : String, processed.any (jsStrictEq · (.str w)) =
        (decide (w ∈ seen) && namePatternTest w)) →
      enumValuesLoop path (values.map .str) processed = enumErrsSpec path seen values := by
  intro values
  induction values with
  | nil => intro seen processed _; rfl
  | cons v rest ih =>
      intro seen processed hinv
      by_cases hval : namePatternTest v
      · by_cases hdup : v ∈ seen
        · have hmem : (processed.any fun x => jsStrictEq x (Json.str v)) = true := by
            rw [hinv v]
            simp [hdup, hval]
          simp only [List.map_cons, enumValuesLoop, enumErrsSpec, jsToString, hval, hdup,
            hmem, not_true_eq_false, if_false, if_true, ite_true, ite_false,
            List.singleton_append]
          congr 1
          apply ih
          intro w
          rw [hinv w]
          by_cases hw : w = v
          · subst hw
            simp [hdup]
          · have : (w ∈ seen ++ [v]) ↔ w ∈ seen := by simp [hw]
            simp [this]
        · have hmem : (processed.any fun x => jsStrictEq x (Json.str v)) = false := by
            rw [hinv v]
            simp [hdup]
          simp only [List.map_cons, enumValuesLoop, enumErrsSpec, jsToString, hval, hdup,
            hmem, not_true_eq_false, if_false, if_true, ite_true, ite_false,
            Bool.false_eq_true, List.nil_append]
          apply ih
          intro w
          by_cases hw : w = v
          · subst hw
            simp [jsStrictEq, hval]
          · have hvw : (v == w) = false := by
              refine beq_eq_false_iff_ne.mpr ?_
              exact fun h => hw h.symm
            have h1 : jsStrictEq (Json.str v) (Json.str w) = (v == w) := rfl
            have hmm : (w ∈ seen ++ [v]) ↔ w ∈ seen := by simp [hw]
            simp only [List.any_append, List.any_cons, List.any_nil, h1, hvw,
              Bool.or_false, hmm, hinv w]
      · simp only [List.map_cons, enumValuesLoop, enumErrsSpec, jsToString, hval,
          Bool.false_eq_true, not_false_eq_true, if_true, List.singleton_append]
        congr 1
        apply ih
        intro w
        rw [hinv w]
        by_cases hw : w = v
        · subst hw
          simp [hval]
        · have : (w ∈ seen ++ [v]) ↔ w ∈ seen := by simp [hw]
          simp [this]

/-- **C8.** Enum schema validation requires a non-empty `values` array;
walking it left to right, each string value must match the name pattern
(else `'<value>' is an incorrect value`), and each occurrence equal to
an earlier one draws `'<value>' value is duplicated` attributed to that
later occurrence — a first occurrence is never flagged (its `seen`
prefix cannot contain it). -/
theorem c8_enum_duplicates (path : List String) (es : List (String × Json))
    (values : List String)
    (hv : entriesGetDef "values" es = some (.arr (values.map .str))) :
    (values = [] → validateEnumBlock path es =
      .ok [⟨path ++ ["values"], "must contain at least one value"⟩]) ∧
    (values ≠ [] → validateEnumBlock path es =
      .ok (enumErrsSpec path [] values)) := by
  constructor
  · intro h
    subst h
    simp [validateEnumBlock, hv]
  · intro h
    have hne : (values.map Json.str).isEmpty = false := by
      cases values with
      | nil => exact absurd rfl h
      | cons a l => simp
    simp only [validateEnumBlock, hv, hne, Bool.false_eq_true, if_false]
    rw [enumValuesLoop_eq_spec path values [] []]
    intro v
    simp

/-- **C8 witness** (the spec's example): `{type: 'enum', values:
["foo", "bar", "foo"]}` draws exactly one error, `'foo' value is
duplicated`, produced while processing the second occurrence of
`"foo"` (the third element); the first occurrence is not flagged. -/
theorem c8_witness :
    validateEnumBlock [] [("values", .arr [.str "foo", .str "bar", .str "foo"])] =
      .ok [⟨["values"], "'foo' value is duplicated"⟩] := by
  have h := (c8_enum_duplicates [] [("values", .arr [.str "foo", .str "bar", .str "foo"])]
    ["foo", "bar", "foo"] rfl).2 (by decide)
  exact h.trans rfl

/-! ## Child-call projections and association-list lemmas

`childValue`/`childErrs` name the components of one recursive
`adjustNode` call; the claims' characterizations are phrased with them
(under each theorem's no-throw premise the call is `.ok`, so the
`.error` fallbacks are never reached). -/

/-- The adjusted value of one child `adjustNode` call. -/
def childValue (m : Mode) (rt : String → String → Bool) (path : List String)
    (node : Json) (fmt : Schema) : Json :=
  match adjustNode m rt path node fmt with
  | .ok (a, _, _) => a
  | .error _ => Json.undef

/-- The errors recorded by one child `adjustNode` call. -/
def childErrs (m : Mode) (rt : String → String → Bool) (path : List String)
    (node : Json) (fmt : Schema) : List Err :=
  match adjustNode m rt path node fmt with
  | .ok (_, _, es) => es
  | .error _ => []

theorem fieldsSet_map_fst (k : String) (s : Schema) :
    ∀ F : List (String × Schema), (fieldsSet k s F).map Prod.fst = F.map Prod.fst := by
  intro F
  induction F with
  | nil => rfl
  | cons p rest ih =>
      obtain ⟨k', s'⟩ := p
      simp only [fieldsSet]
      split
      · simp_all
      · simp [ih]

theorem fieldsGet_fieldsSet_ne {k k' : String} (s : Schema) (h : k' ≠ k) :
    ∀ F : List (String × Schema), fieldsGet k' (fieldsSet k s F) = fieldsGet k' F := by
  intro F
  induction F with
  | nil => rfl
  | cons p rest ih =>
      obtain ⟨k0, s0⟩ := p
      by_cases h0 : k0 = k
      · subst h0
        simp only [fieldsSet, if_pos rfl, fieldsGet]
        rw [if_neg (fun hh => h hh.symm), if_neg (fun hh => h hh.symm)]
      · simp only [fieldsSet, if_neg h0, fieldsGet]
        by_cases h1 : k0 = k'
        · rw [if_pos h1, if_pos h1]
        · rw [if_neg h1, if_neg h1, ih]

theorem assocSet_fresh {k : String} (v : Json) :
    ∀ acc : List (String × Json), assocHas k acc = false →
      assocSet k v acc = acc ++ [(k, v)] := by
  intro acc
  induction acc with
  | nil => intro _; rfl
  | cons p rest ih =>
      obtain ⟨k', v'⟩ := p
      intro h
      simp only [assocHas, Bool.or_eq_false_iff, decide_eq_false_iff_not] at h
      simp only [assocSet, if_neg h.1, List.cons_append]
      rw [ih h.2]

theorem assocHas_append (k : String) (a b : List (String × Json)) :
    assocHas k (a ++ b) = (assocHas k a || assocHas k b) := by
  induction a with
  | nil => simp [assocHas]
  | cons p rest ih =>
      obtain ⟨k', v'⟩ := p
      simp [assocHas, ih, Bool.or_assoc]

theorem fieldsGet_isSome_iff_mem (k : String) :
    ∀ F : List (String × Schema), (fieldsGet k F).isSome = true ↔ k ∈ F.map Prod.fst := by
  intro F
  induction F with
  | nil => simp [fieldsGet]
  | cons p rest ih =>
      obtain ⟨k', s'⟩ := p
      simp only [fieldsGet, List.map_cons, List.mem_cons]
      by_cases h : k' = k
      · subst h
        simp
      · rw [if_neg h]
        rw [ih]
        simp [Ne.symm h]

/-! ## C5: map decode/encode semantics -/

/-- `flatMap` respects pointwise-equal functions. -/
theorem listFlatMapCongr {α β : Type} {l : List α} {f g : α → List β}
    (h : ∀ a ∈ l, f a = g a) : l.flatMap f = l.flatMap g := by
  induction l with
  | nil => rfl
  | cons a rest ih =>
      rw [List.flatMap_cons, List.flatMap_cons, h a (by simp),
        ih fun b hb => h b (by simp [hb])]

/-- The entry loop of `processMapNode`, characterized against the
original `fields`: with distinct raw keys (JavaScript objects cannot
repeat a key), every declared field is processed once against its own
original schema, so the adjusted entries are the declared raw entries
(child results, possibly `undefined`) appended in raw order to `acc`,
the errors interleave child errors with `... field was unexpected` in
raw order, and fields outside the raw keys keep their schemas. -/
theorem adjustMapEntries_spec (m : Mode) (rt : String → String → Bool)
    (path : List String) :
    ∀ (entries : List (String × Json)) (fields : List (String × Schema))
      (acc : List (String × Json)) (out : List (String × Json))
      (fields' : List (String × Schema)) (errs : List Err),
      (entries.map Prod.fst).Nodup →
      (∀ k ∈ entries.map Prod.fst, assocHas k acc = false) →
      adjustMapEntries m rt path fields entries acc = .ok (out, fields', errs) →
      out = acc ++ (entries.filterMap fun kv =>
          (fieldsGet kv.1 fields).map fun s =>
            (kv.1, childValue m rt (path ++ ["$" ++ kv.1]) kv.2 s)) ∧
      errs = (entries.flatMap fun kv =>
          match fieldsGet kv.1 fields with
          | some s => childErrs m rt (path ++ ["$" ++ kv.1]) kv.2 s
          | none => [⟨path, "'" ++ kv.1 ++ "' field was unexpected"⟩]) ∧
      fields'.map Prod.fst = fields.map Prod.fst ∧
      (∀ k, k ∉ entries.map Prod.fst → fieldsGet k fields' = fieldsGet k fields) := by
  intro entries
  induction entries with
  | nil =>
      intro fields acc out fields' errs _ _ hres
      simp only [adjustMapEntries] at hres
      cases hres
      simp
  | cons kv rest ih =>
      obtain ⟨k, v⟩ := kv
      intro fields acc out fields' errs hnodup hfresh hres
      simp only [List.map_cons, List.nodup_cons] at hnodup
      simp only [adjustMapEntries] at hres
      cases hf : fieldsGet k fields with
      | some s =>
          simp only [hf] at hres
          cases hc : adjustNode m rt (path ++ ["$" ++ k]) v s with
          | error e =>
              simp only [hc, bind, Except.bind] at hres
              cases hres
          | ok r =>
              obtain ⟨av, s2, es⟩ := r
              simp only [hc, bind, Except.bind] at hres
              cases hr : adjustMapEntries m rt path (fieldsSet k s2 fields) rest
                  (assocSet k av acc) with
              | error e =>
                  simp only [hr] at hres
                  cases hres
              | ok r2 =>
                  obtain ⟨out2, fields2, errs2⟩ := r2
                  simp only [hr, Except.ok.injEq, Prod.mk.injEq] at hres
                  obtain ⟨ho, hfs, he⟩ := hres
                  subst ho
                  subst hfs
                  subst he
                  have hfreshk : assocHas k acc = false := hfresh k (by simp)
                  have hset : assocSet k av acc = acc ++ [(k, av)] :=
                    assocSet_fresh av acc hfreshk
                  have ihh := ih (fieldsSet k s2 fields) (assocSet k av acc) out2 fields2
                    errs2 hnodup.2
                    (by
                      intro k2 hk2
                      rw [hset, assocHas_append]
                      have h1 : assocHas k2 acc = false :=
                        hfresh k2 (by simp [hk2])
                      have h2 : k2 ≠ k := fun hh => hnodup.1 (hh ▸ hk2)
                      simp only [h1, assocHas, Bool.false_or, Bool.or_false,
                        decide_eq_false_iff_not]
                      exact fun hh => h2 hh.symm)
                    hr
                  obtain ⟨iho, ihe, ihk, ihget⟩ := ihh
                  refine ⟨?_, ?_, ?_, ?_⟩
                  · have hcv : childValue m rt (path ++ ["$" ++ k]) v s = av := by
                      unfold childValue
                      rw [hc]
                    have hX : (rest.filterMap fun kv =>
                        (fieldsGet kv.1 (fieldsSet k s2 fields)).map fun s =>
                          (kv.1, childValue m rt (path ++ ["$" ++ kv.1]) kv.2 s)) =
                        rest.filterMap fun kv =>
                          (fieldsGet kv.1 fields).map fun s =>
                            (kv.1, childValue m rt (path ++ ["$" ++ kv.1]) kv.2 s) := by
                      refine List.filterMap_congr ?_
                      intro a ha
                      have hne : a.1 ≠ k := by
                        intro hh
                        exact hnodup.1 (hh ▸ (List.mem_map_of_mem Prod.fst ha))
                      rw [fieldsGet_fieldsSet_ne s2 hne fields]
                    rw [iho, hset, hX, List.filterMap_cons, hf, List.append_assoc]
                    simp [hcv]
                  · rw [List.flatMap_cons]
                    have hce : childErrs m rt (path ++ ["$" ++ k]) v s = es := by
                      unfold childErrs
                      rw [hc]
                    simp only [hf, hce]
                    congr 1
                    rw [ihe]
                    refine listFlatMapCongr ?_
                    intro a ha
                    have hne : a.1 ≠ k := by
                      intro hh
                      exact hnodup.1 (hh ▸ (List.mem_map_of_mem Prod.fst ha))
                    rw [fieldsGet_fieldsSet_ne s2 hne fields]
                  · rw [ihk, fieldsSet_map_fst]
                  · intro k2 hk2
                    have h2 : k2 ≠ k := by
                      intro hh
                      exact hk2 (by simp [hh])
                    have h3 : k2 ∉ rest.map Prod.fst := by
                      intro hh
                      exact hk2 (by simp [hh])
                    rw [ihget k2 h3, fieldsGet_fieldsSet_ne s2 h2]
      | none =>
          simp only [hf, bind, Except.bind] at hres
          cases hr : adjustMapEntries m rt path fields rest acc with
          | error e =>
              simp only [hr] at hres
              cases hres
          | ok r2 =>
              obtain ⟨out2, fields2, errs2⟩ := r2
              simp only [hr, Except.ok.injEq, Prod.mk.injEq] at hres
              obtain ⟨ho, hfs, he⟩ := hres
              subst ho
              subst hfs
              subst he
              have ihh := ih fields acc out2 fields2 errs2 hnodup.2
                (fun k2 hk2 => hfresh k2 (by simp [hk2])) hr
              obtain ⟨iho, ihe, ihk, ihget⟩ := ihh
              refine ⟨?_, ?_, ?_, ?_⟩
              · rw [iho, List.filterMap_cons]
                simp [hf]
              · rw [List.flatMap_cons, ihe]
                simp [hf]
              · exact ihk
              · intro k2 hk2
                exact ihget k2 (by intro hh; exact hk2 (by simp [hh]))

/-- The missing-keys pass characterized: missing optional fields are
appended (in declaration order) as `null` entries after everything the
entry loop produced; missing non-optional fields each draw
`'<key>' field was missing`. -/
theorem synthesizeMissing_spec (path : List String) :
    ∀ (missing : List String) (fields : List (String × Schema))
      (adjusted : List (String × Json)),
      (∀ k ∈ missing, assocHas k adjusted = false) →
      missing.Nodup →
      synthesizeMissing path fields missing adjusted =
        (adjusted ++ (missing.filter fun k =>
            ((fieldsGet k fields).map Schema.option).getD false).map fun k => (k, Json.null),
         (missing.filter fun k =>
            !((fieldsGet k fields).map Schema.option).getD false).map fun k =>
           ⟨path, "'" ++ k ++ "' field was missing"⟩) := by
  intro missing
  induction missing with
  | nil => intro fields adjusted _ _; simp [synthesizeMissing]
  | cons k rest ih =>
      intro fields adjusted hfresh hnodup
      simp only [List.nodup_cons] at hnodup
      have hfreshk : assocHas k adjusted = false := hfresh k (by simp)
      cases hf : fieldsGet k fields with
      | some s =>
          by_cases hopt : s.option
          · have hset : assocSet k Json.null adjusted = adjusted ++ [(k, Json.null)] :=
              assocSet_fresh Json.null adjusted hfreshk
            have ihh := ih fields (assocSet k Json.null adjusted)
              (by
                intro k2 hk2
                rw [hset, assocHas_append]
                have h2 : k2 ≠ k := fun hh => hnodup.1 (hh ▸ hk2)
                have h1 : assocHas k2 adjusted = false := hfresh k2 (by simp [hk2])
                simp only [h1, assocHas, Bool.false_or, Bool.or_false,
                  decide_eq_false_iff_not]
                exact fun hh => h2 hh.symm)
              hnodup.2
            rw [hset] at ihh
            simp only [synthesizeMissing, hf, hopt, if_true, List.filter_cons]
            rw [hset, ihh]
            simp [hf, hopt, List.append_assoc]
          · have ihh := ih fields adjusted (fun k2 hk2 => hfresh k2 (by simp [hk2]))
              hnodup.2
            simp only [synthesizeMissing, hf, hopt, if_false, ihh, List.filter_cons]
            simp [hf, hopt, Bool.not_eq_true]
      | none =>
          have ihh := ih fields adjusted (fun k2 hk2 => hfresh k2 (by simp [hk2]))
            hnodup.2
          simp only [synthesizeMissing, hf, ihh, List.filter_cons]
          simp [hf]

/-- Membership in the entry loop's output: a key is present exactly
when some raw entry bears it and is declared. -/
theorem assocHas_presentPart (k : String) (fields : List (String × Schema))
    (f : String × Json → Schema → Json) :
    ∀ entries : List (String × Json),
      assocHas k (entries.filterMap fun kv =>
        (fieldsGet kv.1 fields).map fun s => (kv.1, f kv s)) =
      ((entries.map Prod.fst).contains k && (fieldsGet k fields).isSome) := by
  intro entries
  induction entries with
  | nil => simp [assocHas]
  | cons kv rest ih =>
      obtain ⟨k0, v0⟩ := kv
      by_cases h0 : k0 = k
      · subst h0
        cases hf : fieldsGet k0 fields with
        | some s =>
            simp [List.filterMap_cons, hf, assocHas, ih]
        | none =>
            simp [List.filterMap_cons, hf, assocHas, ih]
      · have hbk : (k0 == k) = false := by
          simp only [beq_eq_false_iff_ne, ne_eq]
          exact h0
        have hkb : (k == k0) = false := by
          simp only [beq_eq_false_iff_ne, ne_eq]
          exact fun hh => h0 hh.symm
        cases hf : fieldsGet k0 fields with
        | some s => simp [List.filterMap_cons, hf, assocHas, ih, hbk, hkb, h0]
        | none => simp [List.filterMap_cons, hf, assocHas, ih, hbk, hkb, h0]

/-- **C5.** Map processing: every undeclared raw key draws `'<key>'
field was unexpected`; each declared field present in the raw input is
processed recursively at path segment `$key` against its own schema
(its result, even `undefined`, joins the output); each declared field
absent from the input draws `'<key>' field was missing` when not
optional, and is otherwise synthesized as an explicit `null` entry
appended after all fields the caller supplied, in declaration order.
Raw keys and declared field names are distinct, as JavaScript object
keys always are. -/
theorem c5_map_processing (m : Mode) (rt : String → String → Bool)
    (path : List String) (o : Bool) (fields : List (String × Schema))
    (entries : List (String × Json)) (w : Json) (s' : Schema) (errs : List Err)
    (hnodup : (entries.map Prod.fst).Nodup)
    (hfnodup : (fields.map Prod.fst).Nodup)
    (hok : adjustNode m rt path (.obj entries) (.map o fields) = .ok (w, s', errs)) :
    w = .obj ((entries.filterMap fun kv =>
          (fieldsGet kv.1 fields).map fun s =>
            (kv.1, childValue m rt (path ++ ["$" ++ kv.1]) kv.2 s))
        ++ (((fields.map Prod.fst).filter fun k =>
              !(entries.map Prod.fst).contains k).filter fun k =>
            ((fieldsGet k fields).map Schema.option).getD false).map
          fun k => (k, Json.null)) ∧
    errs = (entries.flatMap fun kv =>
        match fieldsGet kv.1 fields with
        | some s => childErrs m rt (path ++ ["$" ++ kv.1]) kv.2 s
        | none => [⟨path, "'" ++ kv.1 ++ "' field was unexpected"⟩])
      ++ (((fields.map Prod.fst).filter fun k =>
            !(entries.map Prod.fst).contains k).filter fun k =>
          !((fieldsGet k fields).map Schema.option).getD false).map
        fun k => ⟨path, "'" ++ k ++ "' field was missing"⟩ := by
  simp only [adjustNode, Schema.option, Json.isNull, Bool.and_false] at hok
  cases hr : adjustMapEntries m rt path fields entries [] with
  | error e =>
      rw [hr] at hok
      simp only [bind, Except.bind] at hok
      cases hok
  | ok r =>
      obtain ⟨out, fields2, errsA⟩ := r
      rw [hr] at hok
      simp only [bind, Except.bind] at hok
      obtain ⟨hout, herrA, hkeys, hget⟩ :=
        adjustMapEntries_spec m rt path entries fields [] out fields2 errsA hnodup
          (by intro k _; rfl) hr
      simp only [List.nil_append] at hout
      -- the missing-keys filter over the threaded fields equals the
      -- filter over the original fields and raw keys
      have hmiss : missingKeysOf fields2 out =
          (fields.map Prod.fst).filter fun k => !(entries.map Prod.fst).contains k := by
        unfold missingKeysOf
        rw [hkeys]
        refine List.filter_congr ?_
        intro k hk
        rw [hout, assocHas_presentPart]
        have hsome : (fieldsGet k fields).isSome = true :=
          (fieldsGet_isSome_iff_mem k fields).mpr hk
        simp [hsome]
      have hmissnodup : ((fields.map Prod.fst).filter fun k =>
          !(entries.map Prod.fst).contains k).Nodup := hfnodup.filter _
      have hmissfresh : ∀ k ∈ (fields.map Prod.fst).filter fun k =>
          !(entries.map Prod.fst).contains k, assocHas k out = false := by
        intro k hk
        have := (List.mem_filter.mp hk).2
        simp only [Bool.not_eq_true'] at this
        rw [hout, assocHas_presentPart, this, Bool.false_and]
      have hsynth := synthesizeMissing_spec path
        ((fields.map Prod.fst).filter fun k => !(entries.map Prod.fst).contains k)
        fields2 out hmissfresh hmissnodup
      -- the threaded fields agree with the originals on every missing key
      have hgetmiss : ∀ k ∈ (fields.map Prod.fst).filter fun k =>
          !(entries.map Prod.fst).contains k, fieldsGet k fields2 = fieldsGet k fields := by
        intro k hk
        have hc := (List.mem_filter.mp hk).2
        simp only [Bool.not_eq_true'] at hc
        refine hget k ?_
        intro hm
        have h2 : (List.map Prod.fst entries).contains k = true := List.elem_iff.mpr hm
        rw [h2] at hc
        cases hc
      rw [hmiss, hsynth] at hok
      have hfiltopt : (((fields.map Prod.fst).filter fun k =>
            !(entries.map Prod.fst).contains k).filter fun k =>
          ((fieldsGet k fields2).map Schema.option).getD false) =
          (((fields.map Prod.fst).filter fun k =>
            !(entries.map Prod.fst).contains k).filter fun k =>
          ((fieldsGet k fields).map Schema.option).getD false) := by
        refine List.filter_congr ?_
        intro k hk
        rw [hgetmiss k hk]
      have hfiltreq : (((fields.map Prod.fst).filter fun k =>
            !(entries.map Prod.fst).contains k).filter fun k =>
          !((fieldsGet k fields2).map Schema.option).getD false) =
          (((fields.map Prod.fst).filter fun k =>
            !(entries.map Prod.fst).contains k).filter fun k =>
          !((fieldsGet k fields).map Schema.option).getD false) := by
        refine List.filter_congr ?_
        intro k hk
        rw [hgetmiss k hk]
      rw [hfiltopt, hfiltreq] at hok
      simp only [if_neg (by simp : ¬ (false = true)), Except.ok.injEq,
        Prod.mk.injEq] at hok
      obtain ⟨hw, _, herr⟩ := hok
      refine ⟨?_, ?_⟩
      · rw [← hw, hout]
      · rw [← herr, herrA]

/-- **C5 witness** (the spec's synthesis example): encoding
`{foo: true, quz: "x"}` against `{type: map, fields: {foo: flag,
bar: number option, quz: string}}` yields `bar` present and `null`,
appended after the caller-supplied fields, with no errors. -/
theorem c5_witness :
    adjustNode .encode (fun _ _ => true) []
        (.obj [("foo", .bool true), ("quz", .str "x")])
        (.map false [("foo", .flag false),
          ("bar", .number true none none none), ("quz", .string false none none)]) =
      .ok (.obj [("foo", .bool true), ("quz", .str "x"), ("bar", .null)],
        .map false [("foo", .flag false),
          ("bar", .number true none none none), ("quz", .string false none none)], []) := by
  have h := c5_map_processing .encode (fun _ _ => true) [] false
    [("foo", .flag false), ("bar", .number true none none none),
      ("quz", .string false none none)]
    [("foo", .bool true), ("quz", .str "x")]
    (.obj [("foo", .bool true), ("quz", .str "x"), ("bar", .null)])
    (.map false [("foo", .flag false), ("bar", .number true none none none),
      ("quz", .string false none none)]) []
    (by decide) (by decide) rfl
  exact rfl

/-! ## Truncation invariance

`checkLength` both compares against and stores `Number.parseInt` of the
length bounds, so a schema's behaviour under the converters depends
only on its image under `truncSchema` (all length bounds truncated),
and every schema a call returns is `truncSchema`-equal to the one it
was given. This is the key to characterizing the array/object loops
(whose elements share one threaded `value` schema) against the
*original* schema, and to the round-trip analysis. -/

/-- All bounds of a length property truncated. -/
def truncLength : LengthC → LengthC
  | .exact v => .exact (ratTrunc v)
  | .range mn mx => .range (mn.map ratTrunc) (mx.map ratTrunc)

mutual
/-- All length bounds in a schema truncated (the only parts of a schema
the converters mutate or truncate before comparing). -/
def truncSchema : Schema → Schema
  | .flag o => .flag o
  | .number o d mn mx => .number o d mn mx
  | .string o len pat => .string o (len.map truncLength) pat
  | .array o len v => .array o (len.map truncLength) (truncSchema v)
  | .object o k len v => .object o k (len.map truncLength) (truncSchema v)
  | .tuple o items => .tuple o (truncSchemaList items)
  | .map o fields => .map o (truncSchemaFields fields)
  | .enum o vs => .enum o vs

def truncSchemaList : List Schema → List Schema
  | [] => []
  | s :: rest => truncSchema s :: truncSchemaList rest

def truncSchemaFields : List (String × Schema) → List (String × Schema)
  | [] => []
  | (k, s) :: rest => (k, truncSchema s) :: truncSchemaFields rest
end

theorem ratTrunc_intCast (n : Int) : ratTrunc ((n : Int) : ℚ) = n := by
  unfold ratTrunc
  norm_num [Int.tdiv_one]

theorem ratTrunc_idem (q : ℚ) : ratTrunc (ratTrunc q) = ratTrunc q := by
  unfold ratTrunc
  norm_num [Int.tdiv_one]

theorem truncLength_idem (l : LengthC) : truncLength (truncLength l) = truncLength l := by
  cases l with
  | exact v => simp [truncLength, ratTrunc_idem]
  | range mn mx =>
      cases mn <;> cases mx <;> simp [truncLength, ratTrunc_idem]

theorem Schema.option_trunc (s : Schema) : (truncSchema s).option = s.option := by
  cases s <;> simp [truncSchema, Schema.option]

theorem truncSchemaList_length (l : List Schema) :
    (truncSchemaList l).length = l.length := by
  induction l with
  | nil => rfl
  | cons s rest ih => simp [truncSchemaList, ih]

theorem truncSchemaFields_map_fst (F : List (String × Schema)) :
    (truncSchemaFields F).map Prod.fst = F.map Prod.fst := by
  induction F with
  | nil => rfl
  | cons p rest ih =>
      obtain ⟨k, s⟩ := p
      simp [truncSchemaFields, ih]

/-- `truncSchemaFields`-equal field lists look up to
`truncSchema`-equal results. -/
theorem fieldsGet_trunc_congr (k : String) :
    ∀ (F G : List (String × Schema)), truncSchemaFields F = truncSchemaFields G →
      (fieldsGet k F).map truncSchema = (fieldsGet k G).map truncSchema := by
  intro F
  induction F with
  | nil =>
      intro G h
      cases G with
      | nil => rfl
      | cons p rest => obtain ⟨k0, s0⟩ := p; simp [truncSchemaFields] at h
  | cons p rest ih =>
      obtain ⟨k0, s0⟩ := p
      intro G h
      cases G with
      | nil => simp [truncSchemaFields] at h
      | cons q grest =>
          obtain ⟨k1, s1⟩ := q
          simp only [truncSchemaFields, List.cons.injEq, Prod.mk.injEq] at h
          obtain ⟨⟨hk, hs⟩, hrest⟩ := h
          subst hk
          simp only [fieldsGet]
          split
          · simp [hs]
          · exact ih grest hrest

/-- Re-storing a `truncSchema`-equal schema at a present key leaves the
truncated field list unchanged. -/
theorem truncSchemaFields_fieldsSet (k : String) (x s : Schema)
    (hx : truncSchema x = truncSchema s) :
    ∀ F : List (String × Schema), fieldsGet k F = some s →
      truncSchemaFields (fieldsSet k x F) = truncSchemaFields F := by
  intro F
  induction F with
  | nil => intro h; cases h
  | cons p rest ih =>
      obtain ⟨k0, s0⟩ := p
      intro h
      simp only [fieldsGet] at h
      by_cases h0 : k0 = k
      · subst h0
        rw [if_pos rfl] at h
        cases h
        simp [fieldsSet, truncSchemaFields, hx]
      · rw [if_neg h0] at h
        simp [fieldsSet, h0, truncSchemaFields, ih h]

/-- `fieldsSet` with `truncSchema`-equal values on `truncSchemaFields`-
equal lists yields `truncSchemaFields`-equal lists. -/
theorem truncSchemaFields_fieldsSet_congr (k : String) (x y : Schema)
    (hxy : truncSchema x = truncSchema y) :
    ∀ (F G : List (String × Schema)), truncSchemaFields F = truncSchemaFields G →
      truncSchemaFields (fieldsSet k x F) = truncSchemaFields (fieldsSet k y G) := by
  intro F
  induction F with
  | nil =>
      intro G h
      cases G with
      | nil => rfl
      | cons p rest => obtain ⟨k0, s0⟩ := p; simp [truncSchemaFields] at h
  | cons p rest ih =>
      obtain ⟨k0, s0⟩ := p
      intro G h
      cases G with
      | nil => simp [truncSchemaFields] at h
      | cons q grest =>
          obtain ⟨k1, s1⟩ := q
          simp only [truncSchemaFields, List.cons.injEq, Prod.mk.injEq] at h
          obtain ⟨⟨hk, hs⟩, hrest⟩ := h
          subst hk
          by_cases h0 : k0 = k
          · simp [fieldsSet, h0, truncSchemaFields, hxy, hrest]
          · simp [fieldsSet, h0, truncSchemaFields, hs, ih grest hrest]

/-- An element of a list is structurally smaller than the array node
holding it. -/
theorem sizeOf_mem_arr {x : Json} :
    ∀ {items : List Json}, x ∈ items → sizeOf x < sizeOf (Json.arr items) := by
  intro items
  induction items with
  | nil => intro h; cases h
  | cons y rest ih =>
      intro h
      cases h with
      | head => simp; omega
      | tail _ h2 =>
          have := ih h2
          simp at this ⊢
          omega

/-- An entry's value is structurally smaller than the object node
holding it. -/
theorem sizeOf_mem_obj {k : String} {x : Json} :
    ∀ {es : List (String × Json)}, (k, x) ∈ es → sizeOf x < sizeOf (Json.obj es) := by
  intro es
  induction es with
  | nil => intro h; cases h
  | cons p rest ih =>
      intro h
      cases h with
      | head => simp; omega
      | tail _ h2 =>
          have := ih h2
          simp at this ⊢
          omega

/-- `checkLength` compares the measured count only against *truncated*
bounds and stores truncated bounds back, so truncation-equal length
properties check identically, and the stored result is always
truncation-equal to the input. -/
theorem checkLength_trunc (value : ℚ) (path : List String) :
    ∀ lt ls : LengthC, truncLength lt = truncLength ls →
      (checkLength value lt path).2 = (checkLength value ls path).2 ∧
      truncLength (checkLength value lt path).1 = truncLength ls ∧
      truncLength (checkLength value ls path).1 = truncLength ls := by
  intro lt ls h
  cases lt with
  | exact v =>
      cases ls with
      | exact w =>
          simp only [truncLength, LengthC.exact.injEq] at h
          simp only [checkLength]
          rw [h]
          split_ifs <;> simp [truncLength, h, ratTrunc_idem]
      | range mn mx => simp [truncLength] at h
  | range mn mx =>
      cases ls with
      | exact w => simp [truncLength] at h
      | range mn' mx' =>
          simp only [truncLength, LengthC.range.injEq] at h
          obtain ⟨hmn, hmx⟩ := h
          cases mn with
          | none =>
              cases mn' with
              | some _ => simp at hmn
              | none =>
                  cases mx with
                  | none =>
                      cases mx' with
                      | some _ => simp at hmx
                      | none => simp [checkLength, truncLength]
                  | some b =>
                      cases mx' with
                      | none => simp at hmx
                      | some b' =>
                          simp at hmx
                          simp only [checkLength]
                          rw [hmx]
                          split_ifs <;> simp [truncLength, hmx, ratTrunc_idem]
          | some a =>
              cases mn' with
              | none => simp at hmn
              | some a' =>
                  simp at hmn
                  cases mx with
                  | none =>
                      cases mx' with
                      | some _ => simp at hmx
                      | none =>
                          simp only [checkLength]
                          rw [hmn]
                          split_ifs <;> simp [truncLength, hmn, ratTrunc_idem]
                  | some b =>
                      cases mx' with
                      | none => simp at hmx
                      | some b' =>
                          simp at hmx
                          simp only [checkLength]
                          rw [hmn, hmx]
                          split_ifs <;>
                            simp [truncLength, hmn, hmx, ratTrunc_idem]

/-- The guarded form of `checkLength_trunc`. -/
theorem checkLengthOpt_trunc (value : ℚ) (path : List String)
    (lt ls : Option LengthC) (h : lt.map truncLength = ls.map truncLength) :
    (checkLengthOpt value lt path).2 = (checkLengthOpt value ls path).2 ∧
    (checkLengthOpt value lt path).1.map truncLength = ls.map truncLength ∧
    (checkLengthOpt value ls path).1.map truncLength = ls.map truncLength := by
  cases lt with
  | none =>
      cases ls with
      | none => simp [checkLengthOpt]
      | some _ => simp at h
  | some l =>
      cases ls with
      | none => simp at h
      | some l' =>
          simp at h
          obtain ⟨h1, h2, h3⟩ := checkLength_trunc value path l l' h
          simp only [checkLengthOpt]
          refine ⟨?_, ?_, ?_⟩
          · cases hc : checkLength value l path
            cases hc' : checkLength value l' path
            simp_all
          · cases hc : checkLength value l path
            simp_all
          · cases hc' : checkLength value l' path
            simp_all

/-! ### Truncation invariance of the converter walk

The converters read length bounds only through `Number.parseInt`
(`checkLength`), so two `truncSchema`-equal schemas drive any node to
the same adjusted value and the same errors, and every schema returned
is `truncSchema`-equal to the schema passed in. -/

/-- Agreement of two converter results whose input schemas are
`truncSchema`-equal: the same thrown `TypeError`, or the same adjusted
value and error list with both returned schemas satisfying `inv` (which
ties them to the truncation of the input schema). -/
def ResAgrees {α σ : Type} (inv : σ → Prop) :
    Except JsTypeError (α × σ × List Err) →
    Except JsTypeError (α × σ × List Err) → Prop
  | .error a, .error b => a = b
  | .ok (v1, s1, e1), .ok (v2, s2, e2) => v1 = v2 ∧ e1 = e2 ∧ inv s1 ∧ inv s2
  | _, _ => False

theorem ResAgrees.okElim {α σ : Type} {inv : σ → Prop} {v1 v2 : α} {s1 s2 : σ}
    {e1 e2 : List Err} (h : ResAgrees inv (.ok (v1, s1, e1)) (.ok (v2, s2, e2))) :
    v1 = v2 ∧ e1 = e2 ∧ inv s1 ∧ inv s2 := h

theorem ResAgrees.okIntro {α σ : Type} {inv : σ → Prop} {v1 v2 : α} {s1 s2 : σ}
    {e1 e2 : List Err} (hv : v1 = v2) (he : e1 = e2) (h1 : inv s1) (h2 : inv s2) :
    ResAgrees inv (.ok (v1, s1, e1)) (.ok (v2, s2, e2)) := ⟨hv, he, h1, h2⟩

theorem ResAgrees.errElim {α σ : Type} {inv : σ → Prop} {a b : JsTypeError}
    (h : ResAgrees inv (Except.error (ε := JsTypeError) (α := α × σ × List Err) a)
      (Except.error b)) : a = b := h

theorem ResAgrees.errIntro {α σ : Type} {inv : σ → Prop} {a b : JsTypeError}
    (h : a = b) :
    ResAgrees inv (Except.error (ε := JsTypeError) (α := α × σ × List Err) a)
      (Except.error b) := h

theorem ResAgrees.noErrOk {α σ : Type} {inv : σ → Prop} {a : JsTypeError}
    {r : α × σ × List Err} {C : Prop}
    (h : ResAgrees inv (Except.error a) (Except.ok r)) : C := h.elim

theorem ResAgrees.noOkErr {α σ : Type} {inv : σ → Prop} {a : JsTypeError}
    {r : α × σ × List Err} {C : Prop}
    (h : ResAgrees inv (Except.ok r) (Except.error a)) : C := h.elim

/-- The element-level hypothesis of the invariance induction: one
node's `adjustNode` agrees under `truncSchema`-equal schemas. -/
def ElemIH (m : Mode) (rt : String → String → Bool) (x : Json) : Prop :=
  ∀ (path : List String) (s t : Schema), truncSchema s = truncSchema t →
    ResAgrees (fun u => truncSchema u = truncSchema s)
      (adjustNode m rt path x s) (adjustNode m rt path x t)

/-- The array loop agrees under `truncSchema`-equal element schemas. -/
theorem adjustArrayItems_agrees (m : Mode) (rt : String → String → Bool)
    (path : List String) :
    ∀ (items : List Json), (∀ x ∈ items, ElemIH m rt x) →
      ∀ (i : Nat) (s t : Schema), truncSchema s = truncSchema t →
        ResAgrees (fun u => truncSchema u = truncSchema s)
          (adjustArrayItems m rt path s i items)
          (adjustArrayItems m rt path t i items) := by
  intro items
  induction items with
  | nil =>
      intro _ i s t hst
      exact ResAgrees.okIntro rfl rfl rfl hst.symm
  | cons x rest ih =>
      intro hx i s t hst
      have hhead := hx x (by simp) (path ++ [s!"[{i}]"]) s t hst
      cases h1 : adjustNode m rt (path ++ [s!"[{i}]"]) x s with
      | error e1 =>
          cases h2 : adjustNode m rt (path ++ [s!"[{i}]"]) x t with
          | error e2 =>
              rw [h1, h2] at hhead
              have hL : adjustArrayItems m rt path s i (x :: rest) = .error e1 := by
                simp only [adjustArrayItems, bind, Except.bind, h1]
              have hR : adjustArrayItems m rt path t i (x :: rest) = .error e2 := by
                simp only [adjustArrayItems, bind, Except.bind, h2]
              rw [hL, hR]
              exact ResAgrees.errIntro hhead.errElim
          | ok r2 =>
              rw [h1, h2] at hhead
              exact hhead.noErrOk
      | ok r1 =>
          obtain ⟨v1, s1, e1⟩ := r1
          cases h2 : adjustNode m rt (path ++ [s!"[{i}]"]) x t with
          | error e2 =>
              rw [h1, h2] at hhead
              exact hhead.noOkErr
          | ok r2 =>
              obtain ⟨v2, s2, e2⟩ := r2
              rw [h1, h2] at hhead
              obtain ⟨hv, he, hs1, hs2⟩ := hhead.okElim
              have hrest := ih (fun y hy => hx y (by simp [hy])) (i + 1) s1 s2
                (hs1.trans hs2.symm)
              cases hr1 : adjustArrayItems m rt path s1 (i + 1) rest with
              | error f1 =>
                  cases hr2 : adjustArrayItems m rt path s2 (i + 1) rest with
                  | error f2 =>
                      rw [hr1, hr2] at hrest
                      have hL : adjustArrayItems m rt path s i (x :: rest) =
                          .error f1 := by
                        simp only [adjustArrayItems, bind, Except.bind, h1, hr1]
                      have hR : adjustArrayItems m rt path t i (x :: rest) =
                          .error f2 := by
                        simp only [adjustArrayItems, bind, Except.bind, h2, hr2]
                      rw [hL, hR]
                      exact ResAgrees.errIntro hrest.errElim
                  | ok q2 =>
                      rw [hr1, hr2] at hrest
                      exact hrest.noErrOk
              | ok q1 =>
                  obtain ⟨w1, u1, f1⟩ := q1
                  cases hr2 : adjustArrayItems m rt path s2 (i + 1) rest with
                  | error f2 =>
                      rw [hr1, hr2] at hrest
                      exact hrest.noOkErr
                  | ok q2 =>
                      obtain ⟨w2, u2, f2⟩ := q2
                      rw [hr1, hr2] at hrest
                      obtain ⟨hw, hf, hu1, hu2⟩ := hrest.okElim
                      have hL : adjustArrayItems m rt path s i (x :: rest) =
                          .ok (v1 :: w1, u1, e1 ++ f1) := by
                        simp only [adjustArrayItems, bind, Except.bind, h1, hr1]
                      have hR : adjustArrayItems m rt path t i (x :: rest) =
                          .ok (v2 :: w2, u2, e2 ++ f2) := by
                        simp only [adjustArrayItems, bind, Except.bind, h2, hr2]
                      rw [hL, hR]
                      exact ResAgrees.okIntro (by rw [hv, hw]) (by rw [he, hf])
                        (hu1.trans hs1) (hu2.trans hs1)

/-- The object-entry loop agrees under `truncSchema`-equal `value`
schemas (the key checks read only the raw key, never the schema). -/
theorem adjustObjectEntries_agrees (m : Mode) (rt : String → String → Bool)
    (path : List String) (key : KeyKind) :
    ∀ (entries : List (String × Json)), (∀ kv ∈ entries, ElemIH m rt kv.2) →
      ∀ (i : Nat) (acc : List (String × Json)) (s t : Schema),
        truncSchema s = truncSchema t →
        ResAgrees (fun u => truncSchema u = truncSchema s)
          (adjustObjectEntries m rt path key s i entries acc)
          (adjustObjectEntries m rt path key t i entries acc) := by
  intro entries
  induction entries with
  | nil =>
      intro _ i acc s t hst
      exact ResAgrees.okIntro rfl rfl rfl hst.symm
  | cons kv rest ih =>
      obtain ⟨k, v⟩ := kv
      intro hx i acc s t hst
      have hxv : ElemIH m rt v := hx (k, v) (by simp)
      have hxrest : ∀ kv2 ∈ rest, ElemIH m rt kv2.2 :=
        fun kv2 h2 => hx kv2 (by simp [h2])
      cases key with
      | integer =>
          cases hq : jsParseFloat k with
          | some q =>
              by_cases hint : ratIsInteger q = true
              · -- accepted: the child runs, then the loop continues
                have hhead := hxv (path ++ ["\x7b" ++ k ++ "\x7d"]) s t hst
                cases h1 : adjustNode m rt (path ++ ["\x7b" ++ k ++ "\x7d"]) v s with
                | error e1 =>
                    cases h2 : adjustNode m rt (path ++ ["\x7b" ++ k ++ "\x7d"]) v t with
                    | error e2 =>
                        rw [h1, h2] at hhead
                        have hL : adjustObjectEntries m rt path .integer s i
                            ((k, v) :: rest) acc = .error e1 := by
                          simp only [adjustObjectEntries, hq, hint, if_true, bind,
                            Except.bind, h1]
                        have hR : adjustObjectEntries m rt path .integer t i
                            ((k, v) :: rest) acc = .error e2 := by
                          simp only [adjustObjectEntries, hq, hint, if_true, bind,
                            Except.bind, h2]
                        rw [hL, hR]
                        exact ResAgrees.errIntro hhead.errElim
                    | ok r2 =>
                        rw [h1, h2] at hhead
                        exact hhead.noErrOk
                | ok r1 =>
                    obtain ⟨v1, s1, e1⟩ := r1
                    cases h2 : adjustNode m rt (path ++ ["\x7b" ++ k ++ "\x7d"]) v t with
                    | error e2 =>
                        rw [h1, h2] at hhead
                        exact hhead.noOkErr
                    | ok r2 =>
                        obtain ⟨v2, s2, e2⟩ := r2
                        rw [h1, h2] at hhead
                        obtain ⟨hv, he, hs1, hs2⟩ := hhead.okElim
                        subst hv
                        have hrest := ih hxrest (i + 1)
                          (assocSet (intToString q.num) v1 acc) s1 s2
                          (hs1.trans hs2.symm)
                        cases hr1 : adjustObjectEntries m rt path .integer s1 (i + 1)
                            rest (assocSet (intToString q.num) v1 acc) with
                        | error f1 =>
                            cases hr2 : adjustObjectEntries m rt path .integer s2
                                (i + 1) rest (assocSet (intToString q.num) v1 acc) with
                            | error f2 =>
                                rw [hr1, hr2] at hrest
                                have hL : adjustObjectEntries m rt path .integer s i
                                    ((k, v) :: rest) acc = .error f1 := by
                                  simp only [adjustObjectEntries, hq, hint, if_true,
                                    bind, Except.bind, h1, hr1]
                                have hR : adjustObjectEntries m rt path .integer t i
                                    ((k, v) :: rest) acc = .error f2 := by
                                  simp only [adjustObjectEntries, hq, hint, if_true,
                                    bind, Except.bind, h2, hr2]
                                rw [hL, hR]
                                exact ResAgrees.errIntro hrest.errElim
                            | ok q2 =>
                                rw [hr1, hr2] at hrest
                                exact hrest.noErrOk
                        | ok q1 =>
                            obtain ⟨w1, u1, f1⟩ := q1
                            cases hr2 : adjustObjectEntries m rt path .integer s2
                                (i + 1) rest (assocSet (intToString q.num) v1 acc) with
                            | error f2 =>
                                rw [hr1, hr2] at hrest
                                exact hrest.noOkErr
                            | ok q2 =>
                                obtain ⟨w2, u2, f2⟩ := q2
                                rw [hr1, hr2] at hrest
                                obtain ⟨hw, hf, hu1, hu2⟩ := hrest.okElim
                                have hL : adjustObjectEntries m rt path .integer s i
                                    ((k, v) :: rest) acc =
                                    .ok (w1, u1, e1 ++ f1) := by
                                  simp only [adjustObjectEntries, hq, hint, if_true,
                                    bind, Except.bind, h1, hr1]
                                have hR : adjustObjectEntries m rt path .integer t i
                                    ((k, v) :: rest) acc =
                                    .ok (w2, u2, e2 ++ f2) := by
                                  simp only [adjustObjectEntries, hq, hint, if_true,
                                    bind, Except.bind, h2, hr2]
                                rw [hL, hR]
                                exact ResAgrees.okIntro hw (by rw [he, hf])
                                  (hu1.trans hs1) (hu2.trans hs1)
              · -- rejected non-integer key: both loops skip with the error
                have hrest := ih hxrest (i + 1) acc s t hst
                cases hr1 : adjustObjectEntries m rt path .integer s (i + 1)
                    rest acc with
                | error f1 =>
                    cases hr2 : adjustObjectEntries m rt path .integer t (i + 1)
                        rest acc with
                    | error f2 =>
                        rw [hr1, hr2] at hrest
                        have hL : adjustObjectEntries m rt path .integer s i
                            ((k, v) :: rest) acc = .error f1 := by
                          simp only [adjustObjectEntries, hq, hint, if_false, bind,
                            Except.bind, hr1, Bool.false_eq_true]
                        have hR : adjustObjectEntries m rt path .integer t i
                            ((k, v) :: rest) acc = .error f2 := by
                          simp only [adjustObjectEntries, hq, hint, if_false, bind,
                            Except.bind, hr2, Bool.false_eq_true]
                        rw [hL, hR]
                        exact ResAgrees.errIntro hrest.errElim
                    | ok q2 =>
                        rw [hr1, hr2] at hrest
                        exact hrest.noErrOk
                | ok q1 =>
                    obtain ⟨w1, u1, f1⟩ := q1
                    cases hr2 : adjustObjectEntries m rt path .integer t (i + 1)
                        rest acc with
                    | error f2 =>
                        rw [hr1, hr2] at hrest
                        exact hrest.noOkErr
                    | ok q2 =>
                        obtain ⟨w2, u2, f2⟩ := q2
                        rw [hr1, hr2] at hrest
                        obtain ⟨hw, hf, hu1, hu2⟩ := hrest.okElim
                        have hL : adjustObjectEntries m rt path .integer s i
                            ((k, v) :: rest) acc = .ok (w1, u1,
                              ⟨path, "key at index " ++ toString i
                                ++ " is invalid; expected it to be an integer"⟩
                                :: f1) := by
                          simp only [adjustObjectEntries, hq, hint, if_false, bind,
                            Except.bind, hr1, Bool.false_eq_true]
                        have hR : adjustObjectEntries m rt path .integer t i
                            ((k, v) :: rest) acc = .ok (w2, u2,
                              ⟨path, "key at index " ++ toString i
                                ++ " is invalid; expected it to be an integer"⟩
                                :: f2) := by
                          simp only [adjustObjectEntries, hq, hint, if_false, bind,
                            Except.bind, hr2, Bool.false_eq_true]
                        rw [hL, hR]
                        exact ResAgrees.okIntro hw (by rw [hf]) hu1 hu2
          | none =>
              have hrest := ih hxrest (i + 1) acc s t hst
              cases hr1 : adjustObjectEntries m rt path .integer s (i + 1)
                  rest acc with
              | error f1 =>
                  cases hr2 : adjustObjectEntries m rt path .integer t (i + 1)
                      rest acc with
                  | error f2 =>
                      rw [hr1, hr2] at hrest
                      have hL : adjustObjectEntries m rt path .integer s i
                          ((k, v) :: rest) acc = .error f1 := by
                        simp only [adjustObjectEntries, hq, bind, Except.bind, hr1]
                      have hR : adjustObjectEntries m rt path .integer t i
                          ((k, v) :: rest) acc = .error f2 := by
                        simp only [adjustObjectEntries, hq, bind, Except.bind, hr2]
                      rw [hL, hR]
                      exact ResAgrees.errIntro hrest.errElim
                  | ok q2 =>
                      rw [hr1, hr2] at hrest
                      exact hrest.noErrOk
              | ok q1 =>
                  obtain ⟨w1, u1, f1⟩ := q1
                  cases hr2 : adjustObjectEntries m rt path .integer t (i + 1)
                      rest acc with
                  | error f2 =>
                      rw [hr1, hr2] at hrest
                      exact hrest.noOkErr
                  | ok q2 =>
                      obtain ⟨w2, u2, f2⟩ := q2
                      rw [hr1, hr2] at hrest
                      obtain ⟨hw, hf, hu1, hu2⟩ := hrest.okElim
                      have hL : adjustObjectEntries m rt path .integer s i
                          ((k, v) :: rest) acc = .ok (w1, u1,
                            ⟨path, "key at index " ++ toString i
                              ++ " is invalid; expected it to be an integer"⟩
                              :: f1) := by
                        simp only [adjustObjectEntries, hq, bind, Except.bind, hr1]
                      have hR : adjustObjectEntries m rt path .integer t i
                          ((k, v) :: rest) acc = .ok (w2, u2,
                            ⟨path, "key at index " ++ toString i
                              ++ " is invalid; expected it to be an integer"⟩
                              :: f2) := by
                        simp only [adjustObjectEntries, hq, bind, Except.bind, hr2]
                      rw [hL, hR]
                      exact ResAgrees.okIntro hw (by rw [hf]) hu1 hu2
      | string =>
          by_cases hpat : namePatternTest k = true
          · have hhead := hxv (path ++ ["\x7b" ++ k ++ "\x7d"]) s t hst
            cases h1 : adjustNode m rt (path ++ ["\x7b" ++ k ++ "\x7d"]) v s with
            | error e1 =>
                cases h2 : adjustNode m rt (path ++ ["\x7b" ++ k ++ "\x7d"]) v t with
                | error e2 =>
                    rw [h1, h2] at hhead
                    have hL : adjustObjectEntries m rt path .string s i
                        ((k, v) :: rest) acc = .error e1 := by
                      simp only [adjustObjectEntries, hpat, if_true, bind,
                        Except.bind, h1]
                    have hR : adjustObjectEntries m rt path .string t i
                        ((k, v) :: rest) acc = .error e2 := by
                      simp only [adjustObjectEntries, hpat, if_true, bind,
                        Except.bind, h2]
                    rw [hL, hR]
                    exact ResAgrees.errIntro hhead.errElim
                | ok r2 =>
                    rw [h1, h2] at hhead
                    exact hhead.noErrOk
            | ok r1 =>
                obtain ⟨v1, s1, e1⟩ := r1
                cases h2 : adjustNode m rt (path ++ ["\x7b" ++ k ++ "\x7d"]) v t with
                | error e2 =>
                    rw [h1, h2] at hhead
                    exact hhead.noOkErr
                | ok r2 =>
                    obtain ⟨v2, s2, e2⟩ := r2
                    rw [h1, h2] at hhead
                    obtain ⟨hv, he, hs1, hs2⟩ := hhead.okElim
                    subst hv
                    have hrest := ih hxrest (i + 1) (assocSet k v1 acc) s1 s2
                      (hs1.trans hs2.symm)
                    cases hr1 : adjustObjectEntries m rt path .string s1 (i + 1)
                        rest (assocSet k v1 acc) with
                    | error f1 =>
                        cases hr2 : adjustObjectEntries m rt path .string s2 (i + 1)
                            rest (assocSet k v1 acc) with
                        | error f2 =>
                            rw [hr1, hr2] at hrest
                            have hL : adjustObjectEntries m rt path .string s i
                                ((k, v) :: rest) acc = .error f1 := by
                              simp only [adjustObjectEntries, hpat, if_true, bind,
                                Except.bind, h1, hr1]
                            have hR : adjustObjectEntries m rt path .string t i
                                ((k, v) :: rest) acc = .error f2 := by
                              simp only [adjustObjectEntries, hpat, if_true, bind,
                                Except.bind, h2, hr2]
                            rw [hL, hR]
                            exact ResAgrees.errIntro hrest.errElim
                        | ok q2 =>
                            rw [hr1, hr2] at hrest
                            exact hrest.noErrOk
                    | ok q1 =>
                        obtain ⟨w1, u1, f1⟩ := q1
                        cases hr2 : adjustObjectEntries m rt path .string s2 (i + 1)
                            rest (assocSet k v1 acc) with
                        | error f2 =>
                            rw [hr1, hr2] at hrest
                            exact hrest.noOkErr
                        | ok q2 =>
                            obtain ⟨w2, u2, f2⟩ := q2
                            rw [hr1, hr2] at hrest
                            obtain ⟨hw, hf, hu1, hu2⟩ := hrest.okElim
                            have hL : adjustObjectEntries m rt path .string s i
                                ((k, v) :: rest) acc = .ok (w1, u1, e1 ++ f1) := by
                              simp only [adjustObjectEntries, hpat, if_true, bind,
                                Except.bind, h1, hr1]
                            have hR : adjustObjectEntries m rt path .string t i
                                ((k, v) :: rest) acc = .ok (w2, u2, e2 ++ f2) := by
                              simp only [adjustObjectEntries, hpat, if_true, bind,
                                Except.bind, h2, hr2]
                            rw [hL, hR]
                            exact ResAgrees.okIntro hw (by rw [he, hf])
                              (hu1.trans hs1) (hu2.trans hs1)
          · have hrest := ih hxrest (i + 1) acc s t hst
            cases hr1 : adjustObjectEntries m rt path .string s (i + 1) rest acc with
            | error f1 =>
                cases hr2 : adjustObjectEntries m rt path .string t (i + 1)
                    rest acc with
                | error f2 =>
                    rw [hr1, hr2] at hrest
                    have hL : adjustObjectEntries m rt path .string s i
                        ((k, v) :: rest) acc = .error f1 := by
                      simp only [adjustObjectEntries, hpat, if_false, bind,
                        Except.bind, hr1, Bool.false_eq_true]
                    have hR : adjustObjectEntries m rt path .string t i
                        ((k, v) :: rest) acc = .error f2 := by
                      simp only [adjustObjectEntries, hpat, if_false, bind,
                        Except.bind, hr2, Bool.false_eq_true]
                    rw [hL, hR]
                    exact ResAgrees.errIntro hrest.errElim
                | ok q2 =>
                    rw [hr1, hr2] at hrest
                    exact hrest.noErrOk
            | ok q1 =>
                obtain ⟨w1, u1, f1⟩ := q1
                cases hr2 : adjustObjectEntries m rt path .string t (i + 1)
                    rest acc with
                | error f2 =>
                    rw [hr1, hr2] at hrest
                    exact hrest.noOkErr
                | ok q2 =>
                    obtain ⟨w2, u2, f2⟩ := q2
                    rw [hr1, hr2] at hrest
                    obtain ⟨hw, hf, hu1, hu2⟩ := hrest.okElim
                    have hL : adjustObjectEntries m rt path .string s i
                        ((k, v) :: rest) acc = .ok (w1, u1,
                          ⟨path, "key at index " ++ toString i
                            ++ " is invalid; expected to match the pattern"⟩
                            :: f1) := by
                      simp only [adjustObjectEntries, hpat, if_false, bind,
                        Except.bind, hr1, Bool.false_eq_true]
                    have hR : adjustObjectEntries m rt path .string t i
                        ((k, v) :: rest) acc = .ok (w2, u2,
                          ⟨path, "key at index " ++ toString i
                            ++ " is invalid; expected to match the pattern"⟩
                            :: f2) := by
                      simp only [adjustObjectEntries, hpat, if_false, bind,
                        Except.bind, hr2, Bool.false_eq_true]
                    rw [hL, hR]
                    exact ResAgrees.okIntro hw (by rw [hf]) hu1 hu2

/-- The tuple loop agrees under `truncSchemaList`-equal item-schema
lists. -/
theorem adjustTupleItems_agrees (m : Mode) (rt : String → String → Bool)
    (path : List String) :
    ∀ (items : List Json), (∀ x ∈ items, ElemIH m rt x) →
      ∀ (i : Nat) (fs gs : List Schema), truncSchemaList fs = truncSchemaList gs →
        ResAgrees (fun u => truncSchemaList u = truncSchemaList fs)
          (adjustTupleItems m rt path i items fs)
          (adjustTupleItems m rt path i items gs) := by
  intro items
  induction items with
  | nil =>
      intro _ i fs gs hst
      exact ResAgrees.okIntro rfl rfl rfl hst.symm
  | cons x rest ih =>
      intro hx i fs gs hst
      cases fs with
      | nil =>
          cases gs with
          | nil => exact ResAgrees.errIntro rfl
          | cons g gs2 => simp [truncSchemaList] at hst
      | cons f fs2 =>
          cases gs with
          | nil => simp [truncSchemaList] at hst
          | cons g gs2 =>
              simp only [truncSchemaList, List.cons.injEq] at hst
              obtain ⟨hfg, hrest0⟩ := hst
              have hhead := hx x (by simp) (path ++ ["<" ++ toString i ++ ">"]) f g hfg
              cases h1 : adjustNode m rt (path ++ ["<" ++ toString i ++ ">"]) x f with
              | error e1 =>
                  cases h2 : adjustNode m rt (path ++ ["<" ++ toString i ++ ">"])
                      x g with
                  | error e2 =>
                      rw [h1, h2] at hhead
                      have hL : adjustTupleItems m rt path i (x :: rest) (f :: fs2) =
                          .error e1 := by
                        simp only [adjustTupleItems, bind, Except.bind, h1]
                      have hR : adjustTupleItems m rt path i (x :: rest) (g :: gs2) =
                          .error e2 := by
                        simp only [adjustTupleItems, bind, Except.bind, h2]
                      rw [hL, hR]
                      exact ResAgrees.errIntro hhead.errElim
                  | ok r2 =>
                      rw [h1, h2] at hhead
                      exact hhead.noErrOk
              | ok r1 =>
                  obtain ⟨v1, s1, e1⟩ := r1
                  cases h2 : adjustNode m rt (path ++ ["<" ++ toString i ++ ">"])
                      x g with
                  | error e2 =>
                      rw [h1, h2] at hhead
                      exact hhead.noOkErr
                  | ok r2 =>
                      obtain ⟨v2, s2, e2⟩ := r2
                      rw [h1, h2] at hhead
                      obtain ⟨hv, he, hs1, hs2⟩ := hhead.okElim
                      have hrest := ih (fun y hy => hx y (by simp [hy])) (i + 1)
                        fs2 gs2 hrest0
                      cases hr1 : adjustTupleItems m rt path (i + 1) rest fs2 with
                      | error f1 =>
                          cases hr2 : adjustTupleItems m rt path (i + 1) rest gs2 with
                          | error f2 =>
                              rw [hr1, hr2] at hrest
                              have hL : adjustTupleItems m rt path i (x :: rest)
                                  (f :: fs2) = .error f1 := by
                                simp only [adjustTupleItems, bind, Except.bind,
                                  h1, hr1]
                              have hR : adjustTupleItems m rt path i (x :: rest)
                                  (g :: gs2) = .error f2 := by
                                simp only [adjustTupleItems, bind, Except.bind,
                                  h2, hr2]
                              rw [hL, hR]
                              exact ResAgrees.errIntro hrest.errElim
                          | ok q2 =>
                              rw [hr1, hr2] at hrest
                              exact hrest.noErrOk
                      | ok q1 =>
                          obtain ⟨w1, u1, f1⟩ := q1
                          cases hr2 : adjustTupleItems m rt path (i + 1) rest gs2 with
                          | error f2 =>
                              rw [hr1, hr2] at hrest
                              exact hrest.noOkErr
                          | ok q2 =>
                              obtain ⟨w2, u2, f2⟩ := q2
                              rw [hr1, hr2] at hrest
                              obtain ⟨hw, hf, hu1, hu2⟩ := hrest.okElim
                              have hL : adjustTupleItems m rt path i (x :: rest)
                                  (f :: fs2) = .ok (v1 :: w1, s1 :: u1, e1 ++ f1) := by
                                simp only [adjustTupleItems, bind, Except.bind,
                                  h1, hr1]
                              have hR : adjustTupleItems m rt path i (x :: rest)
                                  (g :: gs2) = .ok (v2 :: w2, s2 :: u2, e2 ++ f2) := by
                                simp only [adjustTupleItems, bind, Except.bind,
                                  h2, hr2]
                              rw [hL, hR]
                              refine ResAgrees.okIntro (by rw [hv, hw])
                                (by rw [he, hf]) ?_ ?_
                              · simp only [truncSchemaList, List.cons.injEq]
                                exact ⟨hs1, hu1⟩
                              · simp only [truncSchemaList, List.cons.injEq]
                                exact ⟨hs2, hu2⟩

/-- The map-entry loop agrees under `truncSchemaFields`-equal field
lists. -/
theorem adjustMapEntries_agrees (m : Mode) (rt : String → String → Bool)
    (path : List String) :
    ∀ (entries : List (String × Json)), (∀ kv ∈ entries, ElemIH m rt kv.2) →
      ∀ (acc : List (String × Json)) (F G : List (String × Schema)),
        truncSchemaFields F = truncSchemaFields G →
        ResAgrees (fun u => truncSchemaFields u = truncSchemaFields F)
          (adjustMapEntries m rt path F entries acc)
          (adjustMapEntries m rt path G entries acc) := by
  intro entries
  induction entries with
  | nil =>
      intro _ acc F G hst
      exact ResAgrees.okIntro rfl rfl rfl hst.symm
  | cons kv rest ih =>
      obtain ⟨k, v⟩ := kv
      intro hx acc F G hst
      have hxv : ElemIH m rt v := hx (k, v) (by simp)
      have hxrest : ∀ kv2 ∈ rest, ElemIH m rt kv2.2 :=
        fun kv2 h2 => hx kv2 (by simp [h2])
      have hlook := fieldsGet_trunc_congr k F G hst
      cases hf : fieldsGet k F with
      | none =>
          cases hg : fieldsGet k G with
          | some sG => rw [hf, hg] at hlook; simp at hlook
          | none =>
              have hrest := ih hxrest acc F G hst
              cases hr1 : adjustMapEntries m rt path F rest acc with
              | error f1 =>
                  cases hr2 : adjustMapEntries m rt path G rest acc with
                  | error f2 =>
                      rw [hr1, hr2] at hrest
                      have hL : adjustMapEntries m rt path F ((k, v) :: rest) acc =
                          .error f1 := by
                        simp only [adjustMapEntries, hf, bind, Except.bind, hr1]
                      have hR : adjustMapEntries m rt path G ((k, v) :: rest) acc =
                          .error f2 := by
                        simp only [adjustMapEntries, hg, bind, Except.bind, hr2]
                      rw [hL, hR]
                      exact ResAgrees.errIntro hrest.errElim
                  | ok q2 =>
                      rw [hr1, hr2] at hrest
                      exact hrest.noErrOk
              | ok q1 =>
                  obtain ⟨w1, u1, f1⟩ := q1
                  cases hr2 : adjustMapEntries m rt path G rest acc with
                  | error f2 =>
                      rw [hr1, hr2] at hrest
                      exact hrest.noOkErr
                  | ok q2 =>
                      obtain ⟨w2, u2, f2⟩ := q2
                      rw [hr1, hr2] at hrest
                      obtain ⟨hw, hfq, hu1, hu2⟩ := hrest.okElim
                      have hL : adjustMapEntries m rt path F ((k, v) :: rest) acc =
                          .ok (w1, u1,
                            ⟨path, "'" ++ k ++ "' field was unexpected"⟩ :: f1) := by
                        simp only [adjustMapEntries, hf, bind, Except.bind, hr1]
                      have hR : adjustMapEntries m rt path G ((k, v) :: rest) acc =
                          .ok (w2, u2,
                            ⟨path, "'" ++ k ++ "' field was unexpected"⟩ :: f2) := by
                        simp only [adjustMapEntries, hg, bind, Except.bind, hr2]
                      rw [hL, hR]
                      exact ResAgrees.okIntro hw (by rw [hfq]) hu1 hu2
      | some sF =>
          cases hg : fieldsGet k G with
          | none => rw [hf, hg] at hlook; simp at hlook
          | some sG =>
              rw [hf, hg] at hlook
              simp only [Option.map_some', Option.some.injEq] at hlook
              have hhead := hxv (path ++ ["$" ++ k]) sF sG hlook
              cases h1 : adjustNode m rt (path ++ ["$" ++ k]) v sF with
              | error e1 =>
                  cases h2 : adjustNode m rt (path ++ ["$" ++ k]) v sG with
                  | error e2 =>
                      rw [h1, h2] at hhead
                      have hL : adjustMapEntries m rt path F ((k, v) :: rest) acc =
                          .error e1 := by
                        simp only [adjustMapEntries, hf, bind, Except.bind, h1]
                      have hR : adjustMapEntries m rt path G ((k, v) :: rest) acc =
                          .error e2 := by
                        simp only [adjustMapEntries, hg, bind, Except.bind, h2]
                      rw [hL, hR]
                      exact ResAgrees.errIntro hhead.errElim
                  | ok r2 =>
                      rw [h1, h2] at hhead
                      exact hhead.noErrOk
              | ok r1 =>
                  obtain ⟨v1, s1, e1⟩ := r1
                  cases h2 : adjustNode m rt (path ++ ["$" ++ k]) v sG with
                  | error e2 =>
                      rw [h1, h2] at hhead
                      exact hhead.noOkErr
                  | ok r2 =>
                      obtain ⟨v2, s2, e2⟩ := r2
                      rw [h1, h2] at hhead
                      obtain ⟨hv, he, hs1, hs2⟩ := hhead.okElim
                      subst hv
                      have hFG2 : truncSchemaFields (fieldsSet k s1 F) =
                          truncSchemaFields (fieldsSet k s2 G) :=
                        truncSchemaFields_fieldsSet_congr k s1 s2
                          (hs1.trans hs2.symm) F G hst
                      have hF2 : truncSchemaFields (fieldsSet k s1 F) =
                          truncSchemaFields F :=
                        truncSchemaFields_fieldsSet k s1 sF hs1 F hf
                      have hrest := ih hxrest (assocSet k v1 acc)
                        (fieldsSet k s1 F) (fieldsSet k s2 G) hFG2
                      cases hr1 : adjustMapEntries m rt path (fieldsSet k s1 F) rest
                          (assocSet k v1 acc) with
                      | error f1 =>
                          cases hr2 : adjustMapEntries m rt path (fieldsSet k s2 G)
                              rest (assocSet k v1 acc) with
                          | error f2 =>
                              rw [hr1, hr2] at hrest
                              have hL : adjustMapEntries m rt path F
                                  ((k, v) :: rest) acc = .error f1 := by
                                simp only [adjustMapEntries, hf, bind, Except.bind,
                                  h1, hr1]
                              have hR : adjustMapEntries m rt path G
                                  ((k, v) :: rest) acc = .error f2 := by
                                simp only [adjustMapEntries, hg, bind, Except.bind,
                                  h2, hr2]
                              rw [hL, hR]
                              exact ResAgrees.errIntro hrest.errElim
                          | ok q2 =>
                              rw [hr1, hr2] at hrest
                              exact hrest.noErrOk
                      | ok q1 =>
                          obtain ⟨w1, u1, f1⟩ := q1
                          cases hr2 : adjustMapEntries m rt path (fieldsSet k s2 G)
                              rest (assocSet k v1 acc) with
                          | error f2 =>
                              rw [hr1, hr2] at hrest
                              exact hrest.noOkErr
                          | ok q2 =>
                              obtain ⟨w2, u2, f2⟩ := q2
                              rw [hr1, hr2] at hrest
                              obtain ⟨hw, hfq, hu1, hu2⟩ := hrest.okElim
                              have hL : adjustMapEntries m rt path F
                                  ((k, v) :: rest) acc =
                                  .ok (w1, u1, e1 ++ f1) := by
                                simp only [adjustMapEntries, hf, bind, Except.bind,
                                  h1, hr1]
                              have hR : adjustMapEntries m rt path G
                                  ((k, v) :: rest) acc =
                                  .ok (w2, u2, e2 ++ f2) := by
                                simp only [adjustMapEntries, hg, bind, Except.bind,
                                  h2, hr2]
                              rw [hL, hR]
                              exact ResAgrees.okIntro hw (by rw [he, hfq])
                                (hu1.trans hF2) (hu2.trans hF2)

theorem truncSchemaFields_eq_map_fst {F G : List (String × Schema)}
    (h : truncSchemaFields F = truncSchemaFields G) :
    F.map Prod.fst = G.map Prod.fst := by
  rw [← truncSchemaFields_map_fst F, ← truncSchemaFields_map_fst G, h]

/-- The missing-keys pass reads a field's schema only through its
`option` flag, so `truncSchemaFields`-equal field lists drive it
identically. -/
theorem synthesizeMissing_trunc_congr (path : List String)
    {F G : List (String × Schema)} (h : truncSchemaFields F = truncSchemaFields G) :
    ∀ (missing : List String) (adjusted : List (String × Json)),
      synthesizeMissing path F missing adjusted =
        synthesizeMissing path G missing adjusted := by
  intro missing
  induction missing with
  | nil => intro adjusted; rfl
  | cons k rest ih =>
      intro adjusted
      have hlook := fieldsGet_trunc_congr k F G h
      cases hf : fieldsGet k F with
      | none =>
          cases hg : fieldsGet k G with
          | some s => rw [hf, hg] at hlook; simp at hlook
          | none => simp only [synthesizeMissing, hf, hg, ih]
      | some sF =>
          cases hg : fieldsGet k G with
          | none => rw [hf, hg] at hlook; simp at hlook
          | some sG =>
              rw [hf, hg] at hlook
              simp only [Option.map_some', Option.some.injEq] at hlook
              have hopt : sF.option = sG.option := by
                rw [← Schema.option_trunc sF, ← Schema.option_trunc sG, hlook]
              simp only [synthesizeMissing, hf, hg, hopt, ih]

/-- `processStringNode` under `truncLength`-equal length properties:
same value, same errors, and both stored length properties truncate to
the input's truncation. -/
theorem processStringNode_trunc (m : Mode) (rt : String → String → Bool)
    (path : List String) (node : Json) (pat : Option String)
    (len len2 : Option LengthC)
    (hlen : len.map truncLength = len2.map truncLength) :
    (processStringNode m rt path node len pat).1 =
      (processStringNode m rt path node len2 pat).1 ∧
    (processStringNode m rt path node len pat).2.2 =
      (processStringNode m rt path node len2 pat).2.2 ∧
    (processStringNode m rt path node len pat).2.1.map truncLength =
      len.map truncLength ∧
    (processStringNode m rt path node len2 pat).2.1.map truncLength =
      len.map truncLength := by
  cases node with
  | str a =>
      have hck := checkLengthOpt_trunc ((a.length : ℚ)) path len len2 hlen
      rcases hc1 : checkLengthOpt ((a.length : ℚ)) len path with ⟨l1, e1⟩
      rcases hc2 : checkLengthOpt ((a.length : ℚ)) len2 path with ⟨l2, e2⟩
      rw [hc1, hc2] at hck
      obtain ⟨hE, hT1, hT2⟩ := hck
      have hE2 : e1 = e2 := hE
      have hT1b : Option.map truncLength l1 = Option.map truncLength len2 := hT1
      have hT2b : Option.map truncLength l2 = Option.map truncLength len2 := hT2
      simp only [processStringNode, hc1, hc2]
      refine ⟨?_, ?_, ?_, ?_⟩
      · trivial
      · rw [hE2]
      · exact hT1b.trans hlen.symm
      · exact hT2b.trans hlen.symm
  | null => exact ⟨rfl, rfl, rfl, hlen.symm⟩
  | undef => exact ⟨rfl, rfl, rfl, hlen.symm⟩
  | bool b => exact ⟨rfl, rfl, rfl, hlen.symm⟩
  | num q => exact ⟨rfl, rfl, rfl, hlen.symm⟩
  | arr items => exact ⟨rfl, rfl, rfl, hlen.symm⟩
  | obj es => exact ⟨rfl, rfl, rfl, hlen.symm⟩

/-- Truncation invariance of `adjustNode` (strong induction on the node
size): `truncSchema`-equal schemas produce the same adjusted value, the
same errors (or the same `TypeError`), and schemas `truncSchema`-equal
to the input. -/
theorem adjustNodeAgreesAux (m : Mode) (rt : String → String → Bool) :
    ∀ (n : Nat) (node : Json), sizeOf node ≤ n →
      ∀ (path : List String) (s t : Schema), truncSchema s = truncSchema t →
        ResAgrees (fun u => truncSchema u = truncSchema s)
          (adjustNode m rt path node s) (adjustNode m rt path node t) := by
  intro n
  induction n with
  | zero =>
      intro node hn
      exfalso
      cases node <;> simp at hn
  | succ n ih =>
      intro node hn path s t hst
      cases s with
      | flag o =>
          cases t <;> try (simp only [truncSchema] at hst; exact Schema.noConfusion hst)
          case flag o2 =>
          simp only [truncSchema, Schema.flag.injEq] at hst
          subst hst
          by_cases hnull : (o && node.isNull) = true
          · have hL : adjustNode m rt path node (.flag o) =
                .ok (.null, .flag o, []) := by
              simp only [adjustNode, Schema.option]
              rw [if_pos hnull]
            rw [hL]
            exact ResAgrees.okIntro rfl rfl rfl rfl
          · rcases hp : processFlagNode m path node with ⟨v, errs⟩
            have hL : adjustNode m rt path node (.flag o) =
                .ok (v, .flag o, errs) := by
              simp only [adjustNode, Schema.option]
              rw [if_neg hnull]
              simp only [hp]
            rw [hL]
            exact ResAgrees.okIntro rfl rfl rfl rfl
      | number o d mn mx =>
          cases t <;> try (simp only [truncSchema] at hst; exact Schema.noConfusion hst)
          case number o2 d2 mn2 mx2 =>
          simp only [truncSchema, Schema.number.injEq] at hst
          obtain ⟨h1, h2, h3, h4⟩ := hst
          subst h1; subst h2; subst h3; subst h4
          by_cases hnull : (o && node.isNull) = true
          · have hL : adjustNode m rt path node (.number o d mn mx) =
                .ok (.null, .number o d mn mx, []) := by
              simp only [adjustNode, Schema.option]
              rw [if_pos hnull]
            rw [hL]
            exact ResAgrees.okIntro rfl rfl rfl rfl
          · rcases hp : processNumberNode m path node d mn mx with ⟨v, errs⟩
            have hL : adjustNode m rt path node (.number o d mn mx) =
                .ok (v, .number o d mn mx, errs) := by
              simp only [adjustNode, Schema.option]
              rw [if_neg hnull]
              simp only [hp]
            rw [hL]
            exact ResAgrees.okIntro rfl rfl rfl rfl
      | enum o values =>
          cases t <;> try (simp only [truncSchema] at hst; exact Schema.noConfusion hst)
          case enum o2 values2 =>
          simp only [truncSchema, Schema.enum.injEq] at hst
          obtain ⟨h1, h2⟩ := hst
          subst h1; subst h2
          by_cases hnull : (o && node.isNull) = true
          · have hL : adjustNode m rt path node (.enum o values) =
                .ok (.null, .enum o values, []) := by
              simp only [adjustNode, Schema.option]
              rw [if_pos hnull]
            rw [hL]
            exact ResAgrees.okIntro rfl rfl rfl rfl
          · rcases hp : processEnumNode m path node values with ⟨v, errs⟩
            have hL : adjustNode m rt path node (.enum o values) =
                .ok (v, .enum o values, errs) := by
              simp only [adjustNode, Schema.option]
              rw [if_neg hnull]
              simp only [hp]
            rw [hL]
            exact ResAgrees.okIntro rfl rfl rfl rfl
      | string o len pat =>
          cases t <;> try (simp only [truncSchema] at hst; exact Schema.noConfusion hst)
          case string o2 len2 pat2 =>
          simp only [truncSchema, Schema.string.injEq] at hst
          obtain ⟨h1, hlen, h3⟩ := hst
          subst h1; subst h3
          by_cases hnull : (o && node.isNull) = true
          · have hL : adjustNode m rt path node (.string o len pat) =
                .ok (.null, .string o len pat, []) := by
              simp only [adjustNode, Schema.option]
              rw [if_pos hnull]
            have hR : adjustNode m rt path node (.string o len2 pat) =
                .ok (.null, .string o len2 pat, []) := by
              simp only [adjustNode, Schema.option]
              rw [if_pos hnull]
            rw [hL, hR]
            refine ResAgrees.okIntro rfl rfl rfl ?_
            simp only [truncSchema]
            rw [hlen]
          · rcases hp1 : processStringNode m rt path node len pat with ⟨v1, l1, e1⟩
            rcases hp2 : processStringNode m rt path node len2 pat with ⟨v2, l2, e2⟩
            have hps := processStringNode_trunc m rt path node pat len len2 hlen
            rw [hp1, hp2] at hps
            obtain ⟨hv, he, hT1, hT2⟩ := hps
            have hv2 : v1 = v2 := hv
            have he2 : e1 = e2 := he
            have hT1b : Option.map truncLength l1 = Option.map truncLength len := hT1
            have hT2b : Option.map truncLength l2 = Option.map truncLength len := hT2
            have hL : adjustNode m rt path node (.string o len pat) =
                .ok (v1, .string o l1 pat, e1) := by
              simp only [adjustNode, Schema.option]
              rw [if_neg hnull]
              simp only [hp1]
            have hR : adjustNode m rt path node (.string o len2 pat) =
                .ok (v2, .string o l2 pat, e2) := by
              simp only [adjustNode, Schema.option]
              rw [if_neg hnull]
              simp only [hp2]
            rw [hL, hR]
            refine ResAgrees.okIntro hv2 he2 ?_ ?_
            · simp only [truncSchema]
              rw [hT1b]
            · simp only [truncSchema]
              rw [hT2b]
      | array o len val =>
          cases t <;> try (simp only [truncSchema] at hst; exact Schema.noConfusion hst)
          case array o2 len2 val2 =>
          simp only [truncSchema, Schema.array.injEq] at hst
          obtain ⟨h1, hlen, hval⟩ := hst
          subst h1
          by_cases hnull : (o && node.isNull) = true
          · have hnode : node = Json.null := by
              cases node <;> simp [Json.isNull] at hnull
              rfl
            subst hnode
            have hL : adjustNode m rt path Json.null (.array o len val) =
                .ok (.null, .array o len val, []) := by
              simp only [adjustNode, Schema.option]
              rw [if_pos hnull]
            have hR : adjustNode m rt path Json.null (.array o len2 val2) =
                .ok (.null, .array o len2 val2, []) := by
              simp only [adjustNode, Schema.option]
              rw [if_pos hnull]
            rw [hL, hR]
            refine ResAgrees.okIntro rfl rfl rfl ?_
            simp only [truncSchema]
            rw [hlen, hval]
          · have hOut : truncSchema (Schema.array o len2 val2) =
                truncSchema (Schema.array o len val) := by
              simp only [truncSchema]
              rw [hlen, hval]
            cases node with
            | null =>
                have hL : adjustNode m rt path .null (.array o len val) =
                    .error .typeError := by
                  simp only [adjustNode, Schema.option]
                  rw [if_neg hnull]
                have hR : adjustNode m rt path .null (.array o len2 val2) =
                    .error .typeError := by
                  simp only [adjustNode, Schema.option]
                  rw [if_neg hnull]
                rw [hL, hR]
                exact ResAgrees.errIntro rfl
            | undef =>
                have hL : adjustNode m rt path .undef (.array o len val) =
                    .error .typeError := by
                  simp only [adjustNode, Schema.option]
                  rw [if_neg hnull]
                have hR : adjustNode m rt path .undef (.array o len2 val2) =
                    .error .typeError := by
                  simp only [adjustNode, Schema.option]
                  rw [if_neg hnull]
                rw [hL, hR]
                exact ResAgrees.errIntro rfl
            | bool b =>
                have hL : adjustNode m rt path (.bool b) (.array o len val) =
                    .ok (.undef, .array o len val, [⟨path, expectingMsg m .array⟩]) := by
                  simp only [adjustNode, Schema.option]
                  rw [if_neg hnull]
                have hR : adjustNode m rt path (.bool b) (.array o len2 val2) =
                    .ok (.undef, .array o len2 val2,
                      [⟨path, expectingMsg m .array⟩]) := by
                  simp only [adjustNode, Schema.option]
                  rw [if_neg hnull]
                rw [hL, hR]
                exact ResAgrees.okIntro rfl rfl rfl hOut
            | num q =>
                have hL : adjustNode m rt path (.num q) (.array o len val) =
                    .ok (.undef, .array o len val, [⟨path, expectingMsg m .array⟩]) := by
                  simp only [adjustNode, Schema.option]
                  rw [if_neg hnull]
                have hR : adjustNode m rt path (.num q) (.array o len2 val2) =
                    .ok (.undef, .array o len2 val2,
                      [⟨path, expectingMsg m .array⟩]) := by
                  simp only [adjustNode, Schema.option]
                  rw [if_neg hnull]
                rw [hL, hR]
                exact ResAgrees.okIntro rfl rfl rfl hOut
            | str a =>
                have hL : adjustNode m rt path (.str a) (.array o len val) =
                    .ok (.undef, .array o len val, [⟨path, expectingMsg m .array⟩]) := by
                  simp only [adjustNode, Schema.option]
                  rw [if_neg hnull]
                have hR : adjustNode m rt path (.str a) (.array o len2 val2) =
                    .ok (.undef, .array o len2 val2,
                      [⟨path, expectingMsg m .array⟩]) := by
                  simp only [adjustNode, Schema.option]
                  rw [if_neg hnull]
                rw [hL, hR]
                exact ResAgrees.okIntro rfl rfl rfl hOut
            | obj es =>
                have hL : adjustNode m rt path (.obj es) (.array o len val) =
                    .ok (.undef, .array o len val, [⟨path, expectingMsg m .array⟩]) := by
                  simp only [adjustNode, Schema.option]
                  rw [if_neg hnull]
                have hR : adjustNode m rt path (.obj es) (.array o len2 val2) =
                    .ok (.undef, .array o len2 val2,
                      [⟨path, expectingMsg m .array⟩]) := by
                  simp only [adjustNode, Schema.option]
                  rw [if_neg hnull]
                rw [hL, hR]
                exact ResAgrees.okIntro rfl rfl rfl hOut
            | arr items =>
                have hElem : ∀ x ∈ items, ElemIH m rt x := by
                  intro x hxm path2 s2 t2 hst2
                  exact ih x
                    (Nat.lt_succ_iff.mp (lt_of_lt_of_le (sizeOf_mem_arr hxm) hn))
                    path2 s2 t2 hst2
                have hck := checkLengthOpt_trunc ((items.length : ℚ)) path len len2 hlen
                rcases hc1 : checkLengthOpt ((items.length : ℚ)) len path with ⟨l1, le1⟩
                rcases hc2 : checkLengthOpt ((items.length : ℚ)) len2 path with ⟨l2, le2⟩
                rw [hc1, hc2] at hck
                obtain ⟨hE, hT1, hT2⟩ := hck
                have hE2 : le1 = le2 := hE
                have hT1b : Option.map truncLength l1 = Option.map truncLength len2 :=
                  hT1
                have hT2b : Option.map truncLength l2 = Option.map truncLength len2 :=
                  hT2
                have hloop := adjustArrayItems_agrees m rt path items hElem 0
                  val val2 hval
                cases hr1 : adjustArrayItems m rt path val 0 items with
                | error f1 =>
                    cases hr2 : adjustArrayItems m rt path val2 0 items with
                    | error f2 =>
                        rw [hr1, hr2] at hloop
                        have hL : adjustNode m rt path (.arr items)
                            (.array o len val) = .error f1 := by
                          simp only [adjustNode, Schema.option]
                          rw [if_neg hnull]
                          simp only [hc1, bind, Except.bind, hr1]
                        have hR : adjustNode m rt path (.arr items)
                            (.array o len2 val2) = .error f2 := by
                          simp only [adjustNode, Schema.option]
                          rw [if_neg hnull]
                          simp only [hc2, bind, Except.bind, hr2]
                        rw [hL, hR]
                        exact ResAgrees.errIntro hloop.errElim
                    | ok q2 =>
                        rw [hr1, hr2] at hloop
                        exact hloop.noErrOk
                | ok q1 =>
                    obtain ⟨out1, vs1, er1⟩ := q1
                    cases hr2 : adjustArrayItems m rt path val2 0 items with
                    | error f2 =>
                        rw [hr1, hr2] at hloop
                        exact hloop.noOkErr
                    | ok q2 =>
                        obtain ⟨out2, vs2, er2⟩ := q2
                        rw [hr1, hr2] at hloop
                        obtain ⟨hw, hf, hu1, hu2⟩ := hloop.okElim
                        have hL : adjustNode m rt path (.arr items)
                            (.array o len val) =
                            .ok (.arr out1, .array o l1 vs1, le1 ++ er1) := by
                          simp only [adjustNode, Schema.option]
                          rw [if_neg hnull]
                          simp only [hc1, bind, Except.bind, hr1]
                        have hR : adjustNode m rt path (.arr items)
                            (.array o len2 val2) =
                            .ok (.arr out2, .array o l2 vs2, le2 ++ er2) := by
                          simp only [adjustNode, Schema.option]
                          rw [if_neg hnull]
                          simp only [hc2, bind, Except.bind, hr2]
                        rw [hL, hR]
                        refine ResAgrees.okIntro (by rw [hw]) (by rw [hE2, hf]) ?_ ?_
                        · simp only [truncSchema]
                          rw [hT1b.trans hlen.symm, hu1]
                        · simp only [truncSchema]
                          rw [hT2b.trans hlen.symm, hu2]
      | object o key len val =>
          cases t <;> try (simp only [truncSchema] at hst; exact Schema.noConfusion hst)
          case object o2 key2 len2 val2 =>
          simp only [truncSchema, Schema.object.injEq] at hst
          obtain ⟨h1, hkey, hlen, hval⟩ := hst
          subst h1; subst hkey
          by_cases hnull : (o && node.isNull) = true
          · have hnode : node = Json.null := by
              cases node <;> simp [Json.isNull] at hnull
              rfl
            subst hnode
            have hL : adjustNode m rt path Json.null (.object o key len val) =
                .ok (.null, .object o key len val, []) := by
              simp only [adjustNode, Schema.option]
              rw [if_pos hnull]
            have hR : adjustNode m rt path Json.null (.object o key len2 val2) =
                .ok (.null, .object o key len2 val2, []) := by
              simp only [adjustNode, Schema.option]
              rw [if_pos hnull]
            rw [hL, hR]
            refine ResAgrees.okIntro rfl rfl rfl ?_
            simp only [truncSchema]
            rw [hlen, hval]
          · have hOut : truncSchema (Schema.object o key len2 val2) =
                truncSchema (Schema.object o key len val) := by
              simp only [truncSchema]
              rw [hlen, hval]
            cases node with
            | null =>
                have hL : adjustNode m rt path .null (.object o key len val) =
                    .error .typeError := by
                  simp only [adjustNode, Schema.option]
                  rw [if_neg hnull]
                have hR : adjustNode m rt path .null (.object o key len2 val2) =
                    .error .typeError := by
                  simp only [adjustNode, Schema.option]
                  rw [if_neg hnull]
                rw [hL, hR]
                exact ResAgrees.errIntro rfl
            | undef =>
                have hL : adjustNode m rt path .undef (.object o key len val) =
                    .error .typeError := by
                  simp only [adjustNode, Schema.option]
                  rw [if_neg hnull]
                have hR : adjustNode m rt path .undef (.object o key len2 val2) =
                    .error .typeError := by
                  simp only [adjustNode, Schema.option]
                  rw [if_neg hnull]
                rw [hL, hR]
                exact ResAgrees.errIntro rfl
            | bool b =>
                have hL : adjustNode m rt path (.bool b) (.object o key len val) =
                    .ok (.undef, .object o key len val,
                      [⟨path, expectingMsg m .object⟩]) := by
                  simp only [adjustNode, Schema.option]
                  rw [if_neg hnull]
                have hR : adjustNode m rt path (.bool b) (.object o key len2 val2) =
                    .ok (.undef, .object o key len2 val2,
                      [⟨path, expectingMsg m .object⟩]) := by
                  simp only [adjustNode, Schema.option]
                  rw [if_neg hnull]
                rw [hL, hR]
                exact ResAgrees.okIntro rfl rfl rfl hOut
            | num q =>
                have hL : adjustNode m rt path (.num q) (.object o key len val) =
                    .ok (.undef, .object o key len val,
                      [⟨path, expectingMsg m .object⟩]) := by
                  simp only [adjustNode, Schema.option]
                  rw [if_neg hnull]
                have hR : adjustNode m rt path (.num q) (.object o key len2 val2) =
                    .ok (.undef, .object o key len2 val2,
                      [⟨path, expectingMsg m .object⟩]) := by
                  simp only [adjustNode, Schema.option]
                  rw [if_neg hnull]
                rw [hL, hR]
                exact ResAgrees.okIntro rfl rfl rfl hOut
            | str a =>
                have hL : adjustNode m rt path (.str a) (.object o key len val) =
                    .ok (.undef, .object o key len val,
                      [⟨path, expectingMsg m .object⟩]) := by
                  simp only [adjustNode, Schema.option]
                  rw [if_neg hnull]
                have hR : adjustNode m rt path (.str a) (.object o key len2 val2) =
                    .ok (.undef, .object o key len2 val2,
                      [⟨path, expectingMsg m .object⟩]) := by
                  simp only [adjustNode, Schema.option]
                  rw [if_neg hnull]
                rw [hL, hR]
                exact ResAgrees.okIntro rfl rfl rfl hOut
            | arr items =>
                have hL : adjustNode m rt path (.arr items) (.object o key len val) =
                    .ok (.undef, .object o key len val,
                      [⟨path, expectingMsg m .object⟩]) := by
                  simp only [adjustNode, Schema.option]
                  rw [if_neg hnull]
                have hR : adjustNode m rt path (.arr items)
                    (.object o key len2 val2) =
                    .ok (.undef, .object o key len2 val2,
                      [⟨path, expectingMsg m .object⟩]) := by
                  simp only [adjustNode, Schema.option]
                  rw [if_neg hnull]
                rw [hL, hR]
                exact ResAgrees.okIntro rfl rfl rfl hOut
            | obj es =>
                have hElem : ∀ kv ∈ es, ElemIH m rt kv.2 := by
                  intro kv hkv path2 s2 t2 hst2
                  exact ih kv.2
                    (Nat.lt_succ_iff.mp (lt_of_lt_of_le (sizeOf_mem_obj hkv) hn))
                    path2 s2 t2 hst2
                have hck := checkLengthOpt_trunc ((es.length : ℚ)) path len len2 hlen
                rcases hc1 : checkLengthOpt ((es.length : ℚ)) len path with ⟨l1, le1⟩
                rcases hc2 : checkLengthOpt ((es.length : ℚ)) len2 path with ⟨l2, le2⟩
                rw [hc1, hc2] at hck
                obtain ⟨hE, hT1, hT2⟩ := hck
                have hE2 : le1 = le2 := hE
                have hT1b : Option.map truncLength l1 = Option.map truncLength len2 :=
                  hT1
                have hT2b : Option.map truncLength l2 = Option.map truncLength len2 :=
                  hT2
                have hloop := adjustObjectEntries_agrees m rt path key es hElem 0 []
                  val val2 hval
                cases hr1 : adjustObjectEntries m rt path key val 0 es [] with
                | error f1 =>
                    cases hr2 : adjustObjectEntries m rt path key val2 0 es [] with
                    | error f2 =>
                        rw [hr1, hr2] at hloop
                        have hL : adjustNode m rt path (.obj es)
                            (.object o key len val) = .error f1 := by
                          simp only [adjustNode, Schema.option]
                          rw [if_neg hnull]
                          simp only [hc1, bind, Except.bind, hr1]
                        have hR : adjustNode m rt path (.obj es)
                            (.object o key len2 val2) = .error f2 := by
                          simp only [adjustNode, Schema.option]
                          rw [if_neg hnull]
                          simp only [hc2, bind, Except.bind, hr2]
                        rw [hL, hR]
                        exact ResAgrees.errIntro hloop.errElim
                    | ok q2 =>
                        rw [hr1, hr2] at hloop
                        exact hloop.noErrOk
                | ok q1 =>
                    obtain ⟨out1, vs1, er1⟩ := q1
                    cases hr2 : adjustObjectEntries m rt path key val2 0 es [] with
                    | error f2 =>
                        rw [hr1, hr2] at hloop
                        exact hloop.noOkErr
                    | ok q2 =>
                        obtain ⟨out2, vs2, er2⟩ := q2
                        rw [hr1, hr2] at hloop
                        obtain ⟨hw, hf, hu1, hu2⟩ := hloop.okElim
                        have hL : adjustNode m rt path (.obj es)
                            (.object o key len val) =
                            .ok (.obj out1, .object o key l1 vs1, le1 ++ er1) := by
                          simp only [adjustNode, Schema.option]
                          rw [if_neg hnull]
                          simp only [hc1, bind, Except.bind, hr1]
                        have hR : adjustNode m rt path (.obj es)
                            (.object o key len2 val2) =
                            .ok (.obj out2, .object o key l2 vs2, le2 ++ er2) := by
                          simp only [adjustNode, Schema.option]
                          rw [if_neg hnull]
                          simp only [hc2, bind, Except.bind, hr2]
                        rw [hL, hR]
                        refine ResAgrees.okIntro (by rw [hw]) (by rw [hE2, hf]) ?_ ?_
                        · simp only [truncSchema]
                          rw [hT1b.trans hlen.symm, hu1]
                        · simp only [truncSchema]
                          rw [hT2b.trans hlen.symm, hu2]
      | tuple o fmts =>
          cases t <;> try (simp only [truncSchema] at hst; exact Schema.noConfusion hst)
          case tuple o2 fmts2 =>
          simp only [truncSchema, Schema.tuple.injEq] at hst
          obtain ⟨h1, hfl⟩ := hst
          subst h1
          have hOut : truncSchema (Schema.tuple o fmts2) =
              truncSchema (Schema.tuple o fmts) := by
            simp only [truncSchema]
            rw [hfl]
          have hlen : fmts.length = fmts2.length := by
            rw [← truncSchemaList_length fmts, ← truncSchemaList_length fmts2, hfl]
          by_cases hnull : (o && node.isNull) = true
          · have hnode : node = Json.null := by
              cases node <;> simp [Json.isNull] at hnull
              rfl
            subst hnode
            have hL : adjustNode m rt path Json.null (.tuple o fmts) =
                .ok (.null, .tuple o fmts, []) := by
              simp only [adjustNode, Schema.option]
              rw [if_pos hnull]
            have hR : adjustNode m rt path Json.null (.tuple o fmts2) =
                .ok (.null, .tuple o fmts2, []) := by
              simp only [adjustNode, Schema.option]
              rw [if_pos hnull]
            rw [hL, hR]
            exact ResAgrees.okIntro rfl rfl rfl hOut
          · cases node with
            | null =>
                have hL : adjustNode m rt path .null (.tuple o fmts) =
                    .error .typeError := by
                  simp only [adjustNode, Schema.option]
                  rw [if_neg hnull]
                have hR : adjustNode m rt path .null (.tuple o fmts2) =
                    .error .typeError := by
                  simp only [adjustNode, Schema.option]
                  rw [if_neg hnull]
                rw [hL, hR]
                exact ResAgrees.errIntro rfl
            | undef =>
                have hL : adjustNode m rt path .undef (.tuple o fmts) =
                    .error .typeError := by
                  simp only [adjustNode, Schema.option]
                  rw [if_neg hnull]
                have hR : adjustNode m rt path .undef (.tuple o fmts2) =
                    .error .typeError := by
                  simp only [adjustNode, Schema.option]
                  rw [if_neg hnull]
                rw [hL, hR]
                exact ResAgrees.errIntro rfl
            | bool b =>
                have hL : adjustNode m rt path (.bool b) (.tuple o fmts) =
                    .ok (.undef, .tuple o fmts, [⟨path, expectingMsg m .array⟩]) := by
                  simp only [adjustNode, Schema.option]
                  rw [if_neg hnull]
                have hR : adjustNode m rt path (.bool b) (.tuple o fmts2) =
                    .ok (.undef, .tuple o fmts2, [⟨path, expectingMsg m .array⟩]) := by
                  simp only [adjustNode, Schema.option]
                  rw [if_neg hnull]
                rw [hL, hR]
                exact ResAgrees.okIntro rfl rfl rfl hOut
            | num q =>
                have hL : adjustNode m rt path (.num q) (.tuple o fmts) =
                    .ok (.undef, .tuple o fmts, [⟨path, expectingMsg m .array⟩]) := by
                  simp only [adjustNode, Schema.option]
                  rw [if_neg hnull]
                have hR : adjustNode m rt path (.num q) (.tuple o fmts2) =
                    .ok (.undef, .tuple o fmts2, [⟨path, expectingMsg m .array⟩]) := by
                  simp only [adjustNode, Schema.option]
                  rw [if_neg hnull]
                rw [hL, hR]
                exact ResAgrees.okIntro rfl rfl rfl hOut
            | str a =>
                have hL : adjustNode m rt path (.str a) (.tuple o fmts) =
                    .ok (.undef, .tuple o fmts, [⟨path, expectingMsg m .array⟩]) := by
                  simp only [adjustNode, Schema.option]
                  rw [if_neg hnull]
                have hR : adjustNode m rt path (.str a) (.tuple o fmts2) =
                    .ok (.undef, .tuple o fmts2, [⟨path, expectingMsg m .array⟩]) := by
                  simp only [adjustNode, Schema.option]
                  rw [if_neg hnull]
                rw [hL, hR]
                exact ResAgrees.okIntro rfl rfl rfl hOut
            | obj es =>
                have hL : adjustNode m rt path (.obj es) (.tuple o fmts) =
                    .ok (.undef, .tuple o fmts, [⟨path, expectingMsg m .array⟩]) := by
                  simp only [adjustNode, Schema.option]
                  rw [if_neg hnull]
                have hR : adjustNode m rt path (.obj es) (.tuple o fmts2) =
                    .ok (.undef, .tuple o fmts2, [⟨path, expectingMsg m .array⟩]) := by
                  simp only [adjustNode, Schema.option]
                  rw [if_neg hnull]
                rw [hL, hR]
                exact ResAgrees.okIntro rfl rfl rfl hOut
            | arr items =>
                by_cases har : items.length = fmts.length
                · have hElem : ∀ x ∈ items, ElemIH m rt x := by
                    intro x hxm path2 s2 t2 hst2
                    exact ih x
                      (Nat.lt_succ_iff.mp (lt_of_lt_of_le (sizeOf_mem_arr hxm) hn))
                      path2 s2 t2 hst2
                  have hloop := adjustTupleItems_agrees m rt path items hElem 0
                    fmts fmts2 hfl
                  cases hr1 : adjustTupleItems m rt path 0 items fmts with
                  | error f1 =>
                      cases hr2 : adjustTupleItems m rt path 0 items fmts2 with
                      | error f2 =>
                          rw [hr1, hr2] at hloop
                          have hL : adjustNode m rt path (.arr items)
                              (.tuple o fmts) = .error f1 := by
                            simp only [adjustNode, Schema.option]
                            rw [if_neg hnull]
                            rw [if_neg (by simp [har])]
                            simp only [bind, Except.bind, hr1]
                          have hR : adjustNode m rt path (.arr items)
                              (.tuple o fmts2) = .error f2 := by
                            simp only [adjustNode, Schema.option]
                            rw [if_neg hnull]
                            rw [if_neg (by simp [har, hlen])]
                            simp only [bind, Except.bind, hr2]
                          rw [hL, hR]
                          exact ResAgrees.errIntro hloop.errElim
                      | ok q2 =>
                          rw [hr1, hr2] at hloop
                          exact hloop.noErrOk
                  | ok q1 =>
                      obtain ⟨out1, fs1, er1⟩ := q1
                      cases hr2 : adjustTupleItems m rt path 0 items fmts2 with
                      | error f2 =>
                          rw [hr1, hr2] at hloop
                          exact hloop.noOkErr
                      | ok q2 =>
                          obtain ⟨out2, fs2, er2⟩ := q2
                          rw [hr1, hr2] at hloop
                          obtain ⟨hw, hf, hu1, hu2⟩ := hloop.okElim
                          have hL : adjustNode m rt path (.arr items)
                              (.tuple o fmts) =
                              .ok (.arr out1, .tuple o fs1, er1) := by
                            simp only [adjustNode, Schema.option]
                            rw [if_neg hnull]
                            rw [if_neg (by simp [har])]
                            simp only [bind, Except.bind, hr1]
                          have hR : adjustNode m rt path (.arr items)
                              (.tuple o fmts2) =
                              .ok (.arr out2, .tuple o fs2, er2) := by
                            simp only [adjustNode, Schema.option]
                            rw [if_neg hnull]
                            rw [if_neg (by simp [har, hlen])]
                            simp only [bind, Except.bind, hr2]
                          rw [hL, hR]
                          refine ResAgrees.okIntro (by rw [hw]) (by rw [hf]) ?_ ?_
                          · simp only [truncSchema]
                            rw [hu1]
                          · simp only [truncSchema]
                            rw [hu2]
                · have hL : adjustNode m rt path (.arr items) (.tuple o fmts) =
                      .ok (.undef, .tuple o fmts,
                        [⟨path, "length of the array must be "
                          ++ toString fmts.length⟩]) := by
                    simp only [adjustNode, Schema.option]
                    rw [if_neg hnull]
                    rw [if_pos (by simp [har])]
                  have hR : adjustNode m rt path (.arr items) (.tuple o fmts2) =
                      .ok (.undef, .tuple o fmts2,
                        [⟨path, "length of the array must be "
                          ++ toString fmts2.length⟩]) := by
                    simp only [adjustNode, Schema.option]
                    rw [if_neg hnull]
                    rw [if_pos (by simp [har, ← hlen])]
                  rw [hL, hR]
                  exact ResAgrees.okIntro rfl (by rw [hlen]) rfl hOut
      | map o F =>
          cases t <;> try (simp only [truncSchema] at hst; exact Schema.noConfusion hst)
          case map o2 G =>
          simp only [truncSchema, Schema.map.injEq] at hst
          obtain ⟨h1, hFG⟩ := hst
          subst h1
          have hOut : truncSchema (Schema.map o G) = truncSchema (Schema.map o F) := by
            simp only [truncSchema]
            rw [hFG]
          by_cases hnull : (o && node.isNull) = true
          · have hnode : node = Json.null := by
              cases node <;> simp [Json.isNull] at hnull
              rfl
            subst hnode
            have hL : adjustNode m rt path Json.null (.map o F) =
                .ok (.null, .map o F, []) := by
              simp only [adjustNode, Schema.option]
              rw [if_pos hnull]
            have hR : adjustNode m rt path Json.null (.map o G) =
                .ok (.null, .map o G, []) := by
              simp only [adjustNode, Schema.option]
              rw [if_pos hnull]
            rw [hL, hR]
            exact ResAgrees.okIntro rfl rfl rfl hOut
          · cases node with
            | null =>
                have hL : adjustNode m rt path .null (.map o F) =
                    .error .typeError := by
                  simp only [adjustNode, Schema.option]
                  rw [if_neg hnull]
                have hR : adjustNode m rt path .null (.map o G) =
                    .error .typeError := by
                  simp only [adjustNode, Schema.option]
                  rw [if_neg hnull]
                rw [hL, hR]
                exact ResAgrees.errIntro rfl
            | undef =>
                have hL : adjustNode m rt path .undef (.map o F) =
                    .error .typeError := by
                  simp only [adjustNode, Schema.option]
                  rw [if_neg hnull]
                have hR : adjustNode m rt path .undef (.map o G) =
                    .error .typeError := by
                  simp only [adjustNode, Schema.option]
                  rw [if_neg hnull]
                rw [hL, hR]
                exact ResAgrees.errIntro rfl
            | bool b =>
                have hL : adjustNode m rt path (.bool b) (.map o F) =
                    .ok (.undef, .map o F, [⟨path, expectingMsg m .object⟩]) := by
                  simp only [adjustNode, Schema.option]
                  rw [if_neg hnull]
                have hR : adjustNode m rt path (.bool b) (.map o G) =
                    .ok (.undef, .map o G, [⟨path, expectingMsg m .object⟩]) := by
                  simp only [adjustNode, Schema.option]
                  rw [if_neg hnull]
                rw [hL, hR]
                exact ResAgrees.okIntro rfl rfl rfl hOut
            | num q =>
                have hL : adjustNode m rt path (.num q) (.map o F) =
                    .ok (.undef, .map o F, [⟨path, expectingMsg m .object⟩]) := by
                  simp only [adjustNode, Schema.option]
                  rw [if_neg hnull]
                have hR : adjustNode m rt path (.num q) (.map o G) =
                    .ok (.undef, .map o G, [⟨path, expectingMsg m .object⟩]) := by
                  simp only [adjustNode, Schema.option]
                  rw [if_neg hnull]
                rw [hL, hR]
                exact ResAgrees.okIntro rfl rfl rfl hOut
            | str a =>
                have hL : adjustNode m rt path (.str a) (.map o F) =
                    .ok (.undef, .map o F, [⟨path, expectingMsg m .object⟩]) := by
                  simp only [adjustNode, Schema.option]
                  rw [if_neg hnull]
                have hR : adjustNode m rt path (.str a) (.map o G) =
                    .ok (.undef, .map o G, [⟨path, expectingMsg m .object⟩]) := by
                  simp only [adjustNode, Schema.option]
                  rw [if_neg hnull]
                rw [hL, hR]
                exact ResAgrees.okIntro rfl rfl rfl hOut
            | arr items =>
                have hL : adjustNode m rt path (.arr items) (.map o F) =
                    .ok (.undef, .map o F, [⟨path, expectingMsg m .object⟩]) := by
                  simp only [adjustNode, Schema.option]
                  rw [if_neg hnull]
                have hR : adjustNode m rt path (.arr items) (.map o G) =
                    .ok (.undef, .map o G, [⟨path, expectingMsg m .object⟩]) := by
                  simp only [adjustNode, Schema.option]
                  rw [if_neg hnull]
                rw [hL, hR]
                exact ResAgrees.okIntro rfl rfl rfl hOut
            | obj es =>
                have hElem : ∀ kv ∈ es, ElemIH m rt kv.2 := by
                  intro kv hkv path2 s2 t2 hst2
                  exact ih kv.2
                    (Nat.lt_succ_iff.mp (lt_of_lt_of_le (sizeOf_mem_obj hkv) hn))
                    path2 s2 t2 hst2
                have hloop := adjustMapEntries_agrees m rt path es hElem [] F G hFG
                cases hr1 : adjustMapEntries m rt path F es [] with
                | error f1 =>
                    cases hr2 : adjustMapEntries m rt path G es [] with
                    | error f2 =>
                        rw [hr1, hr2] at hloop
                        have hL : adjustNode m rt path (.obj es) (.map o F) =
                            .error f1 := by
                          simp only [adjustNode, Schema.option]
                          rw [if_neg hnull]
                          simp only [bind, Except.bind, hr1]
                        have hR : adjustNode m rt path (.obj es) (.map o G) =
                            .error f2 := by
                          simp only [adjustNode, Schema.option]
                          rw [if_neg hnull]
                          simp only [bind, Except.bind, hr2]
                        rw [hL, hR]
                        exact ResAgrees.errIntro hloop.errElim
                    | ok q2 =>
                        rw [hr1, hr2] at hloop
                        exact hloop.noErrOk
                | ok q1 =>
                    obtain ⟨adj1, F1, er1⟩ := q1
                    cases hr2 : adjustMapEntries m rt path G es [] with
                    | error f2 =>
                        rw [hr1, hr2] at hloop
                        exact hloop.noOkErr
                    | ok q2 =>
                        obtain ⟨adj2, G1, er2⟩ := q2
                        rw [hr1, hr2] at hloop
                        obtain ⟨hadj, herr, hu1, hu2⟩ := hloop.okElim
                        subst hadj
                        have hF1G1 : truncSchemaFields F1 = truncSchemaFields G1 :=
                          hu1.trans hu2.symm
                        have hmiss : missingKeysOf G1 adj1 = missingKeysOf F1 adj1 := by
                          unfold missingKeysOf
                          rw [truncSchemaFields_eq_map_fst hF1G1]
                        rcases hsy : synthesizeMissing path F1
                            (missingKeysOf F1 adj1) adj1 with ⟨adjF, missErrs⟩
                        have hsy2 : synthesizeMissing path G1
                            (missingKeysOf G1 adj1) adj1 = (adjF, missErrs) := by
                          rw [hmiss, ← synthesizeMissing_trunc_congr path hF1G1, hsy]
                        have hL : adjustNode m rt path (.obj es) (.map o F) =
                            .ok (.obj adjF, .map o F1, er1 ++ missErrs) := by
                          simp only [adjustNode, Schema.option]
                          rw [if_neg hnull]
                          simp only [bind, Except.bind, hr1, hsy]
                        have hR : adjustNode m rt path (.obj es) (.map o G) =
                            .ok (.obj adjF, .map o G1, er2 ++ missErrs) := by
                          simp only [adjustNode, Schema.option]
                          rw [if_neg hnull]
                          simp only [bind, Except.bind, hr2, hsy2]
                        rw [hL, hR]
                        refine ResAgrees.okIntro rfl (by rw [herr]) ?_ ?_
                        · simp only [truncSchema]
                          rw [hu1]
                        · simp only [truncSchema]
                          rw [hu2]

/-- Truncation invariance of `adjustNode`, top form. -/
theorem adjustNode_trunc_congr (m : Mode) (rt : String → String → Bool)
    (path : List String) (node : Json) (s t : Schema)
    (hst : truncSchema s = truncSchema t) :
    ResAgrees (fun u => truncSchema u = truncSchema s)
      (adjustNode m rt path node s) (adjustNode m rt path node t) :=
  adjustNodeAgreesAux m rt (sizeOf node) node le_rfl path s t hst

/-- The schema a successful `adjustNode` call returns is
`truncSchema`-equal to the schema passed in. -/
theorem adjustNode_ok_trunc {m : Mode} {rt : String → String → Bool}
    {path : List String} {node : Json} {s : Schema} {v : Json} {s1 : Schema}
    {e : List Err} (h : adjustNode m rt path node s = .ok (v, s1, e)) :
    truncSchema s1 = truncSchema s := by
  have hh := adjustNode_trunc_congr m rt path node s s rfl
  rw [h] at hh
  exact hh.okElim.2.2.1

/-- A successful call transfers to any `truncSchema`-equal schema with
the same value and errors. -/
theorem adjustNode_ok_congr {m : Mode} {rt : String → String → Bool}
    {path : List String} {node : Json} {s t : Schema}
    (hst : truncSchema s = truncSchema t) {v : Json} {s1 : Schema} {e : List Err}
    (h : adjustNode m rt path node s = .ok (v, s1, e)) :
    ∃ s2, adjustNode m rt path node t = .ok (v, s2, e) ∧
      truncSchema s2 = truncSchema s := by
  have hh := adjustNode_trunc_congr m rt path node s t hst
  rw [h] at hh
  revert hh
  cases adjustNode m rt path node t with
  | error b =>
      intro hh
      exact hh.noOkErr
  | ok r2 =>
      obtain ⟨v2, s2, e2⟩ := r2
      intro hh
      obtain ⟨hv, he, hs1, hs2⟩ := hh.okElim
      exact ⟨s2, by rw [← hv, ← he], hs2⟩

/-- A thrown `TypeError` likewise transfers. -/
theorem adjustNode_error_congr {m : Mode} {rt : String → String → Bool}
    {path : List String} {node : Json} {s t : Schema}
    (hst : truncSchema s = truncSchema t) {a : JsTypeError}
    (h : adjustNode m rt path node s = .error a) :
    adjustNode m rt path node t = .error a := by
  have hh := adjustNode_trunc_congr m rt path node s t hst
  rw [h] at hh
  revert hh
  cases adjustNode m rt path node t with
  | error b =>
      intro hh
      rw [hh.errElim]
  | ok r2 =>
      intro hh
      exact hh.noErrOk

theorem childValue_trunc_congr {m : Mode} {rt : String → String → Bool}
    {path : List String} {node : Json} {s t : Schema}
    (hst : truncSchema s = truncSchema t) :
    childValue m rt path node s = childValue m rt path node t := by
  have hh := adjustNode_trunc_congr m rt path node s t hst
  cases h1 : adjustNode m rt path node s with
  | error a =>
      have h2 := adjustNode_error_congr hst h1
      unfold childValue
      rw [h1, h2]
  | ok r1 =>
      obtain ⟨v1, s1, e1⟩ := r1
      obtain ⟨s2, h2, _⟩ := adjustNode_ok_congr hst h1
      unfold childValue
      rw [h1, h2]

theorem childErrs_trunc_congr {m : Mode} {rt : String → String → Bool}
    {path : List String} {node : Json} {s t : Schema}
    (hst : truncSchema s = truncSchema t) :
    childErrs m rt path node s = childErrs m rt path node t := by
  cases h1 : adjustNode m rt path node s with
  | error a =>
      have h2 := adjustNode_error_congr hst h1
      unfold childErrs
      rw [h1, h2]
  | ok r1 =>
      obtain ⟨v1, s1, e1⟩ := r1
      obtain ⟨s2, h2, _⟩ := adjustNode_ok_congr hst h1
      unfold childErrs
      rw [h1, h2]

/-! ## The array and tuple loops against the original schema -/

/-- Per-position values of the array loop, phrased against one fixed
element schema (justified by truncation invariance). -/
def arrayValuesSpec (m : Mode) (rt : String → String → Bool) (path : List String)
    (val : Schema) : Nat → List Json → List Json
  | _, [] => []
  | i, x :: rest =>
      childValue m rt (path ++ [s!"[{i}]"]) x val ::
        arrayValuesSpec m rt path val (i + 1) rest

/-- Per-position errors of the array loop. -/
def arrayErrsSpec (m : Mode) (rt : String → String → Bool) (path : List String)
    (val : Schema) : Nat → List Json → List Err
  | _, [] => []
  | i, x :: rest =>
      childErrs m rt (path ++ [s!"[{i}]"]) x val ++
        arrayErrsSpec m rt path val (i + 1) rest

theorem arrayValuesSpec_trunc_congr {m : Mode} {rt : String → String → Bool}
    {path : List String} {s t : Schema} (hst : truncSchema s = truncSchema t) :
    ∀ (i : Nat) (items : List Json),
      arrayValuesSpec m rt path s i items = arrayValuesSpec m rt path t i items := by
  intro i items
  induction items generalizing i with
  | nil => rfl
  | cons x rest ih =>
      simp only [arrayValuesSpec, childValue_trunc_congr hst, ih]

theorem arrayErrsSpec_trunc_congr {m : Mode} {rt : String → String → Bool}
    {path : List String} {s t : Schema} (hst : truncSchema s = truncSchema t) :
    ∀ (i : Nat) (items : List Json),
      arrayErrsSpec m rt path s i items = arrayErrsSpec m rt path t i items := by
  intro i items
  induction items generalizing i with
  | nil => rfl
  | cons x rest ih =>
      simp only [arrayErrsSpec, childErrs_trunc_congr hst, ih]

/-- The array loop, characterized against the *original* element
schema. -/
theorem adjustArrayItems_char (m : Mode) (rt : String → String → Bool)
    (path : List String) :
    ∀ (items : List Json) (val : Schema) (i : Nat) (out : List Json)
      (val2 : Schema) (errs : List Err),
      adjustArrayItems m rt path val i items = .ok (out, val2, errs) →
      out = arrayValuesSpec m rt path val i items ∧
      errs = arrayErrsSpec m rt path val i items ∧
      truncSchema val2 = truncSchema val := by
  intro items
  induction items with
  | nil =>
      intro val i out val2 errs h
      simp only [adjustArrayItems, Except.ok.injEq, Prod.mk.injEq] at h
      obtain ⟨h1, h2, h3⟩ := h
      exact ⟨h1.symm, h3.symm, by rw [← h2]⟩
  | cons x rest ih =>
      intro val i out val2 errs h
      cases hc : adjustNode m rt (path ++ [s!"[{i}]"]) x val with
      | error e =>
          simp only [adjustArrayItems, bind, Except.bind, hc] at h
          exact Except.noConfusion h
      | ok r =>
          obtain ⟨ax, val1, errs1⟩ := r
          cases hr : adjustArrayItems m rt path val1 (i + 1) rest with
          | error f =>
              simp only [adjustArrayItems, bind, Except.bind, hc, hr] at h
              exact Except.noConfusion h
          | ok q =>
              obtain ⟨out2, valf, errs2⟩ := q
              simp only [adjustArrayItems, bind, Except.bind, hc, hr,
                Except.ok.injEq, Prod.mk.injEq] at h
              obtain ⟨ho, hs, he⟩ := h
              have htr : truncSchema val1 = truncSchema val := adjustNode_ok_trunc hc
              obtain ⟨iho, ihe, ihtr⟩ := ih val1 (i + 1) out2 valf errs2 hr
              have hax : childValue m rt (path ++ [s!"[{i}]"]) x val = ax := by
                unfold childValue
                rw [hc]
              have hae : childErrs m rt (path ++ [s!"[{i}]"]) x val = errs1 := by
                unfold childErrs
                rw [hc]
              refine ⟨?_, ?_, ?_⟩
              · rw [← ho, iho, arrayValuesSpec_trunc_congr htr]
                simp only [arrayValuesSpec, hax]
              · rw [← he, ihe, arrayErrsSpec_trunc_congr htr]
                simp only [arrayErrsSpec, hae]
              · rw [← hs]
                exact ihtr.trans htr

/-- Per-position values of the tuple loop (each item against its own
schema; no schema is threaded across items). -/
def tupleValuesSpec (m : Mode) (rt : String → String → Bool) (path : List String) :
    Nat → List Json → List Schema → List Json
  | _, [], _ => []
  | _, _ :: _, [] => []
  | i, x :: rest, f :: fs =>
      childValue m rt (path ++ ["<" ++ toString i ++ ">"]) x f ::
        tupleValuesSpec m rt path (i + 1) rest fs

/-- The tuple loop, characterized per position. -/
theorem adjustTupleItems_char (m : Mode) (rt : String → String → Bool)
    (path : List String) :
    ∀ (items : List Json) (fmts : List Schema) (i : Nat) (out : List Json)
      (fmts2 : List Schema) (errs : List Err),
      adjustTupleItems m rt path i items fmts = .ok (out, fmts2, errs) →
      out = tupleValuesSpec m rt path i items fmts := by
  intro items
  induction items with
  | nil =>
      intro fmts i out fmts2 errs h
      simp only [adjustTupleItems, Except.ok.injEq, Prod.mk.injEq] at h
      exact h.1.symm
  | cons x rest ih =>
      intro fmts i out fmts2 errs h
      cases fmts with
      | nil =>
          simp only [adjustTupleItems] at h
          exact Except.noConfusion h
      | cons f fs =>
          cases hc : adjustNode m rt (path ++ ["<" ++ toString i ++ ">"]) x f with
          | error e =>
              simp only [adjustTupleItems, bind, Except.bind, hc] at h
              exact Except.noConfusion h
          | ok r =>
              obtain ⟨ax, f1, errs1⟩ := r
              cases hr : adjustTupleItems m rt path (i + 1) rest fs with
              | error g =>
                  simp only [adjustTupleItems, bind, Except.bind, hc, hr] at h
                  exact Except.noConfusion h
              | ok q =>
                  obtain ⟨out2, fs2, errs2⟩ := q
                  simp only [adjustTupleItems, bind, Except.bind, hc, hr,
                    Except.ok.injEq, Prod.mk.injEq] at h
                  obtain ⟨ho, _, _⟩ := h
                  have hax : childValue m rt (path ++ ["<" ++ toString i ++ ">"]) x f =
                      ax := by
                    unfold childValue
                    rw [hc]
                  rw [← ho, ih fs (i + 1) out2 fs2 errs2 hr]
                  simp only [tupleValuesSpec, hax]

theorem arrayValuesSpec_length (m : Mode) (rt : String → String → Bool)
    (path : List String) (val : Schema) :
    ∀ (i : Nat) (items : List Json),
      (arrayValuesSpec m rt path val i items).length = items.length := by
  intro i items
  induction items generalizing i with
  | nil => rfl
  | cons x rest ih => simp [arrayValuesSpec, ih]

theorem tupleValuesSpec_length (m : Mode) (rt : String → String → Bool)
    (path : List String) :
    ∀ (items : List Json) (fmts : List Schema) (i : Nat),
      items.length = fmts.length →
      (tupleValuesSpec m rt path i items fmts).length = items.length := by
  intro items
  induction items with
  | nil => intro fmts i _; rfl
  | cons x rest ih =>
      intro fmts i hlen
      cases fmts with
      | nil => simp at hlen
      | cons f fs =>
          simp only [List.length_cons, Nat.succ.injEq] at hlen
          simp [tupleValuesSpec, ih fs (i + 1) hlen]

theorem arrayValuesSpec_get (m : Mode) (rt : String → String → Bool)
    (path : List String) (val : Schema) :
    ∀ (items : List Json) (i j : Nat) (x : Json),
      items[j]? = some x →
      (arrayValuesSpec m rt path val i items)[j]? =
        some (childValue m rt (path ++ [s!"[{i + j}]"]) x val) := by
  intro items
  induction items with
  | nil => intro i j x h; simp at h
  | cons y rest ih =>
      intro i j x h
      cases j with
      | zero =>
          simp only [List.getElem?_cons_zero, Option.some.injEq] at h
          subst h
          simp [arrayValuesSpec]
      | succ j =>
          simp only [List.getElem?_cons_succ] at h
          have := ih (i + 1) j x h
          simp only [arrayValuesSpec, List.getElem?_cons_succ]
          rw [this]
          have harith : i + 1 + j = i + (j + 1) := by omega
          rw [harith]

theorem tupleValuesSpec_get (m : Mode) (rt : String → String → Bool)
    (path : List String) :
    ∀ (items : List Json) (fmts : List Schema) (i j : Nat) (x : Json) (f : Schema),
      items[j]? = some x → fmts[j]? = some f →
      (tupleValuesSpec m rt path i items fmts)[j]? =
        some (childValue m rt (path ++ ["<" ++ toString (i + j) ++ ">"]) x f) := by
  intro items
  induction items with
  | nil => intro fmts i j x f h _; simp at h
  | cons y rest ih =>
      intro fmts i j x f h hf
      cases fmts with
      | nil => simp at hf
      | cons g gs =>
          cases j with
          | zero =>
              simp only [List.getElem?_cons_zero, Option.some.injEq] at h hf
              subst h
              subst hf
              simp [tupleValuesSpec]
          | succ j =>
              simp only [List.getElem?_cons_succ] at h hf
              have := ih gs (i + 1) j x f h hf
              simp only [tupleValuesSpec, List.getElem?_cons_succ]
              rw [this]
              have harith : i + 1 + j = i + (j + 1) := by omega
              rw [harith]

theorem assocGet_append_some (k : String) (v : Json) :
    ∀ (a b : List (String × Json)), assocGet k a = some v →
      assocGet k (a ++ b) = some v := by
  intro a b
  induction a with
  | nil => intro h; cases h
  | cons p rest ih =>
      obtain ⟨k0, v0⟩ := p
      intro h
      simp only [assocGet] at h ⊢
      split at h
      · rw [if_pos (by assumption)]
        exact h
      · rw [if_neg (by assumption)]
        exact ih h

/-- Looking up a declared raw key in the entry loop's output finds that
entry's adjusted value. -/
theorem assocGet_presentPart (k : String) (v : Json) (sk : Schema)
    (fields : List (String × Schema)) (f : String × Json → Schema → Json) :
    ∀ entries : List (String × Json),
      (entries.map Prod.fst).Nodup → (k, v) ∈ entries →
      fieldsGet k fields = some sk →
      assocGet k (entries.filterMap fun kv =>
        (fieldsGet kv.1 fields).map fun s => (kv.1, f kv s)) = some (f (k, v) sk) := by
  intro entries
  induction entries with
  | nil => intro _ hm _; cases hm
  | cons kv0 rest ih =>
      obtain ⟨k0, v0⟩ := kv0
      intro hnd hm hf
      simp only [List.map_cons, List.nodup_cons] at hnd
      by_cases hk : k0 = k
      · subst hk
        have hv : v0 = v := by
          cases hm with
          | head => rfl
          | tail _ hm2 =>
              exact absurd (List.mem_map_of_mem Prod.fst hm2) hnd.1
        subst hv
        simp only [List.filterMap_cons, hf, Option.map_some']
        simp [assocGet]
      · have hm2 : (k, v) ∈ rest := by
          cases hm with
          | head => exact absurd rfl hk
          | tail _ hm2 => exact hm2
        cases hf0 : fieldsGet k0 fields with
        | none =>
            simp only [List.filterMap_cons, hf0, Option.map_none']
            exact ih hnd.2 hm2 hf
        | some s0 =>
            simp only [List.filterMap_cons, hf0, Option.map_some']
            simp only [assocGet, if_neg hk]
            exact ih hnd.2 hm2 hf

/-- **C10.** Lazy-mode partial results keep failed positions. For an
array (and a right-arity tuple) the adjusted sequence has exactly one
entry per raw element: position `j` holds that element's child result —
`undefined` when its processor aborted — never an omission. For a map,
a declared raw field is present in the partial output bound to its
child result (`undefined` included), so the missing-keys pass does not
also report it: the missing-error list draws only on declared names
absent from the raw keys, which excludes every present field. -/
theorem c10_partial_results (m : Mode) (rt : String → String → Bool)
    (path : List String) :
    (∀ (o : Bool) (len : Option LengthC) (val : Schema) (items : List Json)
        (w : Json) (s2 : Schema) (errs : List Err),
      adjustNode m rt path (.arr items) (.array o len val) = .ok (w, s2, errs) →
      ∃ outs : List Json, w = .arr outs ∧ outs.length = items.length ∧
        ∀ (j : Nat) (x : Json), items[j]? = some x →
          outs[j]? = some (childValue m rt (path ++ [s!"[{j}]"]) x val)) ∧
    (∀ (o : Bool) (fmts : List Schema) (items : List Json)
        (w : Json) (s2 : Schema) (errs : List Err),
      items.length = fmts.length →
      adjustNode m rt path (.arr items) (.tuple o fmts) = .ok (w, s2, errs) →
      ∃ outs : List Json, w = .arr outs ∧ outs.length = items.length ∧
        ∀ (j : Nat) (x : Json) (f : Schema), items[j]? = some x → fmts[j]? = some f →
          outs[j]? = some (childValue m rt (path ++ ["<" ++ toString j ++ ">"]) x f)) ∧
    (∀ (o : Bool) (fields : List (String × Schema)) (entries : List (String × Json))
        (k : String) (v : Json) (sk : Schema) (w : Json) (s2 : Schema)
        (errs : List Err),
      (entries.map Prod.fst).Nodup → (fields.map Prod.fst).Nodup →
      (k, v) ∈ entries → fieldsGet k fields = some sk →
      adjustNode m rt path (.obj entries) (.map o fields) = .ok (w, s2, errs) →
      ∃ es : List (String × Json), w = .obj es ∧
        assocGet k es = some (childValue m rt (path ++ ["$" ++ k]) v sk) ∧
        errs = (entries.flatMap fun kv =>
            match fieldsGet kv.1 fields with
            | some s => childErrs m rt (path ++ ["$" ++ kv.1]) kv.2 s
            | none => [⟨path, "'" ++ kv.1 ++ "' field was unexpected"⟩])
          ++ ((((fields.map Prod.fst).filter fun k2 =>
                !(entries.map Prod.fst).contains k2).filter fun k2 =>
              !((fieldsGet k2 fields).map Schema.option).getD false).map
            fun k2 => ⟨path, "'" ++ k2 ++ "' field was missing"⟩) ∧
        k ∉ (fields.map Prod.fst).filter fun k2 =>
          !(entries.map Prod.fst).contains k2) := by
  refine ⟨?_, ?_, ?_⟩
  · -- arrays
    intro o len val items w s2 errs hok
    simp only [adjustNode, Schema.option, Json.isNull, Bool.and_false] at hok
    rw [if_neg (by simp : ¬ ((false : Bool) = true))] at hok
    rcases hc : checkLengthOpt ((items.length : ℚ)) len path with ⟨l1, le1⟩
    cases hr : adjustArrayItems m rt path val 0 items with
    | error f =>
        simp only [hc, bind, Except.bind, hr] at hok
        exact Except.noConfusion hok
    | ok q =>
        obtain ⟨out, val3, errs3⟩ := q
        simp only [hc, bind, Except.bind, hr, Except.ok.injEq, Prod.mk.injEq] at hok
        obtain ⟨hw, _, _⟩ := hok
        obtain ⟨hout, _, _⟩ := adjustArrayItems_char m rt path items val 0 out
          val3 errs3 hr
        refine ⟨arrayValuesSpec m rt path val 0 items, ?_, ?_, ?_⟩
        · rw [← hw, hout]
        · exact arrayValuesSpec_length m rt path val 0 items
        · intro j x hx
          have := arrayValuesSpec_get m rt path val items 0 j x hx
          rw [Nat.zero_add] at this
          exact this
  · -- tuples of the right arity
    intro o fmts items w s2 errs hlen hok
    simp only [adjustNode, Schema.option, Json.isNull, Bool.and_false] at hok
    rw [if_neg (by simp : ¬ ((false : Bool) = true))] at hok
    rw [if_neg (by simp [hlen])] at hok
    cases hr : adjustTupleItems m rt path 0 items fmts with
    | error f =>
        simp only [bind, Except.bind, hr] at hok
        exact Except.noConfusion hok
    | ok q =>
        obtain ⟨out, fmts3, errs3⟩ := q
        simp only [bind, Except.bind, hr, Except.ok.injEq, Prod.mk.injEq] at hok
        obtain ⟨hw, _, _⟩ := hok
        have hout := adjustTupleItems_char m rt path items fmts 0 out fmts3 errs3 hr
        refine ⟨tupleValuesSpec m rt path 0 items fmts, ?_, ?_, ?_⟩
        · rw [← hw, hout]
        · exact tupleValuesSpec_length m rt path items fmts 0 hlen
        · intro j x f hx hf
          have := tupleValuesSpec_get m rt path items fmts 0 j x f hx hf
          rw [Nat.zero_add] at this
          exact this
  · -- map fields
    intro o fields entries k v sk w s2 errs hnodup hfnodup hmem hfget hok
    simp only [adjustNode, Schema.option, Json.isNull, Bool.and_false] at hok
    cases hr : adjustMapEntries m rt path fields entries [] with
    | error f =>
        rw [hr] at hok
        simp only [bind, Except.bind] at hok
        cases hok
    | ok r =>
        obtain ⟨out, fields2, errsA⟩ := r
        rw [hr] at hok
        simp only [bind, Except.bind] at hok
        obtain ⟨hout, herrA, hkeys, hget⟩ :=
          adjustMapEntries_spec m rt path entries fields [] out fields2 errsA hnodup
            (by intro k2 _; rfl) hr
        simp only [List.nil_append] at hout
        have hmiss : missingKeysOf fields2 out =
            (fields.map Prod.fst).filter fun k2 =>
              !(entries.map Prod.fst).contains k2 := by
          unfold missingKeysOf
          rw [hkeys]
          refine List.filter_congr ?_
          intro k2 hk2
          rw [hout, assocHas_presentPart]
          have hsome : (fieldsGet k2 fields).isSome = true :=
            (fieldsGet_isSome_iff_mem k2 fields).mpr hk2
          simp [hsome]
        have hmissnodup : ((fields.map Prod.fst).filter fun k2 =>
            !(entries.map Prod.fst).contains k2).Nodup := hfnodup.filter _
        have hmissfresh : ∀ k2 ∈ (fields.map Prod.fst).filter fun k2 =>
            !(entries.map Prod.fst).contains k2, assocHas k2 out = false := by
          intro k2 hk2
          have := (List.mem_filter.mp hk2).2
          simp only [Bool.not_eq_true'] at this
          rw [hout, assocHas_presentPart, this, Bool.false_and]
        have hsynth := synthesizeMissing_spec path
          ((fields.map Prod.fst).filter fun k2 =>
            !(entries.map Prod.fst).contains k2)
          fields2 out hmissfresh hmissnodup
        have hgetmiss : ∀ k2 ∈ (fields.map Prod.fst).filter fun k2 =>
            !(entries.map Prod.fst).contains k2,
            fieldsGet k2 fields2 = fieldsGet k2 fields := by
          intro k2 hk2
          have hc := (List.mem_filter.mp hk2).2
          simp only [Bool.not_eq_true'] at hc
          refine hget k2 ?_
          intro hm
          have h2 : (List.map Prod.fst entries).contains k2 = true :=
            List.elem_iff.mpr hm
          rw [h2] at hc
          cases hc
        rw [hmiss, hsynth] at hok
        have hfiltopt : (((fields.map Prod.fst).filter fun k2 =>
              !(entries.map Prod.fst).contains k2).filter fun k2 =>
            ((fieldsGet k2 fields2).map Schema.option).getD false) =
            (((fields.map Prod.fst).filter fun k2 =>
              !(entries.map Prod.fst).contains k2).filter fun k2 =>
            ((fieldsGet k2 fields).map Schema.option).getD false) := by
          refine List.filter_congr ?_
          intro k2 hk2
          rw [hgetmiss k2 hk2]
        have hfiltreq : (((fields.map Prod.fst).filter fun k2 =>
              !(entries.map Prod.fst).contains k2).filter fun k2 =>
            !((fieldsGet k2 fields2).map Schema.option).getD false) =
            (((fields.map Prod.fst).filter fun k2 =>
              !(entries.map Prod.fst).contains k2).filter fun k2 =>
            !((fieldsGet k2 fields).map Schema.option).getD false) := by
          refine List.filter_congr ?_
          intro k2 hk2
          rw [hgetmiss k2 hk2]
        rw [hfiltopt, hfiltreq] at hok
        simp only [if_neg (by simp : ¬ (false = true)), Except.ok.injEq,
          Prod.mk.injEq] at hok
        obtain ⟨hw, _, herr⟩ := hok
        refine ⟨out ++ (((((fields.map Prod.fst).filter fun k2 =>
              !(entries.map Prod.fst).contains k2).filter fun k2 =>
            ((fieldsGet k2 fields).map Schema.option).getD false).map
            fun k2 => (k2, Json.null))), ?_, ?_, ?_, ?_⟩
        · rw [← hw]
        · refine assocGet_append_some k _ _ _ ?_
          rw [hout]
          exact assocGet_presentPart k v sk fields
            (fun kv s => childValue m rt (path ++ ["$" ++ kv.1]) kv.2 s)
            entries hnodup hmem hfget
        · rw [← herr, herrA]
        · intro hkmem
          have hc := (List.mem_filter.mp hkmem).2
          simp only [Bool.not_eq_true'] at hc
          have h2 : (List.map Prod.fst entries).contains k = true :=
            List.elem_iff.mpr (List.mem_map_of_mem Prod.fst hmem)
          rw [h2] at hc
          cases hc

/-- **C10 witness**: decoding `[true, 1]` against an array-of-flag
schema keeps two positions with an `undefined` hole at index 1;
decoding `[1, true]` against a two-flag tuple keeps `<0>` as a hole;
decoding `{a: 1}` against `{fields: {a: flag}}` keeps `a` present and
bound to `undefined` with no missing report possible for it. -/
theorem c10_witness :
    (∃ outs : List Json, (Json.arr [Json.bool true, Json.undef] : Json) = .arr outs ∧
      outs.length = 2 ∧ outs[1]? = some Json.undef) ∧
    (∃ outs : List Json, (Json.arr [Json.undef, Json.bool true] : Json) = .arr outs ∧
      outs.length = 2 ∧ outs[0]? = some Json.undef) ∧
    (∃ es : List (String × Json), (Json.obj [("a", Json.undef)] : Json) = .obj es ∧
      assocGet "a" es = some Json.undef) := by
  obtain ⟨h1, h2, h3⟩ := c10_partial_results .decode (fun _ _ => true) []
  refine ⟨?_, ?_, ?_⟩
  · obtain ⟨outs, hw, hl, hget⟩ := h1 false none (.flag false) [.bool true, .num 1]
      (.arr [.bool true, .undef]) (.array false none (.flag false))
      [⟨["[1]"], "was expecting a JSON boolean"⟩] rfl
    refine ⟨outs, hw, hl.trans rfl, ?_⟩
    have := hget 1 (.num 1) rfl
    rw [this]
    rfl
  · obtain ⟨outs, hw, hl, hget⟩ := h2 false [.flag false, .flag false]
      [.num 1, .bool true] (.arr [.undef, .bool true])
      (.tuple false [.flag false, .flag false])
      [⟨["<0>"], "was expecting a JSON boolean"⟩] rfl rfl
    refine ⟨outs, hw, hl.trans rfl, ?_⟩
    have := hget 0 (.num 1) (.flag false) rfl rfl
    rw [this]
    rfl
  · obtain ⟨es, hw, hg, _, _⟩ := h3 false [("a", .flag false)] [("a", .num 1)]
      "a" (.num 1) (.flag false) (.obj [("a", .undef)])
      (.map false [("a", .flag false)])
      [⟨["$a"], "was expecting a JSON boolean"⟩]
      (by simp) (by simp) (by simp) rfl rfl
    refine ⟨es, hw, ?_⟩
    rw [hg]
    rfl

/-! ## C9: integer object keys -/

/-- The adjusted entries the integer-keyed object loop accumulates,
against one fixed value schema: a key accepted by the
`Number.parseFloat`/`Number.isInteger` check stores the child result
under the canonical decimal spelling of the parsed integer (so a later
key denoting the same integer overwrites), and a rejected key is
skipped. -/
def objIntValuesSpec (m : Mode) (rt : String → String → Bool) (path : List String)
    (val : Schema) : List (String × Json) → List (String × Json) →
      List (String × Json)
  | acc, [] => acc
  | acc, (k, v) :: rest =>
      match jsParseFloat k with
      | some q =>
          if ratIsInteger q then
            objIntValuesSpec m rt path val
              (assocSet (intToString q.num)
                (childValue m rt (path ++ ["\x7b" ++ k ++ "\x7d"]) v val) acc) rest
          else objIntValuesSpec m rt path val acc rest
      | none => objIntValuesSpec m rt path val acc rest

/-- The errors of the integer-keyed object loop: child errors for
accepted keys; `key at index N is invalid; expected it to be an
integer` for a key parsing to `NaN` or to a non-integer. -/
def objIntErrsSpec (m : Mode) (rt : String → String → Bool) (path : List String)
    (val : Schema) : Nat → List (String × Json) → List Err
  | _, [] => []
  | i, (k, v) :: rest =>
      match jsParseFloat k with
      | some q =>
          if ratIsInteger q then
            childErrs m rt (path ++ ["\x7b" ++ k ++ "\x7d"]) v val ++
              objIntErrsSpec m rt path val (i + 1) rest
          else ⟨path, "key at index " ++ toString i
              ++ " is invalid; expected it to be an integer"⟩ ::
            objIntErrsSpec m rt path val (i + 1) rest
      | none => ⟨path, "key at index " ++ toString i
            ++ " is invalid; expected it to be an integer"⟩ ::
          objIntErrsSpec m rt path val (i + 1) rest

theorem objIntValuesSpec_trunc_congr {m : Mode} {rt : String → String → Bool}
    {path : List String} {s t : Schema} (hst : truncSchema s = truncSchema t) :
    ∀ (entries : List (String × Json)) (acc : List (String × Json)),
      objIntValuesSpec m rt path s acc entries =
        objIntValuesSpec m rt path t acc entries := by
  intro entries
  induction entries with
  | nil => intro acc; rfl
  | cons kv rest ih =>
      obtain ⟨k, v⟩ := kv
      intro acc
      simp only [objIntValuesSpec, childValue_trunc_congr hst]
      cases jsParseFloat k with
      | none => exact ih acc
      | some q =>
          by_cases hq : ratIsInteger q = true <;> simp [hq, ih]

theorem objIntErrsSpec_trunc_congr {m : Mode} {rt : String → String → Bool}
    {path : List String} {s t : Schema} (hst : truncSchema s = truncSchema t) :
    ∀ (entries : List (String × Json)) (i : Nat),
      objIntErrsSpec m rt path s i entries = objIntErrsSpec m rt path t i entries := by
  intro entries
  induction entries with
  | nil => intro i; rfl
  | cons kv rest ih =>
      obtain ⟨k, v⟩ := kv
      intro i
      simp only [objIntErrsSpec, childErrs_trunc_congr hst]
      cases jsParseFloat k with
      | none => rw [ih]
      | some q =>
          by_cases hq : ratIsInteger q = true <;> simp [hq, ih]

/-- The integer-keyed object loop, characterized against the *original*
value schema. -/
theorem adjustObjectEntries_int_char (m : Mode) (rt : String → String → Bool)
    (path : List String) :
    ∀ (entries : List (String × Json)) (val : Schema) (i : Nat)
      (acc out : List (String × Json)) (val2 : Schema) (errs : List Err),
      adjustObjectEntries m rt path .integer val i entries acc =
        .ok (out, val2, errs) →
      out = objIntValuesSpec m rt path val acc entries ∧
      errs = objIntErrsSpec m rt path val i entries ∧
      truncSchema val2 = truncSchema val := by
  intro entries
  induction entries with
  | nil =>
      intro val i acc out val2 errs h
      simp only [adjustObjectEntries, Except.ok.injEq, Prod.mk.injEq] at h
      obtain ⟨h1, h2, h3⟩ := h
      exact ⟨h1.symm, h3.symm, by rw [← h2]⟩
  | cons kv rest ih =>
      obtain ⟨k, v⟩ := kv
      intro val i acc out val2 errs h
      cases hq : jsParseFloat k with
      | some q =>
          by_cases hint : ratIsInteger q = true
          · cases hc : adjustNode m rt (path ++ ["\x7b" ++ k ++ "\x7d"]) v val with
            | error e =>
                simp only [adjustObjectEntries, hq, hint, if_true, bind,
                  Except.bind, hc] at h
                exact Except.noConfusion h
            | ok r =>
                obtain ⟨av, val1, errs1⟩ := r
                cases hr : adjustObjectEntries m rt path .integer val1 (i + 1) rest
                    (assocSet (intToString q.num) av acc) with
                | error f =>
                    simp only [adjustObjectEntries, hq, hint, if_true, bind,
                      Except.bind, hc, hr] at h
                    exact Except.noConfusion h
                | ok q2 =>
                    obtain ⟨out2, valf, errs2⟩ := q2
                    simp only [adjustObjectEntries, hq, hint, if_true, bind,
                      Except.bind, hc, hr, Except.ok.injEq, Prod.mk.injEq] at h
                    obtain ⟨ho, hs, he⟩ := h
                    have htr : truncSchema val1 = truncSchema val :=
                      adjustNode_ok_trunc hc
                    obtain ⟨iho, ihe, ihtr⟩ := ih val1 (i + 1)
                      (assocSet (intToString q.num) av acc) out2 valf errs2 hr
                    have hax : childValue m rt (path ++ ["\x7b" ++ k ++ "\x7d"]) v
                        val = av := by
                      unfold childValue
                      rw [hc]
                    have hae : childErrs m rt (path ++ ["\x7b" ++ k ++ "\x7d"]) v
                        val = errs1 := by
                      unfold childErrs
                      rw [hc]
                    refine ⟨?_, ?_, ?_⟩
                    · rw [← ho, iho, objIntValuesSpec_trunc_congr htr]
                      simp only [objIntValuesSpec, hq, hint, if_true, hax]
                    · rw [← he, ihe, objIntErrsSpec_trunc_congr htr]
                      simp only [objIntErrsSpec, hq, hint, if_true, hae]
                    · rw [← hs]
                      exact ihtr.trans htr
          · cases hr : adjustObjectEntries m rt path .integer val (i + 1) rest acc with
            | error f =>
                simp only [adjustObjectEntries, hq, hint, if_false, bind,
                  Except.bind, hr, Bool.false_eq_true] at h
                exact Except.noConfusion h
            | ok q2 =>
                obtain ⟨out2, valf, errs2⟩ := q2
                simp only [adjustObjectEntries, hq, hint, if_false, bind,
                  Except.bind, hr, Bool.false_eq_true, Except.ok.injEq,
                  Prod.mk.injEq] at h
                obtain ⟨ho, hs, he⟩ := h
                obtain ⟨iho, ihe, ihtr⟩ := ih val (i + 1) acc out2 valf errs2 hr
                refine ⟨?_, ?_, ?_⟩
                · rw [← ho, iho]
                  simp only [objIntValuesSpec, hq, hint, if_false,
                    Bool.false_eq_true]
                · rw [← he, ihe]
                  simp only [objIntErrsSpec, hq, hint, if_false,
                    Bool.false_eq_true]
                · rw [← hs]
                  exact ihtr
      | none =>
          cases hr : adjustObjectEntries m rt path .integer val (i + 1) rest acc with
          | error f =>
              simp only [adjustObjectEntries, hq, bind, Except.bind, hr] at h
              exact Except.noConfusion h
          | ok q2 =>
              obtain ⟨out2, valf, errs2⟩ := q2
              simp only [adjustObjectEntries, hq, bind, Except.bind, hr,
                Except.ok.injEq, Prod.mk.injEq] at h
              obtain ⟨ho, hs, he⟩ := h
              obtain ⟨iho, ihe, ihtr⟩ := ih val (i + 1) acc out2 valf errs2 hr
              refine ⟨?_, ?_, ?_⟩
              · rw [← ho, iho]
                simp only [objIntValuesSpec, hq]
              · rw [← he, ihe]
                simp only [objIntErrsSpec, hq]
              · rw [← hs]
                exact ihtr

/-- **C9.** For an object block with `key: 'integer'`, a raw entry's
key is accepted exactly when `Number.parseFloat` reads an exact integer
from it — so non-canonical spellings (`"5e0"`, `"+5"`, `"5.0"`, `"05"`)
are accepted — and its adjusted child is stored under the canonical
decimal spelling of that integer, later spellings of the same integer
overwriting earlier ones; a key parsing to `NaN` or a non-integer draws
`key at index N is invalid; expected it to be an integer` and the entry
is skipped. The whole call returns exactly the accumulated entries and
the guarded length-check errors followed by the per-entry errors. -/
theorem c9_object_integer_keys (m : Mode) (rt : String → String → Bool)
    (path : List String) (o : Bool) (len : Option LengthC) (val : Schema)
    (entries : List (String × Json)) (w : Json) (s2 : Schema) (errs : List Err)
    (hok : adjustNode m rt path (.obj entries) (.object o .integer len val) =
      .ok (w, s2, errs)) :
    w = .obj (objIntValuesSpec m rt path val [] entries) ∧
    errs = (checkLengthOpt ((entries.length : ℚ)) len path).2 ++
      objIntErrsSpec m rt path val 0 entries := by
  simp only [adjustNode, Schema.option, Json.isNull, Bool.and_false] at hok
  rw [if_neg (by simp : ¬ ((false : Bool) = true))] at hok
  rcases hc : checkLengthOpt ((entries.length : ℚ)) len path with ⟨l1, le1⟩
  cases hr : adjustObjectEntries m rt path .integer val 0 entries [] with
  | error f =>
      simp only [hc, bind, Except.bind, hr] at hok
      exact Except.noConfusion hok
  | ok q =>
      obtain ⟨out, val3, errs3⟩ := q
      simp only [hc, bind, Except.bind, hr, Except.ok.injEq, Prod.mk.injEq] at hok
      obtain ⟨hw, _, he⟩ := hok
      obtain ⟨hout, herrs, _⟩ := adjustObjectEntries_int_char m rt path entries
        val 0 [] out val3 errs3 hr
      constructor
      · rw [← hw, hout]
      · rw [← he, herrs]

/-- **C9 witness**: decoding the keys `5.0`, `+5`, `2.5`, `abc`, `6e0`,
`05` against `{key: 'integer', value: flag}`: the three spellings of 5
collapse (the last one wins), `6e0` lands under `6`, and `2.5`/`abc`
draw the index-2 and index-3 key errors. -/
theorem c9_witness :
    Json.obj (objIntValuesSpec .decode (fun _ _ => true) [] (.flag false) []
        [("5.0", .bool true), ("+5", .bool false), ("2.5", .bool true),
          ("abc", .bool false), ("6e0", .bool true), ("05", .bool false)]) =
      .obj [("5", .bool false), ("6", .bool true)] ∧
    objIntErrsSpec .decode (fun _ _ => true) [] (.flag false) 0
        [("5.0", .bool true), ("+5", .bool false), ("2.5", .bool true),
          ("abc", .bool false), ("6e0", .bool true), ("05", .bool false)] =
      [⟨[], "key at index 2 is invalid; expected it to be an integer"⟩,
        ⟨[], "key at index 3 is invalid; expected it to be an integer"⟩] := by
  have h := c9_object_integer_keys .decode (fun _ _ => true) [] false none
    (.flag false)
    [("5.0", .bool true), ("+5", .bool false), ("2.5", .bool true),
      ("abc", .bool false), ("6e0", .bool true), ("05", .bool false)]
    (.obj [("5", .bool false), ("6", .bool true)])
    (.object false .integer none (.flag false))
    [⟨[], "key at index 2 is invalid; expected it to be an integer"⟩,
      ⟨[], "key at index 3 is invalid; expected it to be an integer"⟩] rfl
  exact ⟨h.1.symm, h.2.symm⟩

/-! ## C1: the round-trip claim — counterexample and amended theorem -/

/-! ## C1: the decimal numeral round trip

`processObjectNode` stores integer keys through `String(number)` and
reads them back through `Number.parseFloat`, so the round-trip analysis
needs: parsing the canonical decimal numeral of an integer yields that
integer. -/

theorem digitChar_toNat {d : Nat} (h : d < 10) : (digitChar d).toNat = 48 + d := by
  unfold digitChar
  interval_cases d <;> rfl

theorem isDigitChar_digitChar {d : Nat} (h : d < 10) :
    isDigitChar (digitChar d) = true := by
  unfold digitChar
  interval_cases d <;> decide

theorem natDigitsRev_lt (fuel : Nat) : ∀ (n : Nat), ∀ d ∈ natDigitsRev fuel n, d < 10 := by
  induction fuel with
  | zero =>
      intro n d hd
      cases n <;> simp [natDigitsRev] at hd
  | succ f ih =>
      intro n d hd
      cases n with
      | zero => simp [natDigitsRev] at hd
      | succ n =>
          simp only [natDigitsRev, List.mem_cons] at hd
          cases hd with
          | inl h => subst h; exact Nat.mod_lt _ (by norm_num)
          | inr h => exact ih _ d h

theorem natDigitsRev_foldl (fuel : Nat) : ∀ (n acc : Nat), n ≤ fuel →
    ((natDigitsRev fuel n).reverse).foldl (fun a d => 10 * a + d) acc =
      acc * 10 ^ (natDigitsRev fuel n).length + n := by
  induction fuel with
  | zero =>
      intro n acc h
      have hn : n = 0 := by omega
      subst hn
      simp [natDigitsRev]
  | succ f ih =>
      intro n acc h
      cases n with
      | zero => simp [natDigitsRev]
      | succ n =>
          have hdiv : (n + 1) / 10 < n + 1 := Nat.div_lt_self (by omega) (by omega)
          have hle : (n + 1) / 10 ≤ f := by omega
          simp only [natDigitsRev, List.reverse_cons, List.foldl_append,
            List.foldl_cons, List.foldl_nil, List.length_cons]
          rw [ih ((n + 1) / 10) acc hle]
          have hmod := Nat.div_add_mod (n + 1) 10
          have hpow : 10 ^ ((natDigitsRev f ((n + 1) / 10)).length + 1) =
              10 ^ (natDigitsRev f ((n + 1) / 10)).length * 10 := pow_succ 10 _
          rw [hpow]
          ring_nf
          omega

theorem foldl_digitChar (cs : List Nat) :
    ∀ acc : Nat, (∀ d ∈ cs, d < 10) →
      (cs.map digitChar).foldl (fun a c => 10 * a + (c.toNat - 48)) acc =
        cs.foldl (fun a d => 10 * a + d) acc := by
  induction cs with
  | nil => intro acc _; rfl
  | cons d rest ih =>
      intro acc hall
      simp only [List.map_cons, List.foldl_cons]
      rw [digitChar_toNat (hall d (by simp))]
      have : 48 + d - 48 = d := by omega
      rw [this, ih _ (fun x hx => hall x (by simp [hx]))]

theorem digitsVal_natDigitChars (n : Nat) : digitsVal (natDigitChars n) = n := by
  unfold natDigitChars digitsVal
  rw [foldl_digitChar _ 0
    (fun d hd => natDigitsRev_lt n n d (List.mem_reverse.mp hd))]
  have := natDigitsRev_foldl n n 0 le_rfl
  rw [this]
  simp

theorem natDigitChars_all_digit (n : Nat) :
    ∀ c ∈ natDigitChars n, isDigitChar c = true := by
  intro c hc
  unfold natDigitChars at hc
  obtain ⟨d, hd, rfl⟩ := List.mem_map.mp hc
  exact isDigitChar_digitChar (natDigitsRev_lt n n d (List.mem_reverse.mp hd))

theorem natDigitChars_ne_nil {n : Nat} (h : 0 < n) : natDigitChars n ≠ [] := by
  unfold natDigitChars
  cases n with
  | zero => omega
  | succ m =>
      simp only [natDigitsRev, List.reverse_cons, ne_eq, List.map_eq_nil_iff]
      intro hh
      exact absurd (congrArg List.length hh) (by simp)

theorem jsWhitespace_of_digit {c : Char} (h : isDigitChar c = true) :
    jsWhitespace c = false := by
  simp only [isDigitChar, Bool.and_eq_true, decide_eq_true_eq] at h
  obtain ⟨h1, h2⟩ := h
  simp only [jsWhitespace, Bool.or_eq_false_iff, beq_eq_false_iff_ne, ne_eq]
  refine ⟨⟨⟨⟨⟨?_, ?_⟩, ?_⟩, ?_⟩, ?_⟩, ?_⟩ <;>
    (rintro rfl; revert h1 h2; decide)

theorem takeDigits_all (cs : List Char) (h : ∀ c ∈ cs, isDigitChar c = true) :
    takeDigits cs = (cs, []) := by
  induction cs with
  | nil => rfl
  | cons c rest ih =>
      simp only [takeDigits, h c (by simp), if_true]
      rw [ih (fun x hx => h x (by simp [hx]))]


theorem jsParseFloat_digitChars (d : Nat) (ds : List Nat) (hd : d < 10)
    (hall : ∀ x ∈ ds, x < 10) :
    jsParseFloat (String.mk ((d :: ds).map digitChar)) =
      some ((digitsVal ((d :: ds).map digitChar) : ℚ)) := by
  have htd : takeDigits (List.map digitChar ds) = (List.map digitChar ds, []) :=
    takeDigits_all _ (by
      intro c hc
      obtain ⟨x, hx, rfl⟩ := List.mem_map.mp hc
      exact isDigitChar_digitChar (hall x hx))
  simp only [List.map_cons]
  interval_cases d <;>
    · conv_lhs => whnf
      rw [htd]
      norm_num [digitsVal, Rat.mkRat_one]

theorem jsParseFloat_neg_digitChars (d : Nat) (ds : List Nat) (hd : d < 10)
    (hall : ∀ x ∈ ds, x < 10) :
    jsParseFloat (String.mk ('-' :: (d :: ds).map digitChar)) =
      some (-((digitsVal ((d :: ds).map digitChar) : ℚ))) := by
  have htd : takeDigits (List.map digitChar ds) = (List.map digitChar ds, []) :=
    takeDigits_all _ (by
      intro c hc
      obtain ⟨x, hx, rfl⟩ := List.mem_map.mp hc
      exact isDigitChar_digitChar (hall x hx))
  simp only [List.map_cons]
  interval_cases d <;>
    · conv_lhs => whnf
      rw [htd]
      norm_num [digitsVal, Rat.mkRat_one]

/-- Parsing the canonical decimal numeral of an integer returns exactly
that integer. -/
theorem jsParseFloat_intToString (n : Int) :
    jsParseFloat (intToString n) = some ((n : ℚ)) := by
  unfold intToString
  by_cases h0 : n = 0
  · subst h0
    norm_num
    decide
  · have habs : 0 < n.natAbs := by omega
    have hne : natDigitChars n.natAbs ≠ [] := natDigitChars_ne_nil habs
    have hform : ∃ d ds, (natDigitsRev n.natAbs n.natAbs).reverse = d :: ds := by
      cases hrev : (natDigitsRev n.natAbs n.natAbs).reverse with
      | nil =>
          exfalso
          apply hne
          unfold natDigitChars
          rw [hrev]
          rfl
      | cons d ds => exact ⟨d, ds, rfl⟩
    obtain ⟨d, ds, hrev⟩ := hform
    have hd : d < 10 := by
      apply natDigitsRev_lt n.natAbs n.natAbs
      rw [← List.mem_reverse, hrev]
      simp
    have hds : ∀ x ∈ ds, x < 10 := by
      intro x hx
      apply natDigitsRev_lt n.natAbs n.natAbs
      rw [← List.mem_reverse, hrev]
      simp [hx]
    have hchars : natDigitChars n.natAbs = (d :: ds).map digitChar := by
      unfold natDigitChars
      rw [hrev]
    have hval : digitsVal ((d :: ds).map digitChar) = n.natAbs := by
      rw [← hchars]
      exact digitsVal_natDigitChars n.natAbs
    by_cases hneg : n < 0
    · rw [if_neg h0, if_pos hneg]
      have hmk : ("-" ++ String.mk (natDigitChars n.natAbs)) =
          String.mk ('-' :: (d :: ds).map digitChar) := by
        rw [← hchars]
        rfl
      rw [hmk, jsParseFloat_neg_digitChars d ds hd hds, hval]
      congr 1
      have h1 : (n.natAbs : ℤ) = -n := by omega
      have h2 : ((n.natAbs : ℚ)) = -(n : ℚ) := by
        rw [show ((n.natAbs : ℚ)) = (((n.natAbs : ℤ)) : ℚ) from (Int.cast_natCast _).symm, h1]
        push_cast
        ring
      rw [h2]
      ring
    · rw [if_neg h0, if_neg hneg, hchars,
        jsParseFloat_digitChars d ds hd hds, hval]
      congr 1
      have h1 : (n.natAbs : ℤ) = n := by omega
      have h2 : ((n.natAbs : ℚ)) = (n : ℚ) := by
        rw [show ((n.natAbs : ℚ)) = (((n.natAbs : ℤ)) : ℚ) from (Int.cast_natCast _).symm, h1]
      exact h2

/-- Whether a measured count passes `checkLength`'s comparisons (against
the truncated bounds), i.e. whether the call pushes no error. -/
def lengthOK (value : ℚ) : LengthC → Bool
  | .exact l => value == ratTrunc l
  | .range mn mx =>
      (match mn with
        | some mv => decide (value ≥ ratTrunc mv)
        | none => true) &&
      (match mx with
        | some xv => decide (value ≤ ratTrunc xv)
        | none => true)

theorem checkLength_errs_empty (value : ℚ) (l : LengthC) (path : List String) :
    (checkLength value l path).2 = [] ↔ lengthOK value l = true := by
  cases l with
  | exact v =>
      simp only [checkLength, lengthOK]
      split_ifs with h <;> simp_all
  | range mn mx =>
      cases mn with
      | some mv =>
          cases mx with
          | some xv =>
              simp only [checkLength, lengthOK]
              split_ifs with h1 h2 <;> simp_all
          | none =>
              simp only [checkLength, lengthOK]
              split_ifs with h1 <;> simp_all
      | none =>
          cases mx with
          | some xv =>
              simp only [checkLength, lengthOK]
              split_ifs with h2 <;> simp_all
          | none => simp [checkLength, lengthOK]

theorem lengthOK_trunc_congr (value : ℚ) {l l' : LengthC}
    (h : truncLength l = truncLength l') : lengthOK value l = lengthOK value l' := by
  cases l with
  | exact v =>
      cases l' with
      | exact w =>
          simp only [truncLength, LengthC.exact.injEq] at h
          simp [lengthOK, h]
      | range mn mx => simp [truncLength] at h
  | range mn mx =>
      cases l' with
      | exact w => simp [truncLength] at h
      | range mn' mx' =>
          simp only [truncLength, LengthC.range.injEq] at h
          obtain ⟨hmn, hmx⟩ := h
          cases mn with
          | none =>
              cases mn' with
              | some _ => simp at hmn
              | none =>
                  cases mx with
                  | none =>
                      cases mx' with
                      | some _ => simp at hmx
                      | none => rfl
                  | some b =>
                      cases mx' with
                      | none => simp at hmx
                      | some b' =>
                          simp only [Option.map_some', Option.some.injEq] at hmx
                          simp [lengthOK, hmx]
          | some a =>
              cases mn' with
              | none => simp at hmn
              | some a' =>
                  simp only [Option.map_some', Option.some.injEq] at hmn
                  cases mx with
                  | none =>
                      cases mx' with
                      | some _ => simp at hmx
                      | none => simp [lengthOK, hmn]
                  | some b =>
                      cases mx' with
                      | none => simp at hmx
                      | some b' =>
                          simp only [Option.map_some', Option.some.injEq] at hmx
                          simp [lengthOK, hmn, hmx]

/-- Emptiness of the guarded length check, transferred across
truncation-equal length properties. -/
theorem checkLengthOpt_errs_empty_congr (value : ℚ) (path path' : List String)
    {len len' : Option LengthC}
    (h : len.map truncLength = len'.map truncLength)
    (he : (checkLengthOpt value len path).2 = []) :
    (checkLengthOpt value len' path').2 = [] := by
  cases len with
  | none =>
      cases len' with
      | none => rfl
      | some _ => simp at h
  | some l =>
      cases len' with
      | none => simp at h
      | some l' =>
          simp only [Option.map_some', Option.some.injEq] at h
          simp only [checkLengthOpt] at he ⊢
          rcases hc : checkLength value l path with ⟨l1, e1⟩
          rcases hc' : checkLength value l' path' with ⟨l1', e1'⟩
          rw [hc] at he
          simp only at he ⊢
          have h1 : (checkLength value l path).2 = [] := by rw [hc]; exact he
          have h2 := (checkLength_errs_empty value l path).mp h1
          rw [lengthOK_trunc_congr value h] at h2
          have h3 := (checkLength_errs_empty value l' path').mpr h2
          rw [hc'] at h3
          exact h3

/-- The canonical string an accepted integer object key is stored
under (`adjustedNode[nodeKey]` with a number key). -/
def canonKey (k : String) : String :=
  match jsParseFloat k with
  | some q => if ratIsInteger q then intToString q.num else k
  | none => k

theorem canonKey_intToString (n : Int) : canonKey (intToString n) = intToString n := by
  unfold canonKey
  rw [jsParseFloat_intToString n]
  simp [ratIsInteger]

mutual
/-- C1's documented normalization, from the claim's words: the decoded
result differs from the raw value only in that missing optional map
fields appear as explicit `null` entries appended after the supplied
fields (in declaration order) and integer object keys are rewritten to
the canonical decimal spelling of the integer they denote. -/
def normalizeValue (fmt : Schema) (v : Json) : Json :=
  if fmt.option && v.isNull then .null
  else
    match fmt, v with
    | .array _ _ val, .arr items => .arr (normalizeList val items)
    | .object _ key _ val, .obj es => .obj (normalizeObjEntries key val es)
    | .tuple _ fmts, .arr items => .arr (normalizeTuple fmts items)
    | .map _ fields, .obj es =>
        .obj (normalizeMapEntries fields es ++
          (((fields.map Prod.fst).filter fun k =>
              !(es.map Prod.fst).contains k).filter fun k =>
            ((fieldsGet k fields).map Schema.option).getD false).map
            fun k => (k, Json.null))
    | _, _ => v

def normalizeList (val : Schema) : List Json → List Json
  | [] => []
  | x :: rest => normalizeValue val x :: normalizeList val rest

def normalizeObjEntries (key : KeyKind) (val : Schema) :
    List (String × Json) → List (String × Json)
  | [] => []
  | (k, x) :: rest =>
      ((match key with
        | .integer => canonKey k
        | .string => k), normalizeValue val x) :: normalizeObjEntries key val rest

def normalizeTuple : List Schema → List Json → List Json
  | _, [] => []
  | [], _ :: _ => []
  | f :: fs, x :: rest => normalizeValue f x :: normalizeTuple fs rest

def normalizeMapEntries (fields : List (String × Schema)) :
    List (String × Json) → List (String × Json)
  | [] => []
  | (k, x) :: rest =>
      (k, match fieldsGet k fields with
          | some s => normalizeValue s x
          | none => x) :: normalizeMapEntries fields rest
end

mutual
/-- The key conditions repairing C1: raw object keys are distinct (as
JavaScript object keys always are) and, under an integer-keyed object
block, the canonical forms of the keys are also pairwise distinct — no
two keys denote the same integer. -/
def goodKeys (fmt : Schema) (v : Json) : Bool :=
  match fmt, v with
  | .array _ _ val, .arr items => goodKeysList val items
  | .object _ key _ val, .obj es =>
      decide (es.map fun kv =>
        match key with
        | KeyKind.integer => canonKey kv.1
        | KeyKind.string => kv.1).Nodup && goodKeysEntries val es
  | .tuple _ fmts, .arr items => goodKeysTuple fmts items
  | .map _ fields, .obj es =>
      decide (es.map Prod.fst).Nodup && decide (fields.map Prod.fst).Nodup &&
        goodKeysMap fields es
  | _, _ => true

def goodKeysList (val : Schema) : List Json → Bool
  | [] => true
  | x :: rest => goodKeys val x && goodKeysList val rest

def goodKeysEntries (val : Schema) : List (String × Json) → Bool
  | [] => true
  | (_, x) :: rest => goodKeys val x && goodKeysEntries val rest

def goodKeysTuple : List Schema → List Json → Bool
  | _, [] => true
  | [], _ :: _ => true
  | f :: fs, x :: rest => goodKeys f x && goodKeysTuple fs rest

def goodKeysMap (fields : List (String × Schema)) : List (String × Json) → Bool
  | [] => true
  | (k, x) :: rest =>
      (match fieldsGet k fields with
        | some s => goodKeys s x
        | none => true) && goodKeysMap fields rest
end

/-- A value the converter walk leaves untouched: a run against any
schema `truncSchema`-compatible with `val0` returns it unchanged with
no errors. Encoded (normalized) values have this property, which is
what makes the re-decode succeed. -/
def Redecodes (m' : Mode) (rt : String → String → Bool) (val0 : Schema) (y : Json) :
    Prop :=
  ∀ (u : Schema) (path' : List String), truncSchema u = truncSchema val0 →
    ∃ u1, adjustNode m' rt path' y u = .ok (y, u1, []) ∧
      truncSchema u1 = truncSchema val0

theorem Redecodes_congr {m' : Mode} {rt : String → String → Bool}
    {val val0 : Schema} (h : truncSchema val = truncSchema val0) {y : Json}
    (hr : Redecodes m' rt val y) : Redecodes m' rt val0 y := by
  intro u path' hu
  obtain ⟨u1, hok, hu1⟩ := hr u path' (hu.trans h.symm)
  exact ⟨u1, hok, hu1.trans h⟩

/-- A synthesized `null` under an optional field schema redecodes. -/
theorem Redecodes_null {m' : Mode} {rt : String → String → Bool} {sk : Schema}
    (h : sk.option = true) : Redecodes m' rt sk Json.null := by
  intro u path' hu
  have hopt : u.option = true := by
    rw [← Schema.option_trunc u, hu, Schema.option_trunc sk, h]
  refine ⟨u, ?_, hu⟩
  cases u <;> simp_all [adjustNode, Schema.option, Json.isNull]

theorem adjustArrayItems_redecode (m' : Mode) (rt : String → String → Bool)
    (path' : List String) (val0 : Schema) :
    ∀ (ys : List Json), (∀ y ∈ ys, Redecodes m' rt val0 y) →
      ∀ (u : Schema) (i : Nat), truncSchema u = truncSchema val0 →
        ∃ u1, adjustArrayItems m' rt path' u i ys = .ok (ys, u1, []) ∧
          truncSchema u1 = truncSchema val0 := by
  intro ys
  induction ys with
  | nil => intro _ u i hu; exact ⟨u, rfl, hu⟩
  | cons y rest ih =>
      intro hall u i hu
      obtain ⟨u1, hok, hu1⟩ := hall y (by simp) u (path' ++ [s!"[{i}]"]) hu
      obtain ⟨u2, hok2, hu2⟩ := ih (fun z hz => hall z (by simp [hz])) u1 (i + 1) hu1
      refine ⟨u2, ?_, hu2⟩
      simp only [adjustArrayItems, bind, Except.bind, hok, hok2]
      rfl

/-- Pairwise redecoding of tuple items against the item schemas. -/
def TupleRedecodes (m' : Mode) (rt : String → String → Bool) :
    List Json → List Schema → Prop
  | [], _ => True
  | _ :: _, [] => True
  | y :: ys, f :: fs => Redecodes m' rt f y ∧ TupleRedecodes m' rt ys fs

theorem adjustTupleItems_redecode (m' : Mode) (rt : String → String → Bool)
    (path' : List String) :
    ∀ (ys : List Json) (fmts0 us : List Schema) (i : Nat),
      ys.length = fmts0.length →
      truncSchemaList us = truncSchemaList fmts0 →
      TupleRedecodes m' rt ys fmts0 →
      ∃ u1, adjustTupleItems m' rt path' i ys us = .ok (ys, u1, []) ∧
        truncSchemaList u1 = truncSchemaList fmts0 := by
  intro ys
  induction ys with
  | nil =>
      intro fmts0 us i hlen hus _
      exact ⟨us, rfl, hus⟩
  | cons y rest ih =>
      intro fmts0 us i hlen hus hrd
      cases fmts0 with
      | nil => simp at hlen
      | cons f0 fs0 =>
          cases us with
          | nil => simp [truncSchemaList] at hus
          | cons uf ufs =>
              simp only [truncSchemaList, List.cons.injEq] at hus
              obtain ⟨huf, hufs⟩ := hus
              obtain ⟨hrd1, hrdrest⟩ := hrd
              obtain ⟨u1, hok, hu1⟩ :=
                hrd1 uf (path' ++ ["<" ++ toString i ++ ">"]) huf
              simp only [List.length_cons, Nat.succ.injEq] at hlen
              obtain ⟨u2, hok2, hu2⟩ := ih fs0 ufs (i + 1) hlen hufs hrdrest
              refine ⟨u1 :: u2, ?_, ?_⟩
              · simp only [adjustTupleItems, bind, Except.bind, hok, hok2]
                rfl
              · simp only [truncSchemaList, List.cons.injEq]
                exact ⟨hu1, hu2⟩

theorem adjustObjectEntries_int_redecode (m' : Mode) (rt : String → String → Bool)
    (path' : List String) (val0 : Schema) :
    ∀ (es : List (String × Json)),
      (∀ kv ∈ es, ∃ nk : Int, kv.1 = intToString nk) →
      (∀ kv ∈ es, Redecodes m' rt val0 kv.2) →
      (es.map Prod.fst).Nodup →
      ∀ (u : Schema) (i : Nat) (acc : List (String × Json)),
        (∀ kv ∈ es, assocHas kv.1 acc = false) →
        truncSchema u = truncSchema val0 →
        ∃ u1, adjustObjectEntries m' rt path' .integer u i es acc =
            .ok (acc ++ es, u1, []) ∧
          truncSchema u1 = truncSchema val0 := by
  intro es
  induction es with
  | nil =>
      intro _ _ _ u i acc _ hu
      refine ⟨u, ?_, hu⟩
      simp [adjustObjectEntries]
  | cons kv rest ih =>
      obtain ⟨k, y⟩ := kv
      intro hkeys hrd hnd u i acc hfresh hu
      obtain ⟨nk, hk0⟩ := hkeys (k, y) (by simp)
      have hk : k = intToString nk := hk0
      obtain ⟨u1, hok, hu1⟩ := hrd (k, y) (by simp) u
        (path' ++ ["\x7b" ++ k ++ "\x7d"]) hu
      simp only [List.map_cons, List.nodup_cons] at hnd
      have hset : assocSet (intToString nk) y acc = acc ++ [(k, y)] := by
        rw [← hk]
        exact assocSet_fresh y acc (hfresh (k, y) (by simp))
      obtain ⟨u2, hok2, hu2⟩ := ih
        (fun kv2 h2 => hkeys kv2 (by simp [h2]))
        (fun kv2 h2 => hrd kv2 (by simp [h2]))
        hnd.2 u1 (i + 1) (acc ++ [(k, y)])
        (by
          intro kv2 h2
          rw [assocHas_append]
          have h3 : assocHas kv2.1 acc = false := hfresh kv2 (by simp [h2])
          have h4 : kv2.1 ≠ k := by
            intro hh
            exact hnd.1 (hh ▸ List.mem_map_of_mem Prod.fst h2)
          simp only [h3, assocHas, Bool.false_or, Bool.or_false,
            decide_eq_false_iff_not]
          exact fun hh => h4 hh.symm)
        hu1
      refine ⟨u2, ?_, hu2⟩
      have hparse : jsParseFloat k = some ((nk : ℚ)) := by
        rw [hk]
        exact jsParseFloat_intToString nk
      have hint : ratIsInteger ((nk : ℚ)) = true := by
        simp [ratIsInteger]
      have hnum : ((nk : ℚ)).num = nk := Rat.num_intCast nk
      simp only [adjustObjectEntries, hparse, hint, if_true, bind, Except.bind,
        hok, hnum, hset, hok2]
      simp

theorem adjustObjectEntries_str_redecode (m' : Mode) (rt : String → String → Bool)
    (path' : List String) (val0 : Schema) :
    ∀ (es : List (String × Json)),
      (∀ kv ∈ es, namePatternTest kv.1 = true) →
      (∀ kv ∈ es, Redecodes m' rt val0 kv.2) →
      (es.map Prod.fst).Nodup →
      ∀ (u : Schema) (i : Nat) (acc : List (String × Json)),
        (∀ kv ∈ es, assocHas kv.1 acc = false) →
        truncSchema u = truncSchema val0 →
        ∃ u1, adjustObjectEntries m' rt path' .string u i es acc =
            .ok (acc ++ es, u1, []) ∧
          truncSchema u1 = truncSchema val0 := by
  intro es
  induction es with
  | nil =>
      intro _ _ _ u i acc _ hu
      refine ⟨u, ?_, hu⟩
      simp [adjustObjectEntries]
  | cons kv rest ih =>
      obtain ⟨k, y⟩ := kv
      intro hkeys hrd hnd u i acc hfresh hu
      have hpat : namePatternTest k = true := hkeys (k, y) (by simp)
      obtain ⟨u1, hok, hu1⟩ := hrd (k, y) (by simp) u
        (path' ++ ["\x7b" ++ k ++ "\x7d"]) hu
      simp only [List.map_cons, List.nodup_cons] at hnd
      have hset : assocSet k y acc = acc ++ [(k, y)] :=
        assocSet_fresh y acc (hfresh (k, y) (by simp))
      obtain ⟨u2, hok2, hu2⟩ := ih
        (fun kv2 h2 => hkeys kv2 (by simp [h2]))
        (fun kv2 h2 => hrd kv2 (by simp [h2]))
        hnd.2 u1 (i + 1) (acc ++ [(k, y)])
        (by
          intro kv2 h2
          rw [assocHas_append]
          have h3 : assocHas kv2.1 acc = false := hfresh kv2 (by simp [h2])
          have h4 : kv2.1 ≠ k := by
            intro hh
            exact hnd.1 (hh ▸ List.mem_map_of_mem Prod.fst h2)
          simp only [h3, assocHas, Bool.false_or, Bool.or_false,
            decide_eq_false_iff_not]
          exact fun hh => h4 hh.symm)
        hu1
      refine ⟨u2, ?_, hu2⟩
      simp only [adjustObjectEntries, hpat, if_true, bind, Except.bind,
        hok, hset, hok2]
      simp

theorem fieldsGet_truncSchemaFields (k : String) :
    ∀ F : List (String × Schema),
      fieldsGet k (truncSchemaFields F) = (fieldsGet k F).map truncSchema := by
  intro F
  induction F with
  | nil => rfl
  | cons p rest ih =>
      obtain ⟨k0, s0⟩ := p
      simp only [truncSchemaFields, fieldsGet]
      split
      · rfl
      · exact ih

theorem adjustMapEntries_redecode (m' : Mode) (rt : String → String → Bool)
    (path' : List String) (fields0 : List (String × Schema)) :
    ∀ (es : List (String × Json)),
      (∀ kv ∈ es, ∃ sk0, fieldsGet kv.1 fields0 = some sk0 ∧
        Redecodes m' rt sk0 kv.2) →
      (es.map Prod.fst).Nodup →
      ∀ (uF : List (String × Schema)) (acc : List (String × Json)),
        (∀ kv ∈ es, assocHas kv.1 acc = false) →
        truncSchemaFields uF = truncSchemaFields fields0 →
        ∃ uF1, adjustMapEntries m' rt path' uF es acc = .ok (acc ++ es, uF1, []) ∧
          truncSchemaFields uF1 = truncSchemaFields fields0 := by
  intro es
  induction es with
  | nil =>
      intro _ _ uF acc _ hu
      refine ⟨uF, ?_, hu⟩
      simp [adjustMapEntries]
  | cons kv rest ih =>
      obtain ⟨k, y⟩ := kv
      intro hdecl hnd uF acc hfresh hu
      obtain ⟨sk0, hget0, hrd⟩ := hdecl (k, y) (by simp)
      have hlook := fieldsGet_trunc_congr k uF fields0 hu
      rw [hget0] at hlook
      cases hgetU : fieldsGet k uF with
      | none => rw [hgetU] at hlook; simp at hlook
      | some skU =>
          rw [hgetU] at hlook
          simp only [Option.map_some', Option.some.injEq] at hlook
          obtain ⟨u1, hok, hu1⟩ := hrd skU (path' ++ ["$" ++ k]) hlook
          simp only [List.map_cons, List.nodup_cons] at hnd
          have hset : assocSet k y acc = acc ++ [(k, y)] :=
            assocSet_fresh y acc (hfresh (k, y) (by simp))
          have hufs : truncSchemaFields (fieldsSet k u1 uF) =
              truncSchemaFields fields0 :=
            (truncSchemaFields_fieldsSet k u1 skU (hu1.trans hlook.symm) uF
              hgetU).trans hu
          obtain ⟨uF1, hok2, hu2⟩ := ih
            (fun kv2 h2 => hdecl kv2 (by simp [h2]))
            hnd.2 (fieldsSet k u1 uF) (acc ++ [(k, y)])
            (by
              intro kv2 h2
              rw [assocHas_append]
              have h3 : assocHas kv2.1 acc = false := hfresh kv2 (by simp [h2])
              have h4 : kv2.1 ≠ k := by
                intro hh
                exact hnd.1 (hh ▸ List.mem_map_of_mem Prod.fst h2)
              simp only [h3, assocHas, Bool.false_or, Bool.or_false,
                decide_eq_false_iff_not]
              exact fun hh => h4 hh.symm)
            hufs
          refine ⟨uF1, ?_, hu2⟩
          simp only [adjustMapEntries, hgetU, bind, Except.bind, hok, hset, hok2]
          simp

/-- Element induction hypothesis for the round-trip proof: an accepted,
errorless run normalizes the value and yields a redecodable result. -/
def RoundIH (rt : String → String → Bool) (m m' : Mode) (x : Json) : Prop :=
  ∀ (s : Schema) (path : List String) (w : Json) (s1 : Schema),
    goodKeys (truncSchema s) x = true →
    adjustNode m rt path x s = .ok (w, s1, []) →
    w = normalizeValue (truncSchema s) x ∧ Redecodes m' rt s w

theorem adjustArrayItems_round (rt : String → String → Bool) (m m' : Mode)
    (path : List String) :
    ∀ (items : List Json), (∀ x ∈ items, RoundIH rt m m' x) →
      ∀ (val val0 : Schema) (i : Nat) (out : List Json) (val' : Schema),
        truncSchema val = truncSchema val0 →
        goodKeysList (truncSchema val0) items = true →
        adjustArrayItems m rt path val i items = .ok (out, val', []) →
        out = normalizeList (truncSchema val0) items ∧
          ∀ y ∈ out, Redecodes m' rt val0 y := by
  intro items
  induction items with
  | nil =>
      intro _ val val0 i out val' _ _ hok
      simp only [adjustArrayItems, Except.ok.injEq, Prod.mk.injEq] at hok
      obtain ⟨h1, _, _⟩ := hok
      subst h1
      exact ⟨rfl, by simp⟩
  | cons x rest ih =>
      intro hx val val0 i out val' hvv hgood hok
      simp only [goodKeysList, Bool.and_eq_true] at hgood
      cases h1 : adjustNode m rt (path ++ [s!"[{i}]"]) x val with
      | error e =>
          rw [show adjustArrayItems m rt path val i (x :: rest) = .error e from by
            simp only [adjustArrayItems, bind, Except.bind, h1]] at hok
          exact Except.noConfusion hok
      | ok r1 =>
          obtain ⟨ax, val1, errs1⟩ := r1
          cases h2 : adjustArrayItems m rt path val1 (i + 1) rest with
          | error e =>
              rw [show adjustArrayItems m rt path val i (x :: rest) = .error e from by
                simp only [adjustArrayItems, bind, Except.bind, h1, h2]] at hok
              exact Except.noConfusion hok
          | ok r2 =>
              obtain ⟨out2, val2, errs2⟩ := r2
              rw [show adjustArrayItems m rt path val i (x :: rest) =
                  .ok (ax :: out2, val2, errs1 ++ errs2) from by
                simp only [adjustArrayItems, bind, Except.bind, h1, h2]] at hok
              simp only [Except.ok.injEq, Prod.mk.injEq] at hok
              obtain ⟨hout, hval2, herrs⟩ := hok
              obtain ⟨he1, he2⟩ := List.append_eq_nil.mp herrs
              subst he1 he2
              have hgx : goodKeys (truncSchema val) x = true := by
                rw [hvv]; exact hgood.1
              obtain ⟨hax, hrd⟩ := hx x (by simp) val (path ++ [s!"[{i}]"]) ax val1
                hgx h1
              have hv1 : truncSchema val1 = truncSchema val0 :=
                (adjustNode_ok_trunc h1).trans hvv
              obtain ⟨hout2, hrd2⟩ := ih (fun y hy => hx y (by simp [hy])) val1 val0
                (i + 1) out2 val2 hv1 hgood.2 h2
              rw [hvv] at hax
              subst hout hout2 hax
              refine ⟨rfl, ?_⟩
              intro y hy
              rcases List.mem_cons.mp hy with hy | hy
              · subst hy
                exact Redecodes_congr hvv hrd
              · exact hrd2 y hy

theorem adjustTupleItems_round (rt : String → String → Bool) (m m' : Mode)
    (path : List String) :
    ∀ (items : List Json), (∀ x ∈ items, RoundIH rt m m' x) →
      ∀ (fmts fmts0 : List Schema) (i : Nat) (out : List Json)
        (fmts' : List Schema),
        truncSchemaList fmts = truncSchemaList fmts0 →
        goodKeysTuple (truncSchemaList fmts0) items = true →
        adjustTupleItems m rt path i items fmts = .ok (out, fmts', []) →
        out = normalizeTuple (truncSchemaList fmts0) items ∧
          TupleRedecodes m' rt out fmts0 := by
  intro items
  induction items with
  | nil =>
      intro _ fmts fmts0 i out fmts' _ _ hok
      simp only [adjustTupleItems, Except.ok.injEq, Prod.mk.injEq] at hok
      obtain ⟨h1, _, _⟩ := hok
      subst h1
      refine ⟨?_, trivial⟩
      cases fmts0 <;> simp [normalizeTuple, truncSchemaList]
  | cons x rest ih =>
      intro hx fmts fmts0 i out fmts' hff hgood hok
      cases fmts with
      | nil =>
          simp only [adjustTupleItems] at hok
          exact Except.noConfusion hok
      | cons f fs =>
          cases fmts0 with
          | nil => simp [truncSchemaList] at hff
          | cons f0 fs0 =>
              simp only [truncSchemaList, List.cons.injEq] at hff
              obtain ⟨hf0, hfs0⟩ := hff
              simp only [truncSchemaList, goodKeysTuple, Bool.and_eq_true] at hgood
              cases h1 : adjustNode m rt (path ++ ["<" ++ toString i ++ ">"]) x f with
              | error e =>
                  rw [show adjustTupleItems m rt path i (x :: rest) (f :: fs) =
                      .error e from by
                    simp only [adjustTupleItems, bind, Except.bind, h1]] at hok
                  exact Except.noConfusion hok
              | ok r1 =>
                  obtain ⟨ax, f1, errs1⟩ := r1
                  cases h2 : adjustTupleItems m rt path (i + 1) rest fs with
                  | error e =>
                      rw [show adjustTupleItems m rt path i (x :: rest) (f :: fs) =
                          .error e from by
                        simp only [adjustTupleItems, bind, Except.bind, h1, h2]] at hok
                      exact Except.noConfusion hok
                  | ok r2 =>
                      obtain ⟨out2, fs2, errs2⟩ := r2
                      rw [show adjustTupleItems m rt path i (x :: rest) (f :: fs) =
                          .ok (ax :: out2, f1 :: fs2, errs1 ++ errs2) from by
                        simp only [adjustTupleItems, bind, Except.bind, h1, h2]] at hok
                      simp only [Except.ok.injEq, Prod.mk.injEq] at hok
                      obtain ⟨hout, _, herrs⟩ := hok
                      obtain ⟨he1, he2⟩ := List.append_eq_nil.mp herrs
                      subst he1 he2
                      have hgx : goodKeys (truncSchema f) x = true := by
                        rw [hf0]; exact hgood.1
                      obtain ⟨hax, hrd⟩ := hx x (by simp) f
                        (path ++ ["<" ++ toString i ++ ">"]) ax f1 hgx h1
                      obtain ⟨hout2, hrd2⟩ := ih (fun y hy => hx y (by simp [hy]))
                        fs fs0 (i + 1) out2 fs2 hfs0 hgood.2 h2
                      rw [hf0] at hax
                      subst hout hout2 hax
                      refine ⟨rfl, ?_⟩
                      exact ⟨Redecodes_congr hf0 hrd, hrd2⟩

theorem adjustObjectEntries_int_round (rt : String → String → Bool) (m m' : Mode)
    (path : List String) :
    ∀ (entries : List (String × Json)), (∀ kv ∈ entries, RoundIH rt m m' kv.2) →
      ∀ (val val0 : Schema) (i : Nat) (acc out : List (String × Json))
        (val' : Schema),
        truncSchema val = truncSchema val0 →
        goodKeysEntries (truncSchema val0) entries = true →
        (entries.map fun kv => canonKey kv.1).Nodup →
        (∀ kv ∈ entries, assocHas (canonKey kv.1) acc = false) →
        adjustObjectEntries m rt path .integer val i entries acc =
          .ok (out, val', []) →
        out = acc ++ normalizeObjEntries .integer (truncSchema val0) entries ∧
          ∀ kv ∈ normalizeObjEntries .integer (truncSchema val0) entries,
            (∃ nk : Int, kv.1 = intToString nk) ∧ Redecodes m' rt val0 kv.2 := by
  intro entries
  induction entries with
  | nil =>
      intro _ val val0 i acc out val' _ _ _ _ hok
      simp only [adjustObjectEntries, Except.ok.injEq, Prod.mk.injEq] at hok
      obtain ⟨h1, _, _⟩ := hok
      subst h1
      exact ⟨by simp [normalizeObjEntries], by simp [normalizeObjEntries]⟩
  | cons kv rest ih =>
      obtain ⟨k, y⟩ := kv
      intro hx val val0 i acc out val' hvv hgood hnd hfresh hok
      simp only [goodKeysEntries, Bool.and_eq_true] at hgood
      simp only [List.map_cons, List.nodup_cons] at hnd
      cases hp : jsParseFloat k with
      | none =>
          cases hrec : adjustObjectEntries m rt path .integer val (i + 1) rest acc with
          | error e =>
              rw [show adjustObjectEntries m rt path .integer val i ((k, y) :: rest)
                  acc = .error e from by
                simp only [adjustObjectEntries, hp, bind, Except.bind, hrec]] at hok
              exact Except.noConfusion hok
          | ok r2 =>
              obtain ⟨o2, v2, e2⟩ := r2
              rw [show adjustObjectEntries m rt path .integer val i ((k, y) :: rest)
                  acc = .ok (o2, v2,
                    ⟨path, "key at index " ++ toString i
                      ++ " is invalid; expected it to be an integer"⟩ :: e2) from by
                simp only [adjustObjectEntries, hp, bind, Except.bind, hrec]] at hok
              simp only [Except.ok.injEq, Prod.mk.injEq] at hok
              exact absurd hok.2.2 (List.cons_ne_nil _ _)
      | some q =>
          by_cases hint : ratIsInteger q = true
          · cases h1 : adjustNode m rt (path ++ ["\x7b" ++ k ++ "\x7d"]) y val with
            | error e =>
                rw [show adjustObjectEntries m rt path .integer val i ((k, y) :: rest)
                    acc = .error e from by
                  simp only [adjustObjectEntries, hp, hint, if_true, bind,
                    Except.bind, h1]] at hok
                exact Except.noConfusion hok
            | ok r1 =>
                obtain ⟨av, val1, errs1⟩ := r1
                cases hrec : adjustObjectEntries m rt path .integer val1 (i + 1) rest
                    (assocSet (intToString q.num) av acc) with
                | error e =>
                    rw [show adjustObjectEntries m rt path .integer val i
                        ((k, y) :: rest) acc = .error e from by
                      simp only [adjustObjectEntries, hp, hint, if_true, bind,
                        Except.bind, h1, hrec]] at hok
                    exact Except.noConfusion hok
                | ok r2 =>
                    obtain ⟨o2, v2, e2⟩ := r2
                    rw [show adjustObjectEntries m rt path .integer val i
                        ((k, y) :: rest) acc = .ok (o2, v2, errs1 ++ e2) from by
                      simp only [adjustObjectEntries, hp, hint, if_true, bind,
                        Except.bind, h1, hrec]] at hok
                    simp only [Except.ok.injEq, Prod.mk.injEq] at hok
                    obtain ⟨hout, _, herrs⟩ := hok
                    obtain ⟨he1, he2⟩ := List.append_eq_nil.mp herrs
                    subst he1 he2
                    have hcanon : canonKey k = intToString q.num := by
                      simp [canonKey, hp, hint]
                    have hgx : goodKeys (truncSchema val) y = true := by
                      rw [hvv]; exact hgood.1
                    obtain ⟨hav, hrd⟩ := hx (k, y) (by simp) val
                      (path ++ ["\x7b" ++ k ++ "\x7d"]) av val1 hgx h1
                    have hv1 : truncSchema val1 = truncSchema val0 :=
                      (adjustNode_ok_trunc h1).trans hvv
                    have hsetacc : assocSet (intToString q.num) av acc =
                        acc ++ [(canonKey k, av)] := by
                      rw [← hcanon]
                      exact assocSet_fresh av acc (hfresh (k, y) (by simp))
                    have hfresh2 : ∀ kv2 ∈ rest,
                        assocHas (canonKey kv2.1) (acc ++ [(canonKey k, av)]) =
                          false := by
                      intro kv2 h2
                      rw [assocHas_append]
                      have h3 : assocHas (canonKey kv2.1) acc = false :=
                        hfresh kv2 (by simp [h2])
                      have h4 : canonKey kv2.1 ≠ canonKey k := by
                        intro hh
                        exact hnd.1 (hh ▸ List.mem_map_of_mem
                          (fun kv => canonKey kv.1) h2)
                      simp only [h3, assocHas, Bool.false_or, Bool.or_false,
                        decide_eq_false_iff_not]
                      exact fun hh => h4 hh.symm
                    rw [hsetacc] at hrec
                    obtain ⟨hout2, hmem2⟩ := ih
                      (fun kv2 h2 => hx kv2 (by simp [h2])) val1 val0 (i + 1)
                      (acc ++ [(canonKey k, av)]) o2 v2 hv1 hgood.2 hnd.2
                      hfresh2 hrec
                    rw [hvv] at hav
                    subst hout hout2 hav
                    constructor
                    · simp [normalizeObjEntries]
                    · intro kv2 h2
                      simp only [normalizeObjEntries, List.mem_cons] at h2
                      rcases h2 with h2 | h2
                      · subst h2
                        exact ⟨⟨q.num, hcanon⟩, Redecodes_congr hvv hrd⟩
                      · exact hmem2 kv2 h2
          · rw [Bool.not_eq_true] at hint
            cases hrec : adjustObjectEntries m rt path .integer val (i + 1) rest
                acc with
            | error e =>
                rw [show adjustObjectEntries m rt path .integer val i ((k, y) :: rest)
                    acc = .error e from by
                  simp [adjustObjectEntries, hp, hint, bind,
                    Except.bind, hrec]] at hok
                exact Except.noConfusion hok
            | ok r2 =>
                obtain ⟨o2, v2, e2⟩ := r2
                rw [show adjustObjectEntries m rt path .integer val i ((k, y) :: rest)
                    acc = .ok (o2, v2,
                      ⟨path, "key at index " ++ toString i
                        ++ " is invalid; expected it to be an integer"⟩ :: e2) from by
                  simp [adjustObjectEntries, hp, hint, bind,
                    Except.bind, hrec]] at hok
                simp only [Except.ok.injEq, Prod.mk.injEq] at hok
                exact absurd hok.2.2 (List.cons_ne_nil _ _)

theorem adjustObjectEntries_str_round (rt : String → String → Bool) (m m' : Mode)
    (path : List String) :
    ∀ (entries : List (String × Json)), (∀ kv ∈ entries, RoundIH rt m m' kv.2) →
      ∀ (val val0 : Schema) (i : Nat) (acc out : List (String × Json))
        (val' : Schema),
        truncSchema val = truncSchema val0 →
        goodKeysEntries (truncSchema val0) entries = true →
        (entries.map fun kv => kv.1).Nodup →
        (∀ kv ∈ entries, assocHas kv.1 acc = false) →
        adjustObjectEntries m rt path .string val i entries acc =
          .ok (out, val', []) →
        out = acc ++ normalizeObjEntries .string (truncSchema val0) entries ∧
          ∀ kv ∈ normalizeObjEntries .string (truncSchema val0) entries,
            namePatternTest kv.1 = true ∧ Redecodes m' rt val0 kv.2 := by
  intro entries
  induction entries with
  | nil =>
      intro _ val val0 i acc out val' _ _ _ _ hok
      simp only [adjustObjectEntries, Except.ok.injEq, Prod.mk.injEq] at hok
      obtain ⟨h1, _, _⟩ := hok
      subst h1
      exact ⟨by simp [normalizeObjEntries], by simp [normalizeObjEntries]⟩
  | cons kv rest ih =>
      obtain ⟨k, y⟩ := kv
      intro hx val val0 i acc out val' hvv hgood hnd hfresh hok
      simp only [goodKeysEntries, Bool.and_eq_true] at hgood
      simp only [List.map_cons, List.nodup_cons] at hnd
      by_cases hpat : namePatternTest k = true
      · cases h1 : adjustNode m rt (path ++ ["\x7b" ++ k ++ "\x7d"]) y val with
        | error e =>
            rw [show adjustObjectEntries m rt path .string val i ((k, y) :: rest)
                acc = .error e from by
              simp only [adjustObjectEntries, hpat, if_true, bind,
                Except.bind, h1]] at hok
            exact Except.noConfusion hok
        | ok r1 =>
            obtain ⟨av, val1, errs1⟩ := r1
            cases hrec : adjustObjectEntries m rt path .string val1 (i + 1) rest
                (assocSet k av acc) with
            | error e =>
                rw [show adjustObjectEntries m rt path .string val i
                    ((k, y) :: rest) acc = .error e from by
                  simp only [adjustObjectEntries, hpat, if_true, bind,
                    Except.bind, h1, hrec]] at hok
                exact Except.noConfusion hok
            | ok r2 =>
                obtain ⟨o2, v2, e2⟩ := r2
                rw [show adjustObjectEntries m rt path .string val i
                    ((k, y) :: rest) acc = .ok (o2, v2, errs1 ++ e2) from by
                  simp only [adjustObjectEntries, hpat, if_true, bind,
                    Except.bind, h1, hrec]] at hok
                simp only [Except.ok.injEq, Prod.mk.injEq] at hok
                obtain ⟨hout, _, herrs⟩ := hok
                obtain ⟨he1, he2⟩ := List.append_eq_nil.mp herrs
                subst he1 he2
                have hgx : goodKeys (truncSchema val) y = true := by
                  rw [hvv]; exact hgood.1
                obtain ⟨hav, hrd⟩ := hx (k, y) (by simp) val
                  (path ++ ["\x7b" ++ k ++ "\x7d"]) av val1 hgx h1
                have hv1 : truncSchema val1 = truncSchema val0 :=
                  (adjustNode_ok_trunc h1).trans hvv
                have hsetacc : assocSet k av acc = acc ++ [(k, av)] :=
                  assocSet_fresh av acc (hfresh (k, y) (by simp))
                have hfresh2 : ∀ kv2 ∈ rest,
                    assocHas kv2.1 (acc ++ [(k, av)]) = false := by
                  intro kv2 h2
                  rw [assocHas_append]
                  have h3 : assocHas kv2.1 acc = false :=
                    hfresh kv2 (by simp [h2])
                  have h4 : kv2.1 ≠ k := by
                    intro hh
                    exact hnd.1 (hh ▸ List.mem_map_of_mem (fun kv => kv.1) h2)
                  simp only [h3, assocHas, Bool.false_or, Bool.or_false,
                    decide_eq_false_iff_not]
                  exact fun hh => h4 hh.symm
                rw [hsetacc] at hrec
                obtain ⟨hout2, hmem2⟩ := ih
                  (fun kv2 h2 => hx kv2 (by simp [h2])) val1 val0 (i + 1)
                  (acc ++ [(k, av)]) o2 v2 hv1 hgood.2 hnd.2 hfresh2 hrec
                rw [hvv] at hav
                subst hout hout2 hav
                constructor
                · simp [normalizeObjEntries]
                · intro kv2 h2
                  simp only [normalizeObjEntries, List.mem_cons] at h2
                  rcases h2 with h2 | h2
                  · subst h2
                    exact ⟨hpat, Redecodes_congr hvv hrd⟩
                  · exact hmem2 kv2 h2
      · rw [Bool.not_eq_true] at hpat
        cases hrec : adjustObjectEntries m rt path .string val (i + 1) rest acc with
        | error e =>
            rw [show adjustObjectEntries m rt path .string val i ((k, y) :: rest)
                acc = .error e from by
              simp [adjustObjectEntries, hpat, bind,
                Except.bind, hrec]] at hok
            exact Except.noConfusion hok
        | ok r2 =>
            obtain ⟨o2, v2, e2⟩ := r2
            rw [show adjustObjectEntries m rt path .string val i ((k, y) :: rest)
                acc = .ok (o2, v2,
                  ⟨path, "key at index " ++ toString i
                    ++ " is invalid; expected to match the pattern"⟩ :: e2) from by
              simp [adjustObjectEntries, hpat, bind,
                Except.bind, hrec]] at hok
            simp only [Except.ok.injEq, Prod.mk.injEq] at hok
            exact absurd hok.2.2 (List.cons_ne_nil _ _)

theorem assocHas_eq_contains (k : String) :
    ∀ l : List (String × Json), assocHas k l = (l.map Prod.fst).contains k := by
  intro l
  induction l with
  | nil => rfl
  | cons p rest ih =>
      obtain ⟨k', v'⟩ := p
      simp only [assocHas, List.map_cons, List.contains_cons, ih]
      by_cases h : k' = k
      · subst h; simp
      · simp [h, Ne.symm h, beq_iff_eq]

theorem normalizeMapEntries_map_fst (F : List (String × Schema)) :
    ∀ es : List (String × Json),
      (normalizeMapEntries F es).map Prod.fst = es.map Prod.fst := by
  intro es
  induction es with
  | nil => rfl
  | cons p rest ih =>
      obtain ⟨k, x⟩ := p
      simp only [normalizeMapEntries, List.map_cons, ih]

theorem normalizeList_length (val : Schema) :
    ∀ items : List Json, (normalizeList val items).length = items.length := by
  intro items
  induction items with
  | nil => rfl
  | cons x rest ih => simp [normalizeList, ih]

theorem normalizeObjEntries_length (key : KeyKind) (val : Schema) :
    ∀ es : List (String × Json),
      (normalizeObjEntries key val es).length = es.length := by
  intro es
  induction es with
  | nil => rfl
  | cons p rest ih =>
      obtain ⟨k, x⟩ := p
      simp [normalizeObjEntries, ih]

/-- The missing-keys pass, in the errorless case: every walked key is an
optional declared field, and the adjusted node gains exactly the listed
keys as `null` entries, in order. -/
theorem synthesizeMissing_ok (path : List String) (F : List (String × Schema)) :
    ∀ (ks : List String) (adjusted : List (String × Json)),
      ks.Nodup → (∀ k ∈ ks, assocHas k adjusted = false) →
      (synthesizeMissing path F ks adjusted).2 = [] →
      (∀ k ∈ ks, ∃ sk, fieldsGet k F = some sk ∧ sk.option = true) ∧
      (synthesizeMissing path F ks adjusted).1 =
        adjusted ++ ks.map fun k => (k, Json.null) := by
  intro ks
  induction ks with
  | nil =>
      intro adjusted _ _ _
      exact ⟨by simp, by simp [synthesizeMissing]⟩
  | cons k rest ih =>
      intro adjusted hnd hfresh he
      simp only [List.nodup_cons] at hnd
      cases hget : fieldsGet k F with
      | none =>
          rw [show synthesizeMissing path F (k :: rest) adjusted =
              ((synthesizeMissing path F rest adjusted).1,
                ⟨path, "'" ++ k ++ "' field was missing"⟩ ::
                  (synthesizeMissing path F rest adjusted).2) from by
            simp only [synthesizeMissing, hget]] at he
          exact absurd he (List.cons_ne_nil _ _)
      | some sk =>
          by_cases hopt : sk.option = true
          · rw [show synthesizeMissing path F (k :: rest) adjusted =
                synthesizeMissing path F rest (assocSet k Json.null adjusted) from by
              simp only [synthesizeMissing, hget, hopt, if_true]] at he ⊢
            have hset : assocSet k Json.null adjusted = adjusted ++ [(k, .null)] :=
              assocSet_fresh _ adjusted (hfresh k (by simp))
            rw [hset] at he ⊢
            have hfresh2 : ∀ k2 ∈ rest,
                assocHas k2 (adjusted ++ [(k, .null)]) = false := by
              intro k2 h2
              rw [assocHas_append]
              have h3 : assocHas k2 adjusted = false := hfresh k2 (by simp [h2])
              have h4 : k2 ≠ k := fun hh => hnd.1 (hh ▸ h2)
              simp only [h3, assocHas, Bool.false_or, Bool.or_false,
                decide_eq_false_iff_not]
              exact fun hh => h4 hh.symm
            obtain ⟨hall, hout⟩ := ih (adjusted ++ [(k, .null)]) hnd.2 hfresh2 he
            constructor
            · intro k2 h2
              rcases List.mem_cons.mp h2 with h2 | h2
              · subst h2; exact ⟨sk, hget, hopt⟩
              · exact hall k2 h2
            · rw [hout]; simp
          · rw [Bool.not_eq_true] at hopt
            rw [show synthesizeMissing path F (k :: rest) adjusted =
                ((synthesizeMissing path F rest adjusted).1,
                  ⟨path, "'" ++ k ++ "' field was missing"⟩ ::
                    (synthesizeMissing path F rest adjusted).2) from by
              simp only [synthesizeMissing, hget, hopt, Bool.false_eq_true,
                if_false]] at he
            exact absurd he (List.cons_ne_nil _ _)

theorem adjustMapEntries_round (rt : String → String → Bool) (m m' : Mode)
    (path : List String) :
    ∀ (es : List (String × Json)), (∀ kv ∈ es, RoundIH rt m m' kv.2) →
      ∀ (F F0 : List (String × Schema)) (acc out : List (String × Json))
        (F' : List (String × Schema)),
        truncSchemaFields F = truncSchemaFields F0 →
        goodKeysMap (truncSchemaFields F0) es = true →
        (es.map Prod.fst).Nodup →
        (∀ kv ∈ es, assocHas kv.1 acc = false) →
        adjustMapEntries m rt path F es acc = .ok (out, F', []) →
        out = acc ++ normalizeMapEntries (truncSchemaFields F0) es ∧
          truncSchemaFields F' = truncSchemaFields F0 ∧
          ∀ kv ∈ normalizeMapEntries (truncSchemaFields F0) es,
            ∃ sk0, fieldsGet kv.1 F0 = some sk0 ∧ Redecodes m' rt sk0 kv.2 := by
  intro es
  induction es with
  | nil =>
      intro _ F F0 acc out F' hFF _ _ _ hok
      simp only [adjustMapEntries, Except.ok.injEq, Prod.mk.injEq] at hok
      obtain ⟨h1, h2, _⟩ := hok
      subst h1 h2
      exact ⟨by simp [normalizeMapEntries], hFF, by simp [normalizeMapEntries]⟩
  | cons kv rest ih =>
      obtain ⟨k, y⟩ := kv
      intro hx F F0 acc out F' hFF hgood hnd hfresh hok
      simp only [goodKeysMap, Bool.and_eq_true] at hgood
      simp only [List.map_cons, List.nodup_cons] at hnd
      cases hget : fieldsGet k F with
      | none =>
          cases hrec : adjustMapEntries m rt path F rest acc with
          | error e =>
              rw [show adjustMapEntries m rt path F ((k, y) :: rest) acc =
                  .error e from by
                simp only [adjustMapEntries, hget, bind, Except.bind, hrec]] at hok
              exact Except.noConfusion hok
          | ok r2 =>
              obtain ⟨o2, F2, e2⟩ := r2
              rw [show adjustMapEntries m rt path F ((k, y) :: rest) acc =
                  .ok (o2, F2,
                    ⟨path, "'" ++ k ++ "' field was unexpected"⟩ :: e2) from by
                simp only [adjustMapEntries, hget, bind, Except.bind, hrec]] at hok
              simp only [Except.ok.injEq, Prod.mk.injEq] at hok
              exact absurd hok.2.2 (List.cons_ne_nil _ _)
      | some skF =>
          cases h1 : adjustNode m rt (path ++ ["$" ++ k]) y skF with
          | error e =>
              rw [show adjustMapEntries m rt path F ((k, y) :: rest) acc =
                  .error e from by
                simp only [adjustMapEntries, hget, bind, Except.bind, h1]] at hok
              exact Except.noConfusion hok
          | ok r1 =>
              obtain ⟨av, sk1, errs1⟩ := r1
              cases hrec : adjustMapEntries m rt path (fieldsSet k sk1 F) rest
                  (assocSet k av acc) with
              | error e =>
                  rw [show adjustMapEntries m rt path F ((k, y) :: rest) acc =
                      .error e from by
                    simp only [adjustMapEntries, hget, bind, Except.bind, h1,
                      hrec]] at hok
                  exact Except.noConfusion hok
              | ok r2 =>
                  obtain ⟨o2, F2, e2⟩ := r2
                  rw [show adjustMapEntries m rt path F ((k, y) :: rest) acc =
                      .ok (o2, F2, errs1 ++ e2) from by
                    simp only [adjustMapEntries, hget, bind, Except.bind, h1,
                      hrec]] at hok
                  simp only [Except.ok.injEq, Prod.mk.injEq] at hok
                  obtain ⟨hout, hF2, herrs⟩ := hok
                  obtain ⟨he1, he2⟩ := List.append_eq_nil.mp herrs
                  subst he1 he2
                  have hget0 := fieldsGet_trunc_congr k F F0 hFF
                  rw [hget] at hget0
                  cases hget0' : fieldsGet k F0 with
                  | none => rw [hget0'] at hget0; simp at hget0
                  | some sk0 =>
                      rw [hget0'] at hget0
                      simp only [Option.map_some', Option.some.injEq] at hget0
                      have hgetT : fieldsGet k (truncSchemaFields F0) =
                          some (truncSchema sk0) := by
                        rw [fieldsGet_truncSchemaFields, hget0']
                        rfl
                      rw [hgetT] at hgood
                      have hgx : goodKeys (truncSchema skF) y = true := by
                        rw [hget0]; exact hgood.1
                      obtain ⟨hav, hrd⟩ := hx (k, y) (by simp) skF
                        (path ++ ["$" ++ k]) av sk1 hgx h1
                      have hsk1 : truncSchema sk1 = truncSchema sk0 :=
                        (adjustNode_ok_trunc h1).trans hget0
                      have hFF2 : truncSchemaFields (fieldsSet k sk1 F) =
                          truncSchemaFields F0 :=
                        (truncSchemaFields_fieldsSet k sk1 skF
                          (hsk1.trans hget0.symm) F hget).trans hFF
                      have hsetacc : assocSet k av acc = acc ++ [(k, av)] :=
                        assocSet_fresh av acc (hfresh (k, y) (by simp))
                      have hfresh2 : ∀ kv2 ∈ rest,
                          assocHas kv2.1 (acc ++ [(k, av)]) = false := by
                        intro kv2 h2
                        rw [assocHas_append]
                        have h3 : assocHas kv2.1 acc = false :=
                          hfresh kv2 (by simp [h2])
                        have h4 : kv2.1 ≠ k := by
                          intro hh
                          exact hnd.1 (hh ▸ List.mem_map_of_mem Prod.fst h2)
                        simp only [h3, assocHas, Bool.false_or, Bool.or_false,
                          decide_eq_false_iff_not]
                        exact fun hh => h4 hh.symm
                      rw [hsetacc] at hrec
                      obtain ⟨hout2, hF2', hmem2⟩ := ih
                        (fun kv2 h2 => hx kv2 (by simp [h2]))
                        (fieldsSet k sk1 F) F0 (acc ++ [(k, av)]) o2 F2 hFF2
                        hgood.2 hnd.2 hfresh2 hrec
                      rw [hget0] at hav
                      subst hout hout2 hF2 hav
                      refine ⟨?_, hF2', ?_⟩
                      · simp only [normalizeMapEntries, hgetT, List.append_assoc,
                          List.singleton_append]
                      · intro kv2 h2
                        simp only [normalizeMapEntries, hgetT, List.mem_cons] at h2
                        rcases h2 with h2 | h2
                        · subst h2
                          exact ⟨sk0, hget0',
                            Redecodes_congr hget0 hrd⟩
                        · exact hmem2 kv2 h2

theorem normalizeValue_null {fmt : Schema} {v : Json}
    (h : (fmt.option && v.isNull) = true) : normalizeValue fmt v = .null := by
  cases v <;> simp only [Json.isNull, Bool.and_false, Bool.and_true] at h <;>
    try exact Bool.noConfusion h
  case null =>
    cases fmt <;> simp [normalizeValue]

theorem normalizeObjEntries_map_fst (key : KeyKind) (val : Schema) :
    ∀ es : List (String × Json),
      (normalizeObjEntries key val es).map Prod.fst =
        es.map fun kv =>
          match key with
          | KeyKind.integer => canonKey kv.1
          | KeyKind.string => kv.1 := by
  intro es
  induction es with
  | nil => rfl
  | cons p rest ih =>
      obtain ⟨k, x⟩ := p
      simp only [normalizeObjEntries, List.map_cons, ih]

theorem normalizeTuple_length :
    ∀ (fs : List Schema) (items : List Json), items.length = fs.length →
      (normalizeTuple fs items).length = items.length := by
  intro fs
  induction fs with
  | nil =>
      intro items h
      cases items with
      | nil => rfl
      | cons x rest => simp at h
  | cons f fs ih =>
      intro items h
      cases items with
      | nil => rfl
      | cons x rest =>
          simp only [List.length_cons, Nat.succ.injEq] at h
          simp [normalizeTuple, ih rest h]

theorem pair2_errs_ne {α : Type} {x w : α} {e : Err} {es : List Err}
    (h : (x, e :: es) = (w, [])) : False := by
  injection h with h1 h2
  exact List.noConfusion h2

theorem pair3_errs_ne {α β : Type} {x w : α} {y l' : β} {e : Err} {es : List Err}
    (h : (x, y, e :: es) = (w, l', [])) : False := by
  injection h with h1 h2
  injection h2 with h3 h4
  exact List.noConfusion h4

theorem processFlagNode_ok {m : Mode} {path : List String} {v w : Json}
    (h : processFlagNode m path v = (w, [])) :
    w = v ∧ v.isNull = false ∧ ∀ (m2 : Mode) (path2 : List String),
      processFlagNode m2 path2 v = (v, []) := by
  cases v <;>
    first
    | (injection h with h1 h2; exact absurd h2 (List.cons_ne_nil _ _))
    | (injection h with h1 h2; exact ⟨h1.symm, rfl, fun _ _ => rfl⟩)

theorem processEnumNode_ok {m : Mode} {path : List String} {v w : Json}
    {values : List String} (h : processEnumNode m path v values = (w, [])) :
    w = v ∧ v.isNull = false ∧ ∀ (m2 : Mode) (path2 : List String),
      processEnumNode m2 path2 v values = (v, []) := by
  cases v <;>
    try (injection h with h1 h2; exact absurd h2 (List.cons_ne_nil _ _))
  case str s =>
    simp only [processEnumNode] at h
    split_ifs at h with hc
    · injection h with h1 h2
      refine ⟨h1.symm, rfl, fun m2 path2 => ?_⟩
      simp only [processEnumNode]
      rw [if_pos hc]
    · injection h with h1 h2
      exact absurd h2 (List.cons_ne_nil _ _)

theorem processNumberNode_ok {m : Mode} {path : List String} {v w : Json}
    {d : Option Bool} {mn mx : Option NumBound}
    (h : processNumberNode m path v d mn mx = (w, [])) :
    w = v ∧ v.isNull = false ∧ ∀ (m2 : Mode) (path2 : List String),
      processNumberNode m2 path2 v d mn mx = (v, []) := by
  cases v <;>
    try (injection h with h1 h2; exact absurd h2 (List.cons_ne_nil _ _))
  case num q =>
    rcases hr1 : readMinimumValue mn with _ | b1 <;>
      rcases hr2 : readMaximumValue mx with _ | b2 <;>
        simp only [processNumberNode, hr1, hr2] at h <;>
        split_ifs at h <;>
        first
          | (exfalso; simp_all; done)
          | (have ha : Json.num q = w := by simpa using h;
             refine ⟨ha.symm, rfl, fun m2 path2 => ?_⟩;
             simp only [processNumberNode, hr1, hr2];
             split_ifs <;> first | rfl | (exfalso; simp_all; done))

theorem processStringNode_ok {m : Mode} {rt : String → String → Bool}
    {path : List String} {v w : Json} {len len' : Option LengthC}
    {pat : Option String}
    (h : processStringNode m rt path v len pat = (w, len', [])) :
    w = v ∧ v.isNull = false ∧
    ∀ (m2 : Mode) (path2 : List String) (len2 : Option LengthC),
      Option.map truncLength len2 = Option.map truncLength len →
      ∃ len2', processStringNode m2 rt path2 v len2 pat = (v, len2', []) ∧
        Option.map truncLength len2' = Option.map truncLength len := by
  cases v <;> try exact (pair3_errs_ne h).elim
  case str s =>
    simp only [processStringNode] at h
    rcases hcl : checkLengthOpt ((s.length : ℚ)) len path with ⟨l1, e1⟩
    rw [hcl] at h
    simp only at h
    injection h with hw h2
    injection h2 with hl herr
    obtain ⟨he1, hpat⟩ := List.append_eq_nil.mp herr
    refine ⟨hw.symm, rfl, fun m2 path2 len2 hlen2 => ?_⟩
    rcases hcl2 : checkLengthOpt ((s.length : ℚ)) len2 path2 with ⟨l2, e2⟩
    have he2 : e2 = [] := by
      have hh := checkLengthOpt_errs_empty_congr ((s.length : ℚ)) path path2
        hlen2.symm (by rw [hcl]; exact he1)
      rw [hcl2] at hh
      exact hh
    have hl2 : Option.map truncLength l2 = Option.map truncLength len := by
      have hh := (checkLengthOpt_trunc ((s.length : ℚ)) path2 len2 len2 rfl).2.2
      rw [hcl2] at hh
      simp only at hh
      rw [hh, hlen2]
    refine ⟨l2, ?_, hl2⟩
    simp only [processStringNode, hcl2]
    subst he2
    cases pat with
    | none => simp
    | some p =>
        by_cases hr : rt p s = true
        · simp [hr]
        · rw [Bool.not_eq_true] at hr
          simp only [hr] at hpat
          simp at hpat

theorem map_fst_nullPairs (ks : List String) :
    (ks.map fun k => (k, Json.null)).map Prod.fst = ks := by
  rw [List.map_map]
  rw [show (Prod.fst ∘ fun k => ((k : String), Json.null)) = id from
    funext fun k => rfl]
  exact List.map_id _

theorem contains_true_iff (l : List String) (k : String) :
    l.contains k = true ↔ k ∈ l := by
  simp

theorem adjustNode_null_guard (m : Mode) (rt : String → String → Bool)
    (path : List String) (v : Json) (s : Schema)
    (h : (s.option && v.isNull) = true) :
    adjustNode m rt path v s = .ok (.null, s, []) := by
  cases s <;> cases v <;> (simp only [adjustNode]; rw [if_pos h])

/-- The heart of the amended C1: an errorless walk (either mode) over a
value with good keys returns exactly the documented normalization, and
the returned value is a fixed point of any further walk against a
`truncSchema`-compatible schema. -/
theorem adjustNodeRoundAux (rt : String → String → Bool) (m m' : Mode) :
    ∀ (n : Nat) (v : Json), sizeOf v ≤ n → RoundIH rt m m' v := by
  intro n
  induction n with
  | zero =>
      intro v hn
      exfalso
      cases v <;> simp at hn
  | succ n ih =>
      intro v hn s path w s1 hgood hok
      by_cases hnull : (s.option && v.isNull) = true
      · rw [adjustNode_null_guard m rt path v s hnull] at hok
        simp only [Except.ok.injEq, Prod.mk.injEq] at hok
        obtain ⟨hw, hs1, -⟩ := hok
        subst hw
        rw [Bool.and_eq_true] at hnull
        refine ⟨(normalizeValue_null ?_).symm, Redecodes_null hnull.1⟩
        rw [Bool.and_eq_true, Schema.option_trunc]
        exact hnull
      · cases s with
        | flag o =>
            rcases hp : processFlagNode m path v with ⟨v1, errs1⟩
            have hL : adjustNode m rt path v (.flag o) = .ok (v1, .flag o, errs1) := by
              simp only [adjustNode]
              rw [if_neg hnull]
              simp only [hp]
            rw [hL] at hok
            simp only [Except.ok.injEq, Prod.mk.injEq] at hok
            obtain ⟨hw, hs1, herr⟩ := hok
            subst hw herr
            obtain ⟨hv1, hnn, hall⟩ := processFlagNode_ok hp
            constructor
            · rw [hv1]
              have hnorm : normalizeValue (Schema.flag o) v = v := by
                cases v <;> simp [normalizeValue, Json.isNull]
              exact hnorm.symm
            · replace hv1 := hv1.symm
              subst hv1
              intro u path' hu
              cases u <;> try (simp only [truncSchema] at hu; exact Schema.noConfusion hu)
              next o2 =>
                simp only [truncSchema, Schema.flag.injEq] at hu
                replace hu := hu.symm
                subst hu
                refine ⟨.flag o, ?_, rfl⟩
                simp only [adjustNode]
                rw [if_neg (by simp [hnn] : ¬ ((Schema.option (.flag o) && v.isNull) = true))]
                simp only [hall m' path']
        | number o d mn mx =>
            rcases hp : processNumberNode m path v d mn mx with ⟨v1, errs1⟩
            have hL : adjustNode m rt path v (.number o d mn mx) =
                .ok (v1, .number o d mn mx, errs1) := by
              simp only [adjustNode]
              rw [if_neg hnull]
              simp only [hp]
            rw [hL] at hok
            simp only [Except.ok.injEq, Prod.mk.injEq] at hok
            obtain ⟨hw, hs1, herr⟩ := hok
            subst hw herr
            obtain ⟨hv1, hnn, hall⟩ := processNumberNode_ok hp
            constructor
            · rw [hv1]
              have hnorm : normalizeValue (Schema.number o d mn mx) v = v := by
                cases v <;> simp [normalizeValue, Json.isNull]
              exact hnorm.symm
            · replace hv1 := hv1.symm
              subst hv1
              intro u path' hu
              cases u <;> try (simp only [truncSchema] at hu; exact Schema.noConfusion hu)
              next o2 d2 mn2 mx2 =>
                simp only [truncSchema, Schema.number.injEq] at hu
                obtain ⟨ho2, hd2, hmn2, hmx2⟩ := hu
                replace ho2 := ho2.symm
                replace hd2 := hd2.symm
                replace hmn2 := hmn2.symm
                replace hmx2 := hmx2.symm
                subst ho2 hd2 hmn2 hmx2
                refine ⟨.number o d mn mx, ?_, rfl⟩
                simp only [adjustNode]
                rw [if_neg (by simp [hnn] :
                  ¬ ((Schema.option (.number o d mn mx) && v.isNull) = true))]
                simp only [hall m' path']
        | enum o values =>
            rcases hp : processEnumNode m path v values with ⟨v1, errs1⟩
            have hL : adjustNode m rt path v (.enum o values) =
                .ok (v1, .enum o values, errs1) := by
              simp only [adjustNode]
              rw [if_neg hnull]
              simp only [hp]
            rw [hL] at hok
            simp only [Except.ok.injEq, Prod.mk.injEq] at hok
            obtain ⟨hw, hs1, herr⟩ := hok
            subst hw herr
            obtain ⟨hv1, hnn, hall⟩ := processEnumNode_ok hp
            constructor
            · rw [hv1]
              have hnorm : normalizeValue (Schema.enum o values) v = v := by
                cases v <;> simp [normalizeValue, Json.isNull]
              exact hnorm.symm
            · replace hv1 := hv1.symm
              subst hv1
              intro u path' hu
              cases u <;> try (simp only [truncSchema] at hu; exact Schema.noConfusion hu)
              next o2 values2 =>
                simp only [truncSchema, Schema.enum.injEq] at hu
                obtain ⟨ho2, hv2⟩ := hu
                replace ho2 := ho2.symm
                replace hv2 := hv2.symm
                subst ho2 hv2
                refine ⟨.enum o values, ?_, rfl⟩
                simp only [adjustNode]
                rw [if_neg (by simp [hnn] :
                  ¬ ((Schema.option (.enum o values) && v.isNull) = true))]
                simp only [hall m' path']
        | string o len pat =>
            rcases hp : processStringNode m rt path v len pat with ⟨v1, len1, errs1⟩
            have hL : adjustNode m rt path v (.string o len pat) =
                .ok (v1, .string o len1 pat, errs1) := by
              simp only [adjustNode]
              rw [if_neg hnull]
              simp only [hp]
            rw [hL] at hok
            simp only [Except.ok.injEq, Prod.mk.injEq] at hok
            obtain ⟨hw, hs1, herr⟩ := hok
            subst hw herr
            obtain ⟨hv1, hnn, hall⟩ := processStringNode_ok hp
            constructor
            · rw [hv1]
              have hnorm : normalizeValue (truncSchema (Schema.string o len pat)) v =
                  v := by
                cases v <;> simp [truncSchema, normalizeValue, Json.isNull]
              exact hnorm.symm
            · replace hv1 := hv1.symm
              subst hv1
              intro u path' hu
              cases u <;> try (simp only [truncSchema] at hu; exact Schema.noConfusion hu)
              next o2 len2 pat2 =>
                simp only [truncSchema, Schema.string.injEq] at hu
                obtain ⟨ho2, hlen2, hpat2⟩ := hu
                replace ho2 := ho2.symm
                replace hpat2 := hpat2.symm
                subst ho2 hpat2
                obtain ⟨len2', hproc, hlen2'⟩ := hall m' path' len2 hlen2
                refine ⟨.string o len2' pat, ?_, ?_⟩
                · simp only [adjustNode]
                  rw [if_neg (by simp [hnn] :
                    ¬ ((Schema.option (.string o len2 pat) && v.isNull) = true))]
                  simp only [hproc]
                · simp only [truncSchema]
                  rw [hlen2']
        | array o len val =>
            cases v with
            | null =>
                have hL : adjustNode m rt path .null (.array o len val) =
                    .error .typeError := by
                  simp only [adjustNode]
                  rw [if_neg hnull]
                rw [hL] at hok
                exact Except.noConfusion hok
            | undef =>
                have hL : adjustNode m rt path .undef (.array o len val) =
                    .error .typeError := by
                  simp only [adjustNode]
                  rw [if_neg hnull]
                rw [hL] at hok
                exact Except.noConfusion hok
            | bool b =>
                have hL : adjustNode m rt path (.bool b) (.array o len val) =
                    .ok (.undef, .array o len val, [⟨path, expectingMsg m .array⟩]) := by
                  simp only [adjustNode]
                  rw [if_neg hnull]
                rw [hL] at hok
                simp only [Except.ok.injEq, Prod.mk.injEq] at hok
                exact absurd hok.2.2 (List.cons_ne_nil _ _)
            | num q =>
                have hL : adjustNode m rt path (.num q) (.array o len val) =
                    .ok (.undef, .array o len val, [⟨path, expectingMsg m .array⟩]) := by
                  simp only [adjustNode]
                  rw [if_neg hnull]
                rw [hL] at hok
                simp only [Except.ok.injEq, Prod.mk.injEq] at hok
                exact absurd hok.2.2 (List.cons_ne_nil _ _)
            | str s0 =>
                have hL : adjustNode m rt path (.str s0) (.array o len val) =
                    .ok (.undef, .array o len val, [⟨path, expectingMsg m .array⟩]) := by
                  simp only [adjustNode]
                  rw [if_neg hnull]
                rw [hL] at hok
                simp only [Except.ok.injEq, Prod.mk.injEq] at hok
                exact absurd hok.2.2 (List.cons_ne_nil _ _)
            | obj es =>
                have hL : adjustNode m rt path (.obj es) (.array o len val) =
                    .ok (.undef, .array o len val, [⟨path, expectingMsg m .array⟩]) := by
                  simp only [adjustNode]
                  rw [if_neg hnull]
                rw [hL] at hok
                simp only [Except.ok.injEq, Prod.mk.injEq] at hok
                exact absurd hok.2.2 (List.cons_ne_nil _ _)
            | arr items =>
                rcases hcl : checkLengthOpt ((items.length : ℚ)) len path with
                  ⟨len1, lenErrs⟩
                cases hai : adjustArrayItems m rt path val 0 items with
                | error e =>
                    have hL : adjustNode m rt path (.arr items) (.array o len val) =
                        .error e := by
                      simp only [adjustNode]
                      rw [if_neg hnull]
                      simp only [hcl, bind, Except.bind, hai]
                    rw [hL] at hok
                    exact Except.noConfusion hok
                | ok r =>
                    obtain ⟨out, val1, errs1⟩ := r
                    have hL : adjustNode m rt path (.arr items) (.array o len val) =
                        .ok (.arr out, .array o len1 val1, lenErrs ++ errs1) := by
                      simp only [adjustNode]
                      rw [if_neg hnull]
                      simp only [hcl, bind, Except.bind, hai]
                    rw [hL] at hok
                    simp only [Except.ok.injEq, Prod.mk.injEq] at hok
                    obtain ⟨hw, hs1, herr⟩ := hok
                    obtain ⟨hle, he1⟩ := List.append_eq_nil.mp herr
                    subst hle he1
                    simp only [truncSchema, goodKeys] at hgood
                    have helem : ∀ x ∈ items, RoundIH rt m m' x := by
                      intro x hx
                      exact ih x (by have h1 := sizeOf_mem_arr hx; omega)
                    obtain ⟨hout, hrd⟩ := adjustArrayItems_round rt m m' path items
                      helem val val 0 out val1 rfl hgood hai
                    subst hw
                    constructor
                    · rw [hout]
                      simp [truncSchema, normalizeValue, Json.isNull]
                    · intro u path' hu
                      cases u <;> try (simp only [truncSchema] at hu; exact Schema.noConfusion hu)
                      next o2 len2 val2 =>
                        simp only [truncSchema, Schema.array.injEq] at hu
                        obtain ⟨ho2, hlen2, hval2⟩ := hu
                        replace ho2 := ho2.symm
                        subst ho2
                        have holen : ((out.length : ℚ)) = ((items.length : ℚ)) := by
                          rw [hout, normalizeList_length]
                        have hle2 : (checkLengthOpt ((out.length : ℚ)) len2 path').2 =
                            [] := by
                          rw [holen]
                          exact checkLengthOpt_errs_empty_congr _ path path'
                            hlen2.symm (by rw [hcl])
                        rcases hcl2 : checkLengthOpt ((out.length : ℚ)) len2 path' with
                          ⟨len2', lenErrs2⟩
                        rw [hcl2] at hle2
                        have hle2' : lenErrs2 = [] := hle2
                        subst hle2'
                        have htr2 : Option.map truncLength len2' =
                            Option.map truncLength len2 := by
                          have hh := (checkLengthOpt_trunc ((out.length : ℚ)) path'
                            len2 len2 rfl).2.2
                          rw [hcl2] at hh
                          exact hh
                        obtain ⟨u1v, hloop, hu1v⟩ := adjustArrayItems_redecode m' rt
                          path' val out hrd val2 0 hval2
                        refine ⟨.array o len2' u1v, ?_, ?_⟩
                        · simp only [adjustNode]
                          rw [if_neg (by simp [Json.isNull] :
                            ¬ ((Schema.option (.array o len2 val2) &&
                              (Json.arr out).isNull) = true))]
                          simp only [hcl2, bind, Except.bind, hloop]
                          rfl
                        · simp only [truncSchema]
                          rw [htr2, hlen2, hu1v]
        | tuple o fmts =>
            cases v with
            | null =>
                have hL : adjustNode m rt path .null (.tuple o fmts) =
                    .error .typeError := by
                  simp only [adjustNode]
                  rw [if_neg hnull]
                rw [hL] at hok
                exact Except.noConfusion hok
            | undef =>
                have hL : adjustNode m rt path .undef (.tuple o fmts) =
                    .error .typeError := by
                  simp only [adjustNode]
                  rw [if_neg hnull]
                rw [hL] at hok
                exact Except.noConfusion hok
            | bool b =>
                have hL : adjustNode m rt path (.bool b) (.tuple o fmts) =
                    .ok (.undef, .tuple o fmts, [⟨path, expectingMsg m .array⟩]) := by
                  simp only [adjustNode]
                  rw [if_neg hnull]
                rw [hL] at hok
                simp only [Except.ok.injEq, Prod.mk.injEq] at hok
                exact absurd hok.2.2 (List.cons_ne_nil _ _)
            | num q =>
                have hL : adjustNode m rt path (.num q) (.tuple o fmts) =
                    .ok (.undef, .tuple o fmts, [⟨path, expectingMsg m .array⟩]) := by
                  simp only [adjustNode]
                  rw [if_neg hnull]
                rw [hL] at hok
                simp only [Except.ok.injEq, Prod.mk.injEq] at hok
                exact absurd hok.2.2 (List.cons_ne_nil _ _)
            | str s0 =>
                have hL : adjustNode m rt path (.str s0) (.tuple o fmts) =
                    .ok (.undef, .tuple o fmts, [⟨path, expectingMsg m .array⟩]) := by
                  simp only [adjustNode]
                  rw [if_neg hnull]
                rw [hL] at hok
                simp only [Except.ok.injEq, Prod.mk.injEq] at hok
                exact absurd hok.2.2 (List.cons_ne_nil _ _)
            | obj es =>
                have hL : adjustNode m rt path (.obj es) (.tuple o fmts) =
                    .ok (.undef, .tuple o fmts, [⟨path, expectingMsg m .array⟩]) := by
                  simp only [adjustNode]
                  rw [if_neg hnull]
                rw [hL] at hok
                simp only [Except.ok.injEq, Prod.mk.injEq] at hok
                exact absurd hok.2.2 (List.cons_ne_nil _ _)
            | arr items =>
                by_cases har : items.length = fmts.length
                · cases hti : adjustTupleItems m rt path 0 items fmts with
                  | error e =>
                      have hL : adjustNode m rt path (.arr items) (.tuple o fmts) =
                          .error e := by
                        simp only [adjustNode]
                        rw [if_neg hnull]
                        rw [if_neg (by simp [har] : ¬ items.length ≠ fmts.length)]
                        simp only [bind, Except.bind, hti]
                      rw [hL] at hok
                      exact Except.noConfusion hok
                  | ok r =>
                      obtain ⟨out, fmts1, errs1⟩ := r
                      have hL : adjustNode m rt path (.arr items) (.tuple o fmts) =
                          .ok (.arr out, .tuple o fmts1, errs1) := by
                        simp only [adjustNode]
                        rw [if_neg hnull]
                        rw [if_neg (by simp [har] : ¬ items.length ≠ fmts.length)]
                        simp only [bind, Except.bind, hti]
                      rw [hL] at hok
                      simp only [Except.ok.injEq, Prod.mk.injEq] at hok
                      obtain ⟨hw, hs1, herr⟩ := hok
                      subst herr
                      simp only [truncSchema, goodKeys] at hgood
                      have helem : ∀ x ∈ items, RoundIH rt m m' x := by
                        intro x hx
                        exact ih x (by have h1 := sizeOf_mem_arr hx; omega)
                      obtain ⟨hout, hrd⟩ := adjustTupleItems_round rt m m' path items
                        helem fmts fmts 0 out fmts1 rfl hgood hti
                      subst hw
                      constructor
                      · rw [hout]
                        simp [truncSchema, normalizeValue, Json.isNull]
                      · intro u path' hu
                        cases u <;> try (simp only [truncSchema] at hu; exact Schema.noConfusion hu)
                        next o2 fmts2 =>
                          simp only [truncSchema, Schema.tuple.injEq] at hu
                          obtain ⟨ho2, hfmts2⟩ := hu
                          replace ho2 := ho2.symm
                          subst ho2
                          have hlout : out.length = fmts2.length := by
                            rw [hout]
                            rw [show (normalizeTuple (truncSchemaList fmts)
                                items).length = items.length from
                              normalizeTuple_length _ _ (by
                                rw [truncSchemaList_length]; exact har)]
                            rw [har, ← truncSchemaList_length fmts, ← hfmts2,
                              truncSchemaList_length]
                          obtain ⟨u1, hloop, hu1⟩ := adjustTupleItems_redecode m' rt
                            path' out fmts fmts2 0
                            (by rw [hout]; rw [normalizeTuple_length _ _ (by
                              rw [truncSchemaList_length]; exact har)]; exact har)
                            hfmts2 hrd
                          refine ⟨.tuple o u1, ?_, ?_⟩
                          · simp only [adjustNode]
                            rw [if_neg (by simp [Json.isNull] :
                              ¬ ((Schema.option (.tuple o fmts2) &&
                                (Json.arr out).isNull) = true))]
                            rw [if_neg (by simp [hlout] :
                              ¬ out.length ≠ fmts2.length)]
                            simp only [bind, Except.bind, hloop]
                          · simp only [truncSchema]
                            rw [hu1]
                · have hL : adjustNode m rt path (.arr items) (.tuple o fmts) =
                      .ok (.undef, .tuple o fmts,
                        [⟨path, "length of the array must be " ++
                          toString fmts.length⟩]) := by
                    simp only [adjustNode]
                    rw [if_neg hnull]
                    rw [if_pos (by simpa using har)]
                  rw [hL] at hok
                  simp only [Except.ok.injEq, Prod.mk.injEq] at hok
                  exact absurd hok.2.2 (List.cons_ne_nil _ _)
        | object o key len val =>
            cases v with
            | null =>
                have hL : adjustNode m rt path .null (.object o key len val) =
                    .error .typeError := by
                  simp only [adjustNode]
                  rw [if_neg hnull]
                rw [hL] at hok
                exact Except.noConfusion hok
            | undef =>
                have hL : adjustNode m rt path .undef (.object o key len val) =
                    .error .typeError := by
                  simp only [adjustNode]
                  rw [if_neg hnull]
                rw [hL] at hok
                exact Except.noConfusion hok
            | bool b =>
                have hL : adjustNode m rt path (.bool b) (.object o key len val) =
                    .ok (.undef, .object o key len val,
                      [⟨path, expectingMsg m .object⟩]) := by
                  simp only [adjustNode]
                  rw [if_neg hnull]
                rw [hL] at hok
                simp only [Except.ok.injEq, Prod.mk.injEq] at hok
                exact absurd hok.2.2 (List.cons_ne_nil _ _)
            | num q =>
                have hL : adjustNode m rt path (.num q) (.object o key len val) =
                    .ok (.undef, .object o key len val,
                      [⟨path, expectingMsg m .object⟩]) := by
                  simp only [adjustNode]
                  rw [if_neg hnull]
                rw [hL] at hok
                simp only [Except.ok.injEq, Prod.mk.injEq] at hok
                exact absurd hok.2.2 (List.cons_ne_nil _ _)
            | str s0 =>
                have hL : adjustNode m rt path (.str s0) (.object o key len val) =
                    .ok (.undef, .object o key len val,
                      [⟨path, expectingMsg m .object⟩]) := by
                  simp only [adjustNode]
                  rw [if_neg hnull]
                rw [hL] at hok
                simp only [Except.ok.injEq, Prod.mk.injEq] at hok
                exact absurd hok.2.2 (List.cons_ne_nil _ _)
            | arr items =>
                have hL : adjustNode m rt path (.arr items) (.object o key len val) =
                    .ok (.undef, .object o key len val,
                      [⟨path, expectingMsg m .object⟩]) := by
                  simp only [adjustNode]
                  rw [if_neg hnull]
                rw [hL] at hok
                simp only [Except.ok.injEq, Prod.mk.injEq] at hok
                exact absurd hok.2.2 (List.cons_ne_nil _ _)
            | obj es =>
                rcases hcl : checkLengthOpt ((es.length : ℚ)) len path with
                  ⟨len1, lenErrs⟩
                cases hoe : adjustObjectEntries m rt path key val 0 es [] with
                | error e =>
                    have hL : adjustNode m rt path (.obj es) (.object o key len val) =
                        .error e := by
                      simp only [adjustNode]
                      rw [if_neg hnull]
                      simp only [hcl, bind, Except.bind, hoe]
                    rw [hL] at hok
                    exact Except.noConfusion hok
                | ok r =>
                    obtain ⟨out, val1, errs1⟩ := r
                    have hL : adjustNode m rt path (.obj es) (.object o key len val) =
                        .ok (.obj out, .object o key len1 val1,
                          lenErrs ++ errs1) := by
                      simp only [adjustNode]
                      rw [if_neg hnull]
                      simp only [hcl, bind, Except.bind, hoe]
                    rw [hL] at hok
                    simp only [Except.ok.injEq, Prod.mk.injEq] at hok
                    obtain ⟨hw, hs1, herr⟩ := hok
                    obtain ⟨hle, he1⟩ := List.append_eq_nil.mp herr
                    subst hle he1
                    simp only [truncSchema, goodKeys, Bool.and_eq_true,
                      decide_eq_true_eq] at hgood
                    obtain ⟨hnd, hge⟩ := hgood
                    have helem : ∀ kv ∈ es, RoundIH rt m m' kv.2 := by
                      intro kv hkv
                      refine ih kv.2 ?_
                      have h1 := sizeOf_mem_obj
                        (show (kv.1, kv.2) ∈ es by rw [Prod.mk.eta]; exact hkv)
                      omega
                    have holen0 : out.length = es.length → True := fun _ => trivial
                    cases key with
                    | integer =>
                        have hnd' : (es.map fun kv => canonKey kv.1).Nodup := hnd
                        obtain ⟨hout, hmem⟩ := adjustObjectEntries_int_round rt m m'
                          path es helem val val 0 [] out val1 rfl hge hnd'
                          (fun kv _ => rfl) hoe
                        simp only [List.nil_append] at hout
                        subst hw
                        constructor
                        · rw [hout]
                          simp [truncSchema, normalizeValue, Json.isNull]
                        · intro u path' hu
                          cases u <;> try (simp only [truncSchema] at hu; exact Schema.noConfusion hu)
                          next o2 key2 len2 val2 =>
                            simp only [truncSchema, Schema.object.injEq] at hu
                            obtain ⟨ho2, hk2, hlen2, hval2⟩ := hu
                            replace ho2 := ho2.symm
                            subst ho2 hk2
                            have holen : ((out.length : ℚ)) = ((es.length : ℚ)) := by
                              rw [hout, normalizeObjEntries_length]
                            have hle2 : (checkLengthOpt ((out.length : ℚ)) len2
                                path').2 = [] := by
                              rw [holen]
                              exact checkLengthOpt_errs_empty_congr _ path path'
                                hlen2.symm (by rw [hcl])
                            rcases hcl2 : checkLengthOpt ((out.length : ℚ)) len2
                              path' with ⟨len2', lenErrs2⟩
                            rw [hcl2] at hle2
                            have hle2' : lenErrs2 = [] := hle2
                            subst hle2'
                            have htr2 : Option.map truncLength len2' =
                                Option.map truncLength len2 := by
                              have hh := (checkLengthOpt_trunc ((out.length : ℚ))
                                path' len2 len2 rfl).2.2
                              rw [hcl2] at hh
                              exact hh
                            have hkeysout : ∀ kv ∈ out, ∃ nk : Int,
                                kv.1 = intToString nk := by
                              intro kv hkv
                              rw [hout] at hkv
                              exact (hmem kv hkv).1
                            have hrdout : ∀ kv ∈ out, Redecodes m' rt val kv.2 := by
                              intro kv hkv
                              rw [hout] at hkv
                              exact (hmem kv hkv).2
                            have hndout : (out.map Prod.fst).Nodup := by
                              rw [hout, normalizeObjEntries_map_fst]
                              exact hnd'
                            obtain ⟨u1v, hloop, hu1v⟩ :=
                              adjustObjectEntries_int_redecode m' rt path' val out
                                hkeysout hrdout hndout val2 0 []
                                (fun kv _ => rfl) hval2
                            refine ⟨.object o .integer len2' u1v, ?_, ?_⟩
                            · simp only [adjustNode]
                              rw [if_neg (by simp [Json.isNull] :
                                ¬ ((Schema.option (.object o .integer len2 val2) &&
                                  (Json.obj out).isNull) = true))]
                              simp only [hcl2, bind, Except.bind]
                              rw [show adjustObjectEntries m' rt path' .integer val2
                                  0 out [] = .ok ([] ++ out, u1v, []) from hloop]
                              simp
                            · simp only [truncSchema]
                              rw [htr2, hlen2, hu1v]
                    | string =>
                        have hnd' : (es.map fun kv => kv.1).Nodup := hnd
                        obtain ⟨hout, hmem⟩ := adjustObjectEntries_str_round rt m m'
                          path es helem val val 0 [] out val1 rfl hge hnd'
                          (fun kv _ => rfl) hoe
                        simp only [List.nil_append] at hout
                        subst hw
                        constructor
                        · rw [hout]
                          simp [truncSchema, normalizeValue, Json.isNull]
                        · intro u path' hu
                          cases u <;> try (simp only [truncSchema] at hu; exact Schema.noConfusion hu)
                          next o2 key2 len2 val2 =>
                            simp only [truncSchema, Schema.object.injEq] at hu
                            obtain ⟨ho2, hk2, hlen2, hval2⟩ := hu
                            replace ho2 := ho2.symm
                            subst ho2 hk2
                            have holen : ((out.length : ℚ)) = ((es.length : ℚ)) := by
                              rw [hout, normalizeObjEntries_length]
                            have hle2 : (checkLengthOpt ((out.length : ℚ)) len2
                                path').2 = [] := by
                              rw [holen]
                              exact checkLengthOpt_errs_empty_congr _ path path'
                                hlen2.symm (by rw [hcl])
                            rcases hcl2 : checkLengthOpt ((out.length : ℚ)) len2
                              path' with ⟨len2', lenErrs2⟩
                            rw [hcl2] at hle2
                            have hle2' : lenErrs2 = [] := hle2
                            subst hle2'
                            have htr2 : Option.map truncLength len2' =
                                Option.map truncLength len2 := by
                              have hh := (checkLengthOpt_trunc ((out.length : ℚ))
                                path' len2 len2 rfl).2.2
                              rw [hcl2] at hh
                              exact hh
                            have hkeysout : ∀ kv ∈ out,
                                namePatternTest kv.1 = true := by
                              intro kv hkv
                              rw [hout] at hkv
                              exact (hmem kv hkv).1
                            have hrdout : ∀ kv ∈ out, Redecodes m' rt val kv.2 := by
                              intro kv hkv
                              rw [hout] at hkv
                              exact (hmem kv hkv).2
                            have hndout : (out.map Prod.fst).Nodup := by
                              rw [hout, normalizeObjEntries_map_fst]
                              exact hnd'
                            obtain ⟨u1v, hloop, hu1v⟩ :=
                              adjustObjectEntries_str_redecode m' rt path' val out
                                hkeysout hrdout hndout val2 0 []
                                (fun kv _ => rfl) hval2
                            refine ⟨.object o .string len2' u1v, ?_, ?_⟩
                            · simp only [adjustNode]
                              rw [if_neg (by simp [Json.isNull] :
                                ¬ ((Schema.option (.object o .string len2 val2) &&
                                  (Json.obj out).isNull) = true))]
                              simp only [hcl2, bind, Except.bind]
                              rw [show adjustObjectEntries m' rt path' .string val2
                                  0 out [] = .ok ([] ++ out, u1v, []) from hloop]
                              simp
                            · simp only [truncSchema]
                              rw [htr2, hlen2, hu1v]
        | map o fields =>
            cases v with
            | null =>
                have hL : adjustNode m rt path .null (.map o fields) =
                    .error .typeError := by
                  simp only [adjustNode]
                  rw [if_neg hnull]
                rw [hL] at hok
                exact Except.noConfusion hok
            | undef =>
                have hL : adjustNode m rt path .undef (.map o fields) =
                    .error .typeError := by
                  simp only [adjustNode]
                  rw [if_neg hnull]
                rw [hL] at hok
                exact Except.noConfusion hok
            | bool b =>
                have hL : adjustNode m rt path (.bool b) (.map o fields) =
                    .ok (.undef, .map o fields, [⟨path, expectingMsg m .object⟩]) := by
                  simp only [adjustNode]
                  rw [if_neg hnull]
                rw [hL] at hok
                simp only [Except.ok.injEq, Prod.mk.injEq] at hok
                exact absurd hok.2.2 (List.cons_ne_nil _ _)
            | num q =>
                have hL : adjustNode m rt path (.num q) (.map o fields) =
                    .ok (.undef, .map o fields, [⟨path, expectingMsg m .object⟩]) := by
                  simp only [adjustNode]
                  rw [if_neg hnull]
                rw [hL] at hok
                simp only [Except.ok.injEq, Prod.mk.injEq] at hok
                exact absurd hok.2.2 (List.cons_ne_nil _ _)
            | str s0 =>
                have hL : adjustNode m rt path (.str s0) (.map o fields) =
                    .ok (.undef, .map o fields, [⟨path, expectingMsg m .object⟩]) := by
                  simp only [adjustNode]
                  rw [if_neg hnull]
                rw [hL] at hok
                simp only [Except.ok.injEq, Prod.mk.injEq] at hok
                exact absurd hok.2.2 (List.cons_ne_nil _ _)
            | arr items =>
                have hL : adjustNode m rt path (.arr items) (.map o fields) =
                    .ok (.undef, .map o fields, [⟨path, expectingMsg m .object⟩]) := by
                  simp only [adjustNode]
                  rw [if_neg hnull]
                rw [hL] at hok
                simp only [Except.ok.injEq, Prod.mk.injEq] at hok
                exact absurd hok.2.2 (List.cons_ne_nil _ _)
            | obj es =>
                cases hme : adjustMapEntries m rt path fields es [] with
                | error e =>
                    have hL : adjustNode m rt path (.obj es) (.map o fields) =
                        .error e := by
                      simp only [adjustNode]
                      rw [if_neg hnull]
                      simp only [bind, Except.bind, hme]
                    rw [hL] at hok
                    exact Except.noConfusion hok
                | ok r =>
                    obtain ⟨out, F', errs1⟩ := r
                    rcases hsm : synthesizeMissing path F' (missingKeysOf F' out)
                      out with ⟨adjusted', missErrs⟩
                    have hL : adjustNode m rt path (.obj es) (.map o fields) =
                        .ok (.obj adjusted', .map o F', errs1 ++ missErrs) := by
                      simp only [adjustNode]
                      rw [if_neg hnull]
                      simp only [bind, Except.bind, hme, hsm]
                    rw [hL] at hok
                    simp only [Except.ok.injEq, Prod.mk.injEq] at hok
                    obtain ⟨hw, hs1, herr⟩ := hok
                    obtain ⟨he1, hms⟩ := List.append_eq_nil.mp herr
                    subst he1 hms
                    simp only [truncSchema, goodKeys, Bool.and_eq_true,
                      decide_eq_true_eq] at hgood
                    obtain ⟨⟨hndE, hndF⟩, hgm⟩ := hgood
                    rw [truncSchemaFields_map_fst] at hndF
                    have helem : ∀ kv ∈ es, RoundIH rt m m' kv.2 := by
                      intro kv hkv
                      refine ih kv.2 ?_
                      have h1 := sizeOf_mem_obj
                        (show (kv.1, kv.2) ∈ es by rw [Prod.mk.eta]; exact hkv)
                      omega
                    obtain ⟨hout, hF', hmem⟩ := adjustMapEntries_round rt m m' path
                      es helem fields fields [] out F' rfl hgm hndE
                      (fun kv _ => rfl) hme
                    simp only [List.nil_append] at hout
                    have houtkeys : out.map Prod.fst = es.map Prod.fst := by
                      rw [hout, normalizeMapEntries_map_fst]
                    have hFk : F'.map Prod.fst = fields.map Prod.fst :=
                      truncSchemaFields_eq_map_fst hF'
                    have hpredeq : (fun k => !assocHas k out) =
                        (fun k => !(es.map Prod.fst).contains k) := by
                      funext k
                      rw [assocHas_eq_contains, houtkeys]
                    have hks : missingKeysOf F' out =
                        (fields.map Prod.fst).filter
                          fun k => !(es.map Prod.fst).contains k := by
                      simp only [missingKeysOf]
                      rw [hFk, hpredeq]
                    have hksnd : (missingKeysOf F' out).Nodup := by
                      rw [hks]
                      exact hndF.filter _
                    have hksfresh : ∀ k ∈ missingKeysOf F' out,
                        assocHas k out = false := by
                      intro k hk
                      simp only [missingKeysOf, List.mem_filter] at hk
                      simpa using hk.2
                    obtain ⟨hopts, hadj0⟩ := synthesizeMissing_ok path F'
                      (missingKeysOf F' out) out hksnd hksfresh (by rw [hsm])
                    rw [hsm] at hadj0
                    have hadj : adjusted' = out ++ (missingKeysOf F' out).map
                        fun k => (k, Json.null) := hadj0
                    have hfilter2 : (missingKeysOf F' out).filter
                        (fun k => ((fieldsGet k (truncSchemaFields fields)).map
                          Schema.option).getD false) = missingKeysOf F' out := by
                      apply List.filter_eq_self.mpr
                      intro k hk
                      obtain ⟨skF', hgF', hoptF'⟩ := hopts k hk
                      have h1 := fieldsGet_trunc_congr k F' fields hF'
                      rw [hgF'] at h1
                      rw [fieldsGet_truncSchemaFields]
                      cases hgf : fieldsGet k fields with
                      | none => rw [hgf] at h1; simp at h1
                      | some skf =>
                          rw [hgf] at h1
                          simp only [Option.map_some', Option.some.injEq] at h1
                          simp only [Option.map_some', Option.getD_some]
                          rw [← h1, Schema.option_trunc]
                          exact hoptF'
                    subst hw
                    constructor
                    · rw [show normalizeValue (truncSchema (Schema.map o fields))
                          (Json.obj es) = Json.obj
                          (normalizeMapEntries (truncSchemaFields fields) es ++
                            ((((truncSchemaFields fields).map Prod.fst).filter
                              fun k => !(es.map Prod.fst).contains k).filter
                              fun k => ((fieldsGet k (truncSchemaFields
                                fields)).map Schema.option).getD false).map
                              fun k => (k, Json.null)) from by
                        simp [truncSchema, normalizeValue, Json.isNull]]
                      rw [truncSchemaFields_map_fst, ← hks, hfilter2, hadj, hout]
                    · intro u path' hu
                      cases u <;> try (simp only [truncSchema] at hu; exact Schema.noConfusion hu)
                      next o2 G =>
                        simp only [truncSchema, Schema.map.injEq] at hu
                        obtain ⟨ho2, hG⟩ := hu
                        replace ho2 := ho2.symm
                        subst ho2
                        have hdecl : ∀ kv ∈ adjusted', ∃ skG,
                            fieldsGet kv.1 G = some skG ∧
                              Redecodes m' rt skG kv.2 := by
                          intro kv hkv
                          rw [hadj] at hkv
                          rcases List.mem_append.mp hkv with hkv | hkv
                          · rw [hout] at hkv
                            obtain ⟨sk0, hg0, hrd0⟩ := hmem kv hkv
                            have h1 := fieldsGet_trunc_congr kv.1 G fields hG
                            rw [hg0] at h1
                            cases hgG : fieldsGet kv.1 G with
                            | none => rw [hgG] at h1; simp at h1
                            | some skG =>
                                rw [hgG] at h1
                                simp only [Option.map_some', Option.some.injEq] at h1
                                exact ⟨skG, rfl, Redecodes_congr h1.symm hrd0⟩
                          · obtain ⟨k, hkmem, hkv2⟩ := List.mem_map.mp hkv
                            obtain ⟨skF', hgF', hoptF'⟩ := hopts k hkmem
                            have hG' : truncSchemaFields G = truncSchemaFields F' :=
                              hG.trans hF'.symm
                            have h1 := fieldsGet_trunc_congr k G F' hG'
                            rw [hgF'] at h1
                            cases hgG : fieldsGet k G with
                            | none => rw [hgG] at h1; simp at h1
                            | some skG =>
                                rw [hgG] at h1
                                simp only [Option.map_some', Option.some.injEq] at h1
                                subst hkv2
                                refine ⟨skG, hgG, Redecodes_null ?_⟩
                                rw [← Schema.option_trunc skG, h1,
                                  Schema.option_trunc]
                                exact hoptF'
                        have hndadj : (adjusted'.map Prod.fst).Nodup := by
                          rw [hadj, List.map_append]
                          have hmnull : ((missingKeysOf F' out).map
                              (fun k => (k, Json.null))).map Prod.fst =
                              missingKeysOf F' out :=
                            map_fst_nullPairs _
                          rw [hmnull, houtkeys]
                          refine List.nodup_append.mpr ⟨hndE, hksnd, ?_⟩
                          intro x hx hx2
                          rw [hks] at hx2
                          have hx3 := (List.mem_filter.mp hx2).2
                          have hx4 : (es.map Prod.fst).contains x = false := by
                            simpa using hx3
                          have hx5 := (contains_true_iff (es.map Prod.fst) x).mpr hx
                          rw [hx4] at hx5
                          exact Bool.noConfusion hx5
                        obtain ⟨G1, hloop2, hG1⟩ := adjustMapEntries_redecode m' rt
                          path' G adjusted' hdecl hndadj G [] (fun kv _ => rfl) rfl
                        have hGnames : G1.map Prod.fst = fields.map Prod.fst :=
                          truncSchemaFields_eq_map_fst (hG1.trans hG)
                        have hkeysadj : adjusted'.map Prod.fst =
                            es.map Prod.fst ++ missingKeysOf F' out := by
                          rw [hadj, List.map_append, houtkeys]
                          congr 1
                          exact map_fst_nullPairs _
                        have hmiss2 : missingKeysOf G1 ([] ++ adjusted') = [] := by
                          simp only [List.nil_append, missingKeysOf]
                          apply List.filter_eq_nil_iff.mpr
                          intro k hk
                          rw [hGnames] at hk
                          have hhas : assocHas k adjusted' = true := by
                            rw [assocHas_eq_contains, contains_true_iff, hkeysadj]
                            rw [List.mem_append]
                            by_cases hc : k ∈ es.map Prod.fst
                            · exact Or.inl hc
                            · refine Or.inr ?_
                              rw [hks]
                              apply List.mem_filter.mpr
                              refine ⟨hk, ?_⟩
                              have hc2 : (es.map Prod.fst).contains k = false := by
                                by_contra hcc
                                rw [Bool.not_eq_false] at hcc
                                exact hc ((contains_true_iff _ _).mp hcc)
                              simp [hc2]
                              intro x hx
                              exact hc (List.mem_map_of_mem Prod.fst hx)
                          simp [hhas]
                        refine ⟨.map o G1, ?_, ?_⟩
                        · simp only [adjustNode]
                          rw [if_neg (by simp [Json.isNull] :
                            ¬ ((Schema.option (.map o G) &&
                              (Json.obj adjusted').isNull) = true))]
                          simp only [bind, Except.bind, hloop2, hmiss2,
                            synthesizeMissing]
                          simp
                        · simp only [truncSchema]
                          rw [hG1, hG]

/-- **C1 (counterexample).** The round-trip as claimed fails: under an
integer-keyed object block, two spellings of the same integer key
(`"5"` and `"5.0"`) collapse into one entry, so a value that encodes
with no errors (here against an `exact 2` length property, which the
key collapse has taken out of range — the length check counts the raw
keys before collapsing) produces a document that does not decode back:
the re-decode reports `length must be equal to 2`. -/
theorem c1_counterexample :
    objectToDocumentLazy (fun _ _ => true)
      (.obj [("5", .bool true), ("5.0", .bool false)])
      (.object false .integer (some (.exact 2)) (.flag false)) =
      .ok (.obj [("5", .bool false)],
        .object false .integer (some (.exact 2)) (.flag false), []) ∧
    documentToObject (fun _ _ => true) (.obj [("5", .bool false)])
      (.object false .integer (some (.exact 2)) (.flag false)) =
      .error (.validationError ⟨[], "length must be equal to 2"⟩) :=
  ⟨rfl, rfl⟩

/-- **C1 (amended).** When the raw object keys are distinct and, under
integer-keyed object blocks, no two keys denote the same integer
(`goodKeys`), an errorless `objectToDocument` call returns exactly the
documented normalization of the value — missing optional map fields
appear as explicit `null` entries appended after the supplied fields,
and integer object keys are rewritten to the canonical decimal spelling
of the integer they denote — and `documentToObject` maps that document
back to itself with no errors, both against the schema the encode call
left behind and against the original (pristine) schema. -/
theorem c1_roundtrip_amended (rt : String → String → Bool) (value : Json)
    (specs : Schema) (w : Json) (s1 : Schema)
    (hgood : goodKeys (truncSchema specs) value = true)
    (henc : objectToDocumentLazy rt value specs = .ok (w, s1, [])) :
    w = normalizeValue (truncSchema specs) value ∧
      documentToObject rt w s1 = .ok w ∧
      documentToObject rt w specs = .ok w := by
  obtain ⟨hnorm, hrd⟩ := adjustNodeRoundAux rt .encode .decode (sizeOf value)
    value le_rfl specs [] w s1 hgood henc
  refine ⟨hnorm, ?_, ?_⟩
  · obtain ⟨u1, hok, -⟩ := hrd s1 [] (adjustNode_ok_trunc henc)
    simp only [documentToObject, hok]
  · obtain ⟨u1, hok, -⟩ := hrd specs [] rfl
    simp only [documentToObject, hok]

/-- Witness for the amended C1 on a concrete input: a map with a
supplied `foo` flag and a missing optional `bar` number encodes to the
normalized document (explicit `bar: null` appended) and that document
decodes back to itself errorlessly. -/
theorem c1_witness :
    (Json.obj [("foo", .bool true), ("bar", Json.null)]) =
      normalizeValue
        (truncSchema (.map false [("foo", .flag false),
          ("bar", .number true none none none)]))
        (.obj [("foo", .bool true)]) ∧
    documentToObject (fun _ _ => true)
      (.obj [("foo", .bool true), ("bar", Json.null)])
      (.map false [("foo", .flag false), ("bar", .number true none none none)]) =
      .ok (.obj [("foo", .bool true), ("bar", Json.null)]) :=
  ⟨(c1_roundtrip_amended (fun _ _ => true) (.obj [("foo", .bool true)])
      (.map false [("foo", .flag false), ("bar", .number true none none none)])
      (.obj [("foo", .bool true), ("bar", Json.null)])
      (.map false [("foo", .flag false), ("bar", .number true none none none)])
      rfl rfl).1,
   (c1_roundtrip_amended (fun _ _ => true) (.obj [("foo", .bool true)])
      (.map false [("foo", .flag false), ("bar", .number true none none none)])
      (.obj [("foo", .bool true), ("bar", Json.null)])
      (.map false [("foo", .flag false), ("bar", .number true none none none)])
      rfl rfl).2.2⟩

end Byteplug
